import Mathlib

/-!
Verification of the ssps single-source shortest-paths engine (BMSSP).

This file shallowly embeds the core of the repository:
  src/block_data_structure.rs  (the Block List structure)
  src/bmssp.rs                 (find_pivots, base_bmssp, bmssp_bounded, bmssp_all)
  src/dijkstra.rs              (dijkstra_all, the reference implementation)

Modelling conventions.
Costs (Rust f64, where NaN never reaches a comparison on the analysed paths,
and every weight is finite or plus-infinity) are modelled by the type CQ:
either a rational number or the value inf.  Rational addition is implemented
through mkRat so that it evaluates inside the Lean kernel; ratAdd_eq proves it
equal to ordinary addition on the rationals.
Rust HashMap and HashSet have unspecified iteration order; the embedding fixes
insertion order (association lists and duplicate-free lists kept in insertion
order).  All statements proved about concrete runs below were checked to be
independent of that choice where it matters; universally quantified statements
hold for the fixed order, which is one admissible execution of the source.
Rust BinaryHeap pops a minimal-cost element with unspecified tie order; the
embedding pops the leftmost minimal element.
Rust sort_by is a stable sort; a stable sort's output is uniquely determined
by the comparator and the input order, so the insertion sorts defined here
agree with it.
slice::partition_point performs a binary search that, on a sequence
partitioned by the predicate, returns the count of leading elements
satisfying it; the embedding uses that count directly.  Every call site in
the concrete runs below applies it to a deque whose upper bounds are sorted,
and the invariant theorems establish sortedness for reachable states.
Panics (assert failures, unwrap on None, out-of-bounds indexing and map
lookups of absent keys) are modelled by the RunOut monad; unbounded loops
take fuel and report exhaustion as RunOut.fuelOut.
The distance map min_cost_map has key set fixed at construction (vertices
0..n-1 plus the start vertex): in all three solver functions every insert to
it is preceded by a lookup of the same key, so keys never grow; lookups of
other keys panic like the Rust indexing operator.
-/

namespace SSPS

/-- Kernel-evaluable addition on the rationals, used by the cost model. -/
def ratAdd (a b : ℚ) : ℚ := mkRat (a.num * b.den + b.num * a.den) (a.den * b.den)

/-- Cost values: finite rationals (modelling finite, non-NaN f64 values) or
plus-infinity (modelling f64 INFINITY). -/
inductive CQ where
  | fin : ℚ → CQ
  | inf : CQ
deriving DecidableEq

/-- Shorthand for an integer-valued finite cost. -/
def cqI (n : ℤ) : CQ := .fin (mkRat n 1)

/-- Strict order on costs, as f64 comparison on non-NaN values. -/
def cqLt : CQ → CQ → Bool
  | .fin a, .fin b => decide (a < b)
  | .fin _, .inf => true
  | .inf, _ => false

/-- Non-strict order on costs, as f64 comparison on non-NaN values. -/
def cqLe : CQ → CQ → Bool
  | .fin a, .fin b => decide (a ≤ b)
  | .fin _, .inf => true
  | .inf, .fin _ => false
  | .inf, .inf => true

/-- Cost addition; infinity absorbs, matching f64 addition with INFINITY. -/
def cqAdd : CQ → CQ → CQ
  | .fin a, .fin b => .fin (ratAdd a b)
  | _, _ => .inf

/-- f64 min on non-NaN values. -/
def cqMin (a b : CQ) : CQ := if cqLe a b then a else b

/-- f64 max on non-NaN values. -/
def cqMax (a b : CQ) : CQ := if cqLe a b then b else a

/-- Node identifiers (Rust usize; only values below the vertex count occur). -/
abbrev NodeId := ℕ

/-- A (node id, cost) pair as stored inside a block. -/
abbrev PairC := NodeId × CQ

/-- Insert into a cost-ascending-sorted list, after all strictly smaller
entries and before ties, the placement a stable ascending sort produces for
an element that originally came earlier. -/
def insertAsc (p : PairC) : List PairC → List PairC
  | [] => [p]
  | q :: l => if cqLt q.2 p.2 then q :: insertAsc p l else p :: q :: l

/-- Stable ascending sort by cost, the behaviour of Rust sort_by with the
ascending comparator. -/
def sortAsc : List PairC → List PairC
  | [] => []
  | p :: l => insertAsc p (sortAsc l)

/-- Insert into a cost-descending-sorted list, stable version. -/
def insertDesc (p : PairC) : List PairC → List PairC
  | [] => [p]
  | q :: l => if cqLt p.2 q.2 then q :: insertDesc p l else p :: q :: l

/-- Stable descending sort by cost, the behaviour of Rust sort_by with the
descending comparator. -/
def sortDesc : List PairC → List PairC
  | [] => []
  | p :: l => insertDesc p (sortDesc l)

/-- Association list lookup, modelling HashMap get. -/
def alGet {β : Type} (m : List (ℕ × β)) (v : ℕ) : Option β :=
  (m.find? (fun p => p.1 == v)).map Prod.snd

/-- Association list insert-or-replace, modelling HashMap insert.  The key
set and (for present keys) the entry position are kept, so iteration order
is insertion order. -/
def alSet {β : Type} (m : List (ℕ × β)) (v : ℕ) (x : β) : List (ℕ × β) :=
  if (m.find? (fun p => p.1 == v)).isSome then
    m.map (fun p => if p.1 = v then (v, x) else p)
  else m ++ [(v, x)]

/-- Association list removal, modelling HashMap remove. -/
def alRemove {β : Type} (m : List (ℕ × β)) (v : ℕ) : List (ℕ × β) :=
  m.filter (fun p => p.1 != v)

/-- Append a value to a duplicate-free list unless present, modelling
HashSet insert with insertion-order iteration. -/
def pushNew (l : List ℕ) (v : ℕ) : List ℕ := if v ∈ l then l else l ++ [v]

/-- Deduplicate a list keeping first occurrences, modelling the collection
of a sequence into a HashSet. -/
def dedupList (l : List ℕ) : List ℕ := l.foldl pushNew []

/-- Rust Vec::swap_remove at index i: the element at i is replaced by the
last element and the last is dropped.  Callers only use indices returned by
a successful position search, hence indices in range. -/
def swapRemove (l : List PairC) (i : ℕ) : List PairC :=
  match l.getLast? with
  | none => l
  | some a => (l.set i a).dropLast

/-- The kinds of panic sites distinguished by the embedding: the frontier
length assertion at recursion level zero of bmssp_bounded, and every other
panic (failed asserts, unwrap of None, out-of-bounds indexing, absent map
keys). -/
inductive PanicKind where
  | frontierAssert
  | other
deriving DecidableEq

/-- Result of running an embedded computation: a value, a panic, or fuel
exhaustion of one of the fuelled loops (which models non-termination). -/
inductive RunOut (α : Type) where
  | ok : α → RunOut α
  | panicked : PanicKind → RunOut α
  | fuelOut : RunOut α
deriving DecidableEq

def RunOut.bind {α β : Type} : RunOut α → (α → RunOut β) → RunOut β
  | .ok a, f => f a
  | .panicked k, _ => .panicked k
  | .fuelOut, _ => .fuelOut

instance : Monad RunOut where
  pure := .ok
  bind := RunOut.bind

/-! ## Block List (src/block_data_structure.rs) -/

/-- A block of up to capacity (node, cost) entries with an upper bound,
mirroring struct Block. -/
structure Block where
  nodes : List PairC
  upper_bound : CQ
  capacity : ℕ
deriving DecidableEq

/-- Mirror of enum BlockAdditionResult (Success carries the updated block). -/
inductive BlockAddResult where
  | success : Block → BlockAddResult
  | splitBlocks : Block → Block → BlockAddResult
deriving DecidableEq

/-- Mirror of Block::add.  A full block is split: the entries plus the new
one are stably sorted ascending, the first capacity / 2 + 1 stay in a new
left block whose upper bound is the first cost of the right part, the rest
keep the original upper bound.  Indexing right_nodes with 0 panics exactly
when the right part is empty (possible only for capacity zero). -/
def Block.add (b : Block) (v : NodeId) (c : CQ) : RunOut BlockAddResult :=
  if b.nodes.length < b.capacity then
    .ok (.success { b with nodes := b.nodes ++ [(v, c)] })
  else
    let sorted := sortAsc (b.nodes ++ [(v, c)])
    let left := sorted.take (b.capacity / 2 + 1)
    let right := sorted.drop (b.capacity / 2 + 1)
    match right with
    | [] => .panicked .other
    | r0 :: rest =>
      .ok (.splitBlocks ⟨left, r0.2, b.capacity⟩ ⟨r0 :: rest, b.upper_bound, b.capacity⟩)

/-- Mirror of enum BlockLocation: which sequence a vertex lives in, with its
recorded cost. -/
inductive LocB where
  | prep : CQ → LocB
  | ins : CQ → LocB
deriving DecidableEq

/-- Mirror of struct BlockList.  cost_map is the position index. -/
structure BlockList where
  M : ℕ
  B : CQ
  prepend_blocks : List Block
  insert_blocks : List Block
  cost_map : List (NodeId × LocB)
deriving DecidableEq

/-- Mirror of BlockList::new: no prepend blocks, one empty insert block with
upper bound B. -/
def BlockList.new (M : ℕ) (B : CQ) : BlockList :=
  ⟨M, B, [], [⟨[], B, M⟩], []⟩

/-- Mirror of BlockList::len (the cost_map entry count). -/
def BlockList.len (s : BlockList) : ℕ := s.cost_map.length

/-- Mirror of BlockList::is_empty. -/
def BlockList.isEmpty (s : BlockList) : Bool := s.cost_map.isEmpty

/-- Rust slice::partition_point on the block deque (count of leading blocks
satisfying the predicate; see the header on partitioned sequences). -/
def partitionPoint (pred : Block → Bool) (bs : List Block) : ℕ :=
  (bs.takeWhile pred).length

/-- Remove the first entry of the given node id from a block, by
swap_remove, as both removal routines do. -/
def removeNodeFromBlock (b : Block) (v : NodeId) : Block :=
  match b.nodes.findIdx? (fun p => p.1 == v) with
  | some i => { b with nodes := swapRemove b.nodes i }
  | none => b

/-- Replace the upper bound of the block at an index, when in range. -/
def setUB (bs : List Block) (i : ℕ) (u : CQ) : List Block :=
  match bs.get? i with
  | some b => bs.set i { b with upper_bound := u }
  | none => bs

/-- Mirror of remove_from_prepend_list.  Panics (assert_ne) when every
prepend block has upper bound below the cost.  If the touched block becomes
empty it is removed, its upper bound moving to the left neighbour if any. -/
def BlockList.removeFromPrependList (s : BlockList) (v : NodeId) (c : CQ) : RunOut BlockList :=
  let idx := partitionPoint (fun b => cqLt b.upper_bound c) s.prepend_blocks
  match s.prepend_blocks.get? idx with
  | none => .panicked .other
  | some block =>
    let block' := removeNodeFromBlock block v
    let bs := s.prepend_blocks.set idx block'
    if block'.nodes.isEmpty then
      let bs2 := if 0 < idx then setUB bs (idx - 1) block.upper_bound else bs
      .ok { s with prepend_blocks := bs2.eraseIdx idx }
    else .ok { s with prepend_blocks := bs }

/-- Mirror of remove_from_insert_list.  Same as the prepend variant, except
an emptied block is kept when it is the last block or the only block. -/
def BlockList.removeFromInsertList (s : BlockList) (v : NodeId) (c : CQ) : RunOut BlockList :=
  let idx := partitionPoint (fun b => cqLt b.upper_bound c) s.insert_blocks
  match s.insert_blocks.get? idx with
  | none => .panicked .other
  | some block =>
    let block' := removeNodeFromBlock block v
    let bs := s.insert_blocks.set idx block'
    if block'.nodes.isEmpty then
      let bs2 := if 0 < idx then setUB bs (idx - 1) block.upper_bound else bs
      if idx ≠ s.insert_blocks.length - 1 ∧ s.insert_blocks.length ≠ 1 then
        .ok { s with insert_blocks := bs2.eraseIdx idx }
      else .ok { s with insert_blocks := bs2 }
    else .ok { s with insert_blocks := bs }

/-- Mirror of BlockList::update: true when the node is absent or strictly
improved (the stale entry then having been removed). -/
def BlockList.update (s : BlockList) (v : NodeId) (newCost : CQ) : RunOut (Bool × BlockList) :=
  match alGet s.cost_map v with
  | some (.prep c) =>
    if cqLt newCost c then do
      let s' ← s.removeFromPrependList v c
      .ok (true, s')
    else .ok (false, s)
  | some (.ins c) =>
    if cqLt newCost c then do
      let s' ← s.removeFromInsertList v c
      .ok (true, s')
    else .ok (false, s)
  | none => .ok (true, s)

/-- Mirror of BlockList::insert.  Asserts cost ≤ B and a nonempty insert
deque, updates, records the position, then adds to the leftmost insert block
whose upper bound reaches the cost, splitting on overflow.  Indexing with
the partition point panics when it is out of range. -/
def BlockList.insert (s : BlockList) (v : NodeId) (c : CQ) : RunOut BlockList :=
  if cqLe c s.B then
    if s.insert_blocks.length ≠ 0 then do
      let (go, s1) ← s.update v c
      if go then do
        let s2 := { s1 with cost_map := alSet s1.cost_map v (.ins c) }
        let i := partitionPoint (fun b => cqLt b.upper_bound c) s2.insert_blocks
        match s2.insert_blocks.get? i with
        | none => .panicked .other
        | some tgt => do
          let res ← tgt.add v c
          match res with
          | .success b' => .ok { s2 with insert_blocks := s2.insert_blocks.set i b' }
          | .splitBlocks lb rb =>
            .ok { s2 with insert_blocks := (s2.insert_blocks.set i lb).insertIdx (i + 1) rb }
      else .ok s1
    else .panicked .other
  else .panicked .other

/-- Minimum cost among a block's entries, when any (Iterator::min_by on the
cost; equal costs give the same value whichever entry wins). -/
def minCostOfNodes (l : List PairC) : Option CQ :=
  l.foldl (fun acc p =>
    match acc with
    | none => some p.2
    | some c => some (cqMin c p.2)) none

/-- Mirror of get_minimum_block: the front prepend block, else the front
insert block, else panic (unwrap). -/
def BlockList.getMinimumBlock (s : BlockList) : RunOut Block :=
  match s.prepend_blocks.head? with
  | some b => .ok b
  | none =>
    match s.insert_blocks.head? with
    | some b => .ok b
    | none => .panicked .other

/-- Mirror of get_minimum_upper_bound: minimum entry cost of the minimum
block, or that block's upper bound when it is empty. -/
def BlockList.getMinimumUpperBound (s : BlockList) : RunOut CQ := do
  let b ← s.getMinimumBlock
  .ok ((minCostOfNodes b.nodes).getD b.upper_bound)

/-- First phase of batch_prepend: filter the input through update, recording
surviving entries in the position index (in input order). -/
def bpFilter (s : BlockList) : List PairC → RunOut (List PairC × BlockList)
  | [] => .ok ([], s)
  | (v, c) :: rest => do
    let (go, s1) ← s.update v c
    if go then do
      let s2 := { s1 with cost_map := alSet s1.cost_map v (.prep c) }
      let (acc, s3) ← bpFilter s2 rest
      .ok ((v, c) :: acc, s3)
    else bpFilter s1 rest

/-- Ceiling of M / 2 as computed by the Rust float expression. -/
def ceilHalf (M : ℕ) : ℕ := (M + 1) / 2

/-- Second phase of batch_prepend for oversized batches: repeatedly drain
ceilHalf M entries from the front of the descending-sorted batch into new
front blocks, each taking the current minimum upper bound.  The fuel models
the non-termination of the Rust loop when M is zero. -/
def bpChunkLoop (fuel : ℕ) (s : BlockList) (nodes : List PairC) : RunOut BlockList :=
  match fuel with
  | 0 => .fuelOut
  | fuel + 1 =>
    if nodes.isEmpty then .ok s
    else do
      let take := min (ceilHalf s.M) nodes.length
      let chunk := nodes.take take
      let rest := nodes.drop take
      let ub ← s.getMinimumUpperBound
      bpChunkLoop fuel { s with prepend_blocks := ⟨chunk, ub, s.M⟩ :: s.prepend_blocks } rest

/-- Mirror of BlockList::batch_prepend. -/
def BlockList.batchPrepend (s : BlockList) (input : List PairC) : RunOut BlockList := do
  let (actual, s1) ← bpFilter s input
  if actual.isEmpty then .ok s1
  else if actual.length ≤ s1.M then do
    let ub ← s1.getMinimumUpperBound
    .ok { s1 with prepend_blocks := ⟨actual, ub, s1.M⟩ :: s1.prepend_blocks }
  else bpChunkLoop (actual.length + 1) s1 (sortDesc actual)

/-- Mirror of get_minimum_cost: minimum over the front block of each
sequence, defaulting to B. -/
def BlockList.getMinimumCost (s : BlockList) : CQ :=
  let minP :=
    match s.prepend_blocks.head? with
    | some b => (minCostOfNodes b.nodes).getD b.upper_bound
    | none => s.B
  let minI :=
    match s.insert_blocks.head? with
    | some b => (minCostOfNodes b.nodes).getD b.upper_bound
    | none => s.B
  cqMin minP minI

/-- Candidate collection of pull_elements: walk the blocks in order, sort
each visited block's entries in place, take up to the requested count from
each, and stop as soon as the accumulated count equals the request
exactly. -/
def collectCands (num : ℕ) (acc : List PairC) : List Block → List PairC × List Block
  | [] => (acc, [])
  | b :: rest =>
    let b' := { b with nodes := sortAsc b.nodes }
    let acc' := acc ++ b'.nodes.take num
    if acc'.length = num then (acc', b' :: rest)
    else
      let (accF, restF) := collectCands num acc' rest
      (accF, b' :: restF)

/-- The merge loop of pull_elements: repeatedly pop the cheaper front
candidate (the insert side on ties and when both heads default to B),
removing it from its owning list and from the position index.  Popping from
an empty candidate queue is the unwrap panic.  Each step consumes one
candidate, so the fuel passed by pullElements never runs out. -/
def mergeLoop (fuel : ℕ) (s : BlockList) (num : ℕ) (pc ic : List PairC)
    (pulled : List NodeId) : RunOut (List NodeId × BlockList) :=
  match fuel with
  | 0 => .fuelOut
  | fuel + 1 =>
    if (pc.isEmpty ∧ ic.isEmpty) ∨ num ≤ pulled.length then .ok (pulled, s)
    else
      let minP := (pc.head?.map Prod.snd).getD s.B
      let minI := (ic.head?.map Prod.snd).getD s.B
      if cqLt minP minI then
        match pc with
        | [] => .panicked .other
        | (v, c) :: pcRest => do
          let s1 ← s.removeFromPrependList v c
          let s2 := { s1 with cost_map := alRemove s1.cost_map v }
          mergeLoop fuel s2 num pcRest ic (pulled ++ [v])
      else
        match ic with
        | [] => .panicked .other
        | (v, c) :: icRest => do
          let s1 ← s.removeFromInsertList v c
          let s2 := { s1 with cost_map := alRemove s1.cost_map v }
          mergeLoop fuel s2 num pc icRest (pulled ++ [v])

/-- Mirror of pull_elements. -/
def BlockList.pullElements (s : BlockList) (num : ℕ) : RunOut (List NodeId × BlockList) :=
  let (pc, pbs) := collectCands num [] s.prepend_blocks
  let (ic, ibs) := collectCands num [] s.insert_blocks
  let s1 := { s with prepend_blocks := pbs, insert_blocks := ibs }
  mergeLoop (pc.length + ic.length + 1) s1 num pc ic []

/-- The outer loop of pull: drain until M elements are pulled or a drain
comes back empty.  Each successful drain returns at least one element, so M
plus one rounds of fuel suffice. -/
def pullLoop (fuel : ℕ) (s : BlockList) (numPulled : ℕ) (acc : List NodeId) :
    RunOut (List NodeId × BlockList) :=
  match fuel with
  | 0 => .fuelOut
  | fuel + 1 =>
    if numPulled < s.M then do
      let (nodes, s1) ← s.pullElements (s.M - numPulled)
      if nodes.length = 0 then .ok (acc, s1)
      else pullLoop fuel s1 (numPulled + nodes.length) (acc ++ nodes)
    else .ok (acc, s)

/-- Mirror of BlockList::pull: the pulled node ids and the new bound (the
minimum remaining cost, defaulting to B). -/
def BlockList.pull (s : BlockList) : RunOut ((List NodeId × CQ) × BlockList) := do
  let (pulled, s1) ← pullLoop (s.M + 1) s 0 []
  .ok ((pulled, s1.getMinimumCost), s1)

/-! ## Graph side (src/bmssp.rs and src/dijkstra.rs) -/

/-- Adjacency: for each vertex, its ordered list of (neighbor, weight)
pairs. -/
abbrev Graph := List (List (ℕ × CQ))

/-- Indexing neighbors[v]; out of range panics like Rust slice indexing. -/
def getNeighbors (adj : Graph) (v : ℕ) : RunOut (List (ℕ × CQ)) :=
  match adj.get? v with
  | some l => .ok l
  | none => .panicked .other

/-- The distance map min_cost_map.  Its key set is fixed (vertices below n
plus the start vertex, see the header); lookups of other keys panic like
Rust HashMap indexing. -/
structure DState where
  n : ℕ
  start : ℕ
  f : ℕ → CQ

/-- Mirror of min_cost_map[&v]. -/
def DState.get (d : DState) (v : ℕ) : RunOut CQ :=
  if v < d.n ∨ v = d.start then .ok (d.f v) else .panicked .other

/-- Mirror of min_cost_map.insert(v, c) (keys never grow on the executed
paths, every insert being preceded by a lookup of the same key). -/
def DState.set (d : DState) (v : ℕ) (c : CQ) : DState :=
  { d with f := Function.update d.f v c }

/-- Relax the listed edges out of one node inside a find_pivots layer: the
guard is non-strict on the stored cost, the new layer and the back-pointer
map are extended when the relaxed cost beats the bound. -/
def fpRelaxEdges (bound : CQ) (cost : CQ) (nodeId : ℕ) :
    List (ℕ × CQ) → DState × List ℕ × List (ℕ × ℕ) → RunOut (DState × List ℕ × List (ℕ × ℕ))
  | [], st => .ok st
  | (nb, w) :: rest, (d, layer, bp) => do
    let cur ← d.get nb
    let c := cqAdd cost w
    if cqLe c cur then
      let d1 := d.set nb c
      if cqLt c bound then
        fpRelaxEdges bound cost nodeId rest (d1, pushNew layer nb, alSet bp nb nodeId)
      else fpRelaxEdges bound cost nodeId rest (d1, layer, bp)
    else fpRelaxEdges bound cost nodeId rest (d, layer, bp)

/-- One find_pivots layer: process the previous layer's nodes in order,
reading each node's current cost once before walking its edges. -/
def fpRelaxLayer (bound : CQ) (adj : Graph) :
    List ℕ → DState × List ℕ × List (ℕ × ℕ) → RunOut (DState × List ℕ × List (ℕ × ℕ))
  | [], st => .ok st
  | nodeId :: rest, (d, layer, bp) => do
    let cost ← d.get nodeId
    let nbrs ← getNeighbors adj nodeId
    let st1 ← fpRelaxEdges bound cost nodeId nbrs (d, layer, bp)
    fpRelaxLayer bound adj rest st1

/-- All layers of find_pivots joined into the witness set W (a HashSet in
Rust, modelled as first-occurrence order). -/
def joinedW (layers : List (List ℕ)) : List ℕ := dedupList layers.flatten

/-- The k layer rounds of find_pivots, with the early exit when the union of
layers exceeds k times the frontier size.  The left result is the early
return (W only, the pivots then being the frontier); the right result keeps
the layers and back-pointer map for pivot extraction. -/
def layersGo (bound : CQ) (adj : Graph) (k flen : ℕ) :
    ℕ → List (List ℕ) → List ℕ → List (ℕ × ℕ) → DState →
    RunOut ((List ℕ ⊕ (List (List ℕ) × List (ℕ × ℕ))) × DState)
  | 0, layers, _, bp, d => .ok (.inr (layers, bp), d)
  | r + 1, layers, allL, bp, d => do
    let lastL := layers.getLast?.getD []
    let (d1, newLayer, bp1) ← fpRelaxLayer bound adj lastL (d, [], bp)
    let all1 := newLayer.foldl pushNew allL
    let layers1 := layers ++ [newLayer]
    if k * flen < all1.length then .ok (.inl (joinedW layers1), d1)
    else layersGo bound adj k flen r layers1 all1 bp1 d1

/-- The leaf-to-root walk of find_pivots.  node_to_root is only ever written
under a successful lookup of itself, so with no termination guarantee; the
fuel models the possible divergence when the back-pointer map is cyclic. -/
def chase (bp : List (ℕ × ℕ)) : ℕ → ℕ → List ℕ → List (ℕ × ℕ) →
    RunOut (ℕ × List ℕ × List (ℕ × ℕ))
  | 0, _, _, _ => .fuelOut
  | fuel + 1, cur, branch, ntr =>
    match alGet bp cur with
    | none => .ok (cur, branch, ntr)
    | some nxt =>
      match alGet ntr nxt with
      | some root =>
        let ntr1 := branch.foldl (fun m nid => alSet m nid root) ntr
        chase bp fuel root branch ntr1
      | none => chase bp fuel nxt (branch ++ [nxt]) ntr

/-- Accumulate subtree sizes at roots by chasing each layer-k leaf. -/
def walkLeaves (bp : List (ℕ × ℕ)) (fuel : ℕ) :
    List ℕ → List (ℕ × ℕ) → List (ℕ × ℕ) → RunOut (List (ℕ × ℕ))
  | [], counts, _ => .ok counts
  | leaf :: rest, counts, ntr => do
    let (root, branch, ntr1) ← chase bp fuel leaf [leaf] ntr
    let cnt := (alGet counts root).getD 0 + branch.length
    walkLeaves bp fuel rest (alSet counts root cnt) ntr1

/-- Mirror of find_pivots: k relaxation layers from the frontier, early exit
returning the frontier as pivots, otherwise the roots whose accumulated
branch count reaches k. -/
def findPivots (bound : CQ) (frontier : List ℕ) (k : ℕ) (adj : Graph) (d : DState)
    (fuel : ℕ) : RunOut ((List ℕ × List ℕ) × DState) := do
  let l0 := dedupList frontier
  let res ← layersGo bound adj k frontier.length k [l0] l0 [] d
  match res with
  | (.inl w, d1) => .ok ((frontier, w), d1)
  | (.inr (layers, bp), d1) => do
    let leaves := layers.getLast?.getD []
    let counts ← walkLeaves bp fuel leaves [] []
    let pivots := (counts.filter (fun p => decide (k ≤ p.2))).map Prod.fst
    .ok ((pivots, joinedW layers), d1)

/-- Pop a minimal-cost entry from the heap list (Rust BinaryHeap with the
reversed cost order; the leftmost minimal entry is chosen, one admissible
tie-break). -/
def heapPop : List (ℕ × CQ) → Option ((ℕ × CQ) × List (ℕ × CQ))
  | [] => none
  | x :: xs =>
    match heapPop xs with
    | none => some (x, [])
    | some (m, rest) => if cqLe x.2 m.2 then some (x, xs) else some (m, x :: rest)

/-- Edge relaxation of base_bmssp: guard non-strict against the stored cost
and strict against the upper bound, using the popped cost as base. -/
def baseRelax (ub : CQ) (cost : CQ) :
    List (ℕ × CQ) → List (ℕ × CQ) → DState → RunOut (List (ℕ × CQ) × DState)
  | [], heap, d => .ok (heap, d)
  | (nb, w) :: rest, heap, d => do
    let cur ← d.get nb
    let c := cqAdd cost w
    if cqLe c cur && cqLt c ub then
      baseRelax ub cost rest (heap ++ [(nb, c)]) (d.set nb c)
    else baseRelax ub cost rest heap d

/-- The heap loop of base_bmssp.  Note the loop breaks (it does not skip)
when it pops an already-visited node. -/
def baseLoop (ub : CQ) (k : ℕ) (adj : Graph) :
    ℕ → List (ℕ × CQ) → List ℕ → List ℕ → CQ → DState →
    RunOut ((List ℕ × CQ) × DState)
  | 0, _, _, _, _, _ => .fuelOut
  | fuel + 1, heap, uInit, visited, mcs, d =>
    match heapPop heap with
    | none => .ok ((uInit, mcs), d)
    | some ((nid, cost), heap1) =>
      if k < uInit.length ∨ nid ∈ visited then .ok ((uInit, mcs), d)
      else do
        let visited1 := visited ++ [nid]
        let uInit1 := pushNew uInit nid
        let dn ← d.get nid
        let mcs1 := cqMax mcs dn
        let nbrs ← getNeighbors adj nid
        let (heap2, d1) ← baseRelax ub cost nbrs heap1 d
        baseLoop ub k adj fuel heap2 uInit1 visited1 mcs1 d1

/-- Filter the set U by strict comparison of the final stored cost against
the bound, as the trimmed return of base_bmssp does. -/
def filterLtCost : List ℕ → CQ → DState → RunOut (List ℕ)
  | [], _, _ => .ok []
  | v :: rest, b, d => do
    let c ← d.get v
    let r ← filterLtCost rest b d
    .ok (if cqLt c b then v :: r else r)

/-- Mirror of base_bmssp: the bounded mini-Dijkstra from a singleton.  When
at most k nodes entered U the upper bound is returned unchanged; otherwise
the largest cost seen at entry into U becomes the new bound and U is
filtered strictly below it. -/
def baseBmssp (ub : CQ) (nodeId k : ℕ) (adj : Graph) (d : DState) (fuel : ℕ) :
    RunOut ((CQ × List ℕ) × DState) := do
  let d0 ← d.get nodeId
  let ((uInit, mcs), d1) ← baseLoop ub k adj fuel [(nodeId, d0)] [nodeId] [] d0 d
  if uInit.length ≤ k then .ok ((ub, uInit), d1)
  else do
    let filtered ← filterLtCost uInit mcs d1
    .ok ((mcs, filtered), d1)

/-- Block capacity at a recursion level, 2 ^ (t * (l - 1)) as in
bmssp_bounded. -/
def blockCapacity (t l : ℕ) : ℕ := 2 ^ (t * (l - 1))

/-- Size cap for the set U at a recursion level, k * 2 ^ (t * l). -/
def uSetCap (k t l : ℕ) : ℕ := k * 2 ^ (t * l)

/-- Insert the pivots into the fresh Block List at their current distances;
a pivot with distance above the upper bound trips the (always-false)
assertion, a panic. -/
def pivotInsertLoop (ub : CQ) (d : DState) :
    List ℕ → BlockList → CQ → RunOut (BlockList × CQ)
  | [], bl, minUb => .ok (bl, minUb)
  | p :: rest, bl, minUb => do
    let dist ← d.get p
    if cqLt ub dist then .panicked .other
    else do
      let bl1 ← bl.insert p dist
      pivotInsertLoop ub d rest bl1 (cqMin minUb dist)

/-- Relax the edges out of one settled node in the recursive solver: the
stored cost of the node is re-read for every edge; improved neighbors are
re-inserted in the window at or above the current pull bound, or staged for
batch-prepend in the window at or above the recursion's new bound. -/
def boundedRelaxEdges (ub curUb newUb : CQ) (nodeId : ℕ) :
    List (ℕ × CQ) → BlockList × List (ℕ × CQ) × DState →
    RunOut (BlockList × List (ℕ × CQ) × DState)
  | [], st => .ok st
  | (nb, w) :: rest, (bl, batch, d) => do
    let dn ← d.get nodeId
    let pw := cqAdd dn w
    let cur ← d.get nb
    if cqLe pw cur then
      let d1 := d.set nb pw
      if cqLe curUb pw && cqLt pw ub then do
        let bl1 ← bl.insert nb pw
        boundedRelaxEdges ub curUb newUb nodeId rest (bl1, batch, d1)
      else if cqLe newUb pw && cqLt pw curUb then
        boundedRelaxEdges ub curUb newUb nodeId rest (bl, alSet batch nb pw, d1)
      else boundedRelaxEdges ub curUb newUb nodeId rest (bl, batch, d1)
    else boundedRelaxEdges ub curUb newUb nodeId rest (bl, batch, d)

/-- Walk the returned set U of a recursive call, accumulating it into the
frame's U and relaxing the out-edges of each of its nodes. -/
def boundedUsetLoop (ub curUb newUb : CQ) (adj : Graph) :
    List ℕ → List ℕ → BlockList → List (ℕ × CQ) → DState →
    RunOut (List ℕ × BlockList × List (ℕ × CQ) × DState)
  | [], uSet, bl, batch, d => .ok (uSet, bl, batch, d)
  | nid :: rest, uSet, bl, batch, d => do
    let uSet1 := pushNew uSet nid
    let nbrs ← getNeighbors adj nid
    let (bl1, batch1, d1) ← boundedRelaxEdges ub curUb newUb nid nbrs (bl, batch, d)
    boundedUsetLoop ub curUb newUb adj rest uSet1 bl1 batch1 d1

/-- Stage pulled frontier nodes whose cost fell into the window between the
recursion's new bound and the pull bound. -/
def frontierStage (newUb curUb : CQ) :
    List ℕ → List (ℕ × CQ) → DState → RunOut (List (ℕ × CQ))
  | [], batch, _ => .ok batch
  | nid :: rest, batch, d => do
    let c ← d.get nid
    if cqLe newUb c && cqLt c curUb then
      frontierStage newUb curUb rest (alSet batch nid c) d
    else frontierStage newUb curUb rest batch d

/-- The while loop of bmssp_bounded at a level above zero, parameterized by
the solver for the level below. -/
def boundedWhile (rec : CQ → List ℕ → DState → RunOut ((CQ × List ℕ) × DState))
    (ub : CQ) (adj : Graph) (maxU : ℕ) :
    ℕ → List ℕ → BlockList → CQ → DState → RunOut ((CQ × List ℕ) × DState)
  | 0, _, _, _, _ => .fuelOut
  | fuel + 1, uSet, bl, minUb, d =>
    if uSet.length < maxU ∧ bl.isEmpty = false then do
      let ((newFrontier, curUb), bl1) ← bl.pull
      let ((newUb, newUset), d1) ← rec curUb newFrontier d
      let (uSet1, bl2, batch, d2) ←
        boundedUsetLoop ub curUb newUb adj newUset uSet bl1 [] d1
      let batch1 ← frontierStage newUb curUb newFrontier batch d2
      let bl3 ← bl2.batchPrepend batch1
      boundedWhile rec ub adj maxU fuel uSet1 bl3 newUb d2
    else .ok ((minUb, uSet), d)

/-- Add every witness-set node whose final cost is below the returned bound
to U, as the epilogue of bmssp_bounded does. -/
def layerAugment (minUb : CQ) :
    List ℕ → List ℕ → DState → RunOut (List ℕ)
  | [], uSet, _ => .ok uSet
  | nid :: rest, uSet, d => do
    let c ← d.get nid
    layerAugment minUb rest (if cqLt c minUb then pushNew uSet nid else uSet) d

/-- Mirror of bmssp_bounded.  Level zero asserts a singleton frontier (the
distinguished panic kind) and delegates to the base solver; higher levels
find pivots, feed them to a fresh Block List of capacity 2 ^ (t * (l - 1)),
and repeatedly pull and recurse. -/
def bmsspBounded (k t : ℕ) (adj : Graph) (fuel : ℕ) :
    (l : ℕ) → CQ → List ℕ → DState → RunOut ((CQ × List ℕ) × DState)
  | 0, ub, frontier, d =>
    match frontier with
    | [x] => baseBmssp ub x k adj d fuel
    | _ => .panicked .frontierAssert
  | l + 1, ub, frontier, d => do
    let ((pivots, layerSet), d1) ← findPivots ub frontier k adj d fuel
    let bl0 := BlockList.new (blockCapacity t (l + 1)) ub
    let (bl1, minUb0) ← pivotInsertLoop ub d1 pivots bl0 ub
    let ((minUb, uSet), d2) ←
      boundedWhile (bmsspBounded k t adj fuel l) ub adj (uSetCap k t (l + 1)) fuel [] bl1 minUb0 d1
    let uSet1 ← layerAugment minUb layerSet uSet d2
    .ok ((minUb, uSet1), d2)

/-- Mirror of bmssp_all with the three tuning parameters passed explicitly
(the Rust code computes them from n with f64 arithmetic; see kParam, tParam
and lParam below for the exact values at the vertex counts used here). -/
def bmsspAll (adj : Graph) (start : ℕ) (k t l : ℕ) (fuel : ℕ) : RunOut (List CQ) := do
  let n := adj.length
  let d0 : DState := ⟨n, start, fun v => if v = start then .fin 0 else .inf⟩
  let (_, d1) ← bmsspBounded k t adj fuel l .inf [start] d0
  .ok ((List.range n).map d1.f)

/-- Fuelled floor base-two logarithm (structural so it evaluates in the
kernel). -/
def log2Go : ℕ → ℕ → ℕ
  | 0, _ => 0
  | fuel + 1, n => if 2 ≤ n then log2Go fuel (n / 2) + 1 else 0

/-- Floor of the base-two logarithm of a natural number (zero below two). -/
def natLog2 (n : ℕ) : ℕ := log2Go n n

/-- Largest c with c ^ 3 ≤ e: the floor of the real cube root of a natural
number. -/
def iroot3 (e : ℕ) : ℕ := ((List.range (e + 2)).filter (fun c => decide (c ^ 3 ≤ e))).foldr max 0

/-- The parameter k of bmssp_all, exact for powers of two (the f64
computation log2(N).powf(1/3).floor().max(2.0) is exact there) and for the
vertex counts used in this file. -/
def kParam (n : ℕ) : ℕ := max 2 (iroot3 (natLog2 n))

/-- The parameter t of bmssp_all, exact for powers of two (the floor of the
real 2/3 power of log2 n equals the floor cube root of its square) and for
the vertex counts used in this file. -/
def tParam (n : ℕ) : ℕ := iroot3 (natLog2 n ^ 2)

/-- The starting level of bmssp_all, the ceiling of log2 n / t, exact for
powers of two and for the vertex counts used in this file. -/
def lParam (n : ℕ) : ℕ := (natLog2 n + tParam n - 1) / tParam n

/-- bmssp_all with the parameters the Rust entry point computes from the
vertex count. -/
def bmsspAllAuto (adj : Graph) (start : ℕ) (fuel : ℕ) : RunOut (List CQ) :=
  bmsspAll adj start (kParam adj.length) (tParam adj.length) (lParam adj.length) fuel

/-- Pop a minimal-cost entry of the Dijkstra heap (cost componentwise
first), leftmost tie-break. -/
def heapPopD : List (CQ × ℕ) → Option ((CQ × ℕ) × List (CQ × ℕ))
  | [] => none
  | x :: xs =>
    match heapPopD xs with
    | none => some (x, [])
    | some (m, rest) => if cqLe x.1 m.1 then some (x, xs) else some (m, x :: rest)

/-- Edge relaxation of dijkstra_all (strict improvement only). -/
def djRelax (cost : CQ) :
    List (ℕ × CQ) → List (CQ × ℕ) → List CQ → RunOut (List (CQ × ℕ) × List CQ)
  | [], heap, dist => .ok (heap, dist)
  | (nb, w) :: rest, heap, dist =>
    match dist.get? nb with
    | none => .panicked .other
    | some cur =>
      let c := cqAdd cost w
      if cqLt c cur then djRelax cost rest (heap ++ [(c, nb)]) (dist.set nb c)
      else djRelax cost rest heap dist

/-- The main loop of dijkstra_all; stale heap entries are skipped. -/
def djLoop (adj : Graph) : ℕ → List (CQ × ℕ) → List CQ → RunOut (List CQ)
  | 0, _, _ => .fuelOut
  | fuel + 1, heap, dist =>
    match heapPopD heap with
    | none => .ok dist
    | some ((cost, nid), heap1) =>
      match dist.get? nid with
      | none => .panicked .other
      | some dn =>
        if cqLt dn cost then djLoop adj fuel heap1 dist
        else do
          let nbrs ← getNeighbors adj nid
          let (heap2, dist1) ← djRelax cost nbrs heap1 dist
          djLoop adj fuel heap2 dist1

/-- Mirror of dijkstra_all (src/dijkstra.rs): textbook Dijkstra with lazy
deletion, distances initialised to infinity and the start to zero. -/
def dijkstraAll (adj : Graph) (start : ℕ) (fuel : ℕ) : RunOut (List CQ) :=
  let n := adj.length
  let dist0 := List.replicate n CQ.inf
  match dist0.get? start with
  | none => .panicked .other
  | some _ => djLoop adj fuel [(CQ.fin 0, start)] (dist0.set start (.fin 0))

/-! ## Invariant definitions -/

/-- The upper bounds of a block sequence, in order. -/
def ubsOf (bs : List Block) : List CQ := bs.map Block.upper_bound

/-- Bool check that a cost list is strictly increasing (used to state the
strict-bounds part of the data-model invariant on concrete states). -/
def strictChainB : List CQ → Bool
  | [] => true
  | [_] => true
  | a :: b :: l => cqLt a b && strictChainB (b :: l)

/-- Lower-bound constraint carried along a block sequence: none means no
constraint, some u means the value must be at least u. -/
def loB (lo : Option CQ) (c : CQ) : Prop :=
  match lo with
  | none => True
  | some u => cqLe u c = true

/-- The insert-sequence invariant of the Block List, in segment form: a
well-formed segment takes an incoming lower bound lo to an outgoing one out
(the upper bound of its last block, or lo itself when empty).  Each block's
upper bound is at least the incoming bound, every entry lies between the
incoming bound and the block's upper bound, and the bounds accumulate left
to right.  The whole insert sequence satisfies InsSeg none (some B), which
forces it to be non-empty with last upper bound B, non-decreasing upper
bounds, and every entry at least the preceding block's upper bound. -/
def InsSeg : Option CQ → Option CQ → List Block → Prop
  | lo, out, [] => out = lo
  | lo, out, b :: rest =>
    loB lo b.upper_bound ∧
    (∀ p ∈ b.nodes, loB lo p.2 ∧ cqLe p.2 b.upper_bound = true) ∧
    InsSeg (some b.upper_bound) out rest

/-- Block List states reachable from a fresh list by successful operations
(a panicking operation produces no state, so the preconditions checked by
assertions are implied by success). -/
inductive Reach : BlockList → Prop where
  | new : ∀ M B, Reach (BlockList.new M B)
  | insert : ∀ s v c s', Reach s → s.insert v c = .ok s' → Reach s'
  | batchPrepend : ∀ s l s', Reach s → s.batchPrepend l = .ok s' → Reach s'
  | pull : ∀ s r s', Reach s → s.pull = .ok (r, s') → Reach s'

/-- Some block of the list physically stores an entry for the vertex. -/
def HasEntry (s : BlockList) (v : NodeId) : Prop :=
  (∃ b ∈ s.prepend_blocks, ∃ p ∈ b.nodes, p.1 = v) ∨
  (∃ b ∈ s.insert_blocks, ∃ p ∈ b.nodes, p.1 = v)

/-- Every vertex recorded in the position index has at least one physical
entry in some block (used to show pull always produces an element from a
non-empty list). -/
def Backing (s : BlockList) : Prop :=
  ∀ p ∈ s.cost_map, HasEntry s p.1

/-- The computation can refuse only with the anonymous panic kind: whatever
it does, it never trips the frontier-length assertion of level zero. -/
def PanicOther {α : Type} (x : RunOut α) : Prop :=
  ∀ kk, x = RunOut.panicked kk → kk = PanicKind.other

/-- Pointwise comparison of distance maps: the second is everywhere at most
the first (the direction of relaxation). -/
def DLe (d' d : DState) : Prop := ∀ v, cqLe (d'.f v) (d.f v) = true

/-- All stored distances are non-negative. -/
def DNonneg (d : DState) : Prop := ∀ v, cqLe (.fin 0) (d.f v) = true

/-- All edge weights of the graph are non-negative. -/
def WNonneg (adj : Graph) : Prop := ∀ l ∈ adj, ∀ p ∈ l, cqLe (.fin 0) p.2 = true

/-! ## Concrete inputs for the counterexamples and witnesses -/

/-- Sequential composition of fallible Block List operations. -/
def opSeq (s : RunOut BlockList) (f : BlockList → RunOut BlockList) : RunOut BlockList :=
  RunOut.bind s f

/-- Three inserts of cost 10 into a fresh list with M = 2, B = 10: the third
insert splits on a tie, leaving two blocks with equal upper bounds. -/
def c4State : RunOut BlockList :=
  opSeq (opSeq (opSeq (.ok (BlockList.new 2 (cqI 10)))
    (fun s => s.insert 0 (cqI 10)))
    (fun s => s.insert 1 (cqI 10)))
    (fun s => s.insert 2 (cqI 10))

/-- Inserts 2, 4, 3 then an improvement of the cost-4 vertex to 1 (M = 2,
B = 20): removing the cost-4 entry misses because its cost equals the left
block's upper bound created by the preceding split, leaving a stale
duplicate of vertex 2. -/
def c3State : RunOut BlockList :=
  opSeq (opSeq (opSeq (opSeq (.ok (BlockList.new 2 (cqI 20)))
    (fun s => s.insert 1 (cqI 2)))
    (fun s => s.insert 2 (cqI 4)))
    (fun s => s.insert 3 (cqI 3)))
    (fun s => s.insert 2 (cqI 1))

/-- Insert then three batch-prepends, each strictly below every recorded
cost (M = 3, B = 100): the improvement of vertex 2 from 5 to 0 misses its
old entry (its cost 5 equals the upper bound of the front prepend block), so
the list holds vertex 2 twice when pull runs. -/
def c2State : RunOut BlockList :=
  opSeq (opSeq (opSeq (opSeq (.ok (BlockList.new 3 (cqI 100)))
    (fun s => s.insert 1 (cqI 10)))
    (fun s => s.batchPrepend [(2, cqI 5)]))
    (fun s => s.batchPrepend [(3, cqI 1)]))
    (fun s => s.batchPrepend [(2, cqI 0)])

/-- A single batch-prepend of cost B = 10 into an empty list with M = 2
(the documented preconditions are vacuous on an empty list). -/
def c9State : RunOut BlockList :=
  opSeq (.ok (BlockList.new 2 (cqI 10)))
    (fun s => s.batchPrepend [(0, cqI 10)])

/-- The 4-vertex counterexample graph for claim C1 (source 2): the true
distance to vertex 1 is 4, along 2 to 3 (weight 0), 3 to 0 (weight 4) and
0 to 1 (weight 0), while the engine settles vertex 1 at the direct edge
weight 6: its base solver breaks on popping an already-visited heap entry
and abandons vertex 0, which the parent then drops because the returned
bound equals the upper bound, leaving the relaxation of the edge 0 to 1
unperformed. -/
def adjC1 : Graph :=
  [[(1, cqI 0)], [(1, cqI 3)], [(1, cqI 6), (3, cqI 0), (3, cqI 0)], [(0, cqI 4)]]

/-- Two vertices with a single negative-weight edge. -/
def adjNeg : Graph := [[(1, cqI (-1))], []]

/-- Two vertices with a single infinite-weight edge. -/
def adjInf : Graph := [[(1, CQ.inf)], []]

/-- Two vertices where the unreachable vertex 1 has an adjacency entry
naming the non-existent vertex 5. -/
def adjOor : Graph := [[], [(5, cqI 1)]]

/-- A 4-vertex path graph used to witness the trimmed base-solver case. -/
def adjC6 : Graph := [[(1, cqI 1)], [(2, cqI 1)], [(3, cqI 1)], []]

/-- Initial distance state on four vertices with source 0. -/
def dC6 : DState := ⟨4, 0, fun v => if v = 0 then .fin 0 else .inf⟩

/-- The full block of the split scenario in the specification: capacity 3,
upper bound 10, holding vertices 0, 5, 3 at costs 1, 5, 3. -/
def c5Block : Block := ⟨[(0, cqI 1), (5, cqI 5), (3, cqI 3)], cqI 10, 3⟩

/-- The first intermediate state of c4State (after insert 0 at cost 10). -/
def c4Mid1 : BlockList :=
  ⟨2, cqI 10, [], [⟨[(0, cqI 10)], cqI 10, 2⟩], [(0, .ins (cqI 10))]⟩

/-- The second intermediate state of c4State (after insert 1 at cost 10). -/
def c4Mid2 : BlockList :=
  ⟨2, cqI 10, [], [⟨[(0, cqI 10), (1, cqI 10)], cqI 10, 2⟩],
   [(0, .ins (cqI 10)), (1, .ins (cqI 10))]⟩

/-- A concrete well-formed Block List with capacity M = 1 holding a single
vertex, used to witness that pull returns exactly one vertex. -/
def c10State : BlockList :=
  ⟨1, cqI 10, [], [⟨[(0, cqI 5)], cqI 10, 1⟩], [(0, .ins (cqI 5))]⟩

/-- The state left behind by pulling the single vertex of c10State. -/
def c10Post : BlockList :=
  ⟨1, cqI 10, [], [⟨[], cqI 10, 1⟩], []⟩

/-- The state of c4State written out: after the third tied insert the full
block splits, leaving two insert blocks with equal upper bounds 10. -/
def c4Final : BlockList :=
  ⟨2, cqI 10, [],
   [⟨[(0, cqI 10), (1, cqI 10)], cqI 10, 2⟩, ⟨[(2, cqI 10)], cqI 10, 2⟩],
   [(0, .ins (cqI 10)), (1, .ins (cqI 10)), (2, .ins (cqI 10))]⟩

/-! ## Order lemmas on costs -/

theorem ratAdd_eq (a b : ℚ) : ratAdd a b = a + b := by
  unfold ratAdd
  rw [Rat.mkRat_eq_div]
  push_cast
  have hb : (b.den : ℚ) ≠ 0 := by positivity
  have ha : (a.den : ℚ) ≠ 0 := by positivity
  have e1 := Rat.num_div_den a
  have e2 := Rat.num_div_den b
  rw [div_eq_iff ha] at e1
  rw [div_eq_iff hb] at e2
  field_simp
  rw [e1, e2]
  ring

theorem cqLe_refl (a : CQ) : cqLe a a = true := by
  cases a <;> simp [cqLe]

theorem cqLe_trans {a b c : CQ} (h1 : cqLe a b = true) (h2 : cqLe b c = true) :
    cqLe a c = true := by
  cases a <;> cases b <;> cases c <;> simp_all [cqLe]
  linarith

theorem cqLt_of_cqLe_of_cqLt {a b c : CQ} (h1 : cqLe a b = true) (h2 : cqLt b c = true) :
    cqLt a c = true := by
  cases a <;> cases b <;> cases c <;> simp_all [cqLe, cqLt]
  linarith

theorem cqLt_of_cqLt_of_cqLe {a b c : CQ} (h1 : cqLt a b = true) (h2 : cqLe b c = true) :
    cqLt a c = true := by
  cases a <;> cases b <;> cases c <;> simp_all [cqLe, cqLt]
  linarith

theorem cqLe_of_cqLt {a b : CQ} (h : cqLt a b = true) : cqLe a b = true := by
  cases a <;> cases b <;> simp_all [cqLe, cqLt]
  linarith

theorem cqLe_total (a b : CQ) : cqLe a b = true ∨ cqLe b a = true := by
  cases a <;> cases b <;> simp [cqLe]
  exact le_total _ _

theorem cqLe_of_not_lt {a b : CQ} (h : cqLt a b = false) : cqLe b a = true := by
  cases a <;> cases b <;> simp_all [cqLe, cqLt]

theorem cqLt_of_not_le {a b : CQ} (h : cqLe a b = false) : cqLt b a = true := by
  cases a <;> cases b <;> simp_all [cqLe, cqLt]

theorem cqLe_antisymm {a b : CQ} (h1 : cqLe a b = true) (h2 : cqLe b a = true) : a = b := by
  cases a <;> cases b <;> simp_all [cqLe]
  linarith

theorem cqAdd_nonneg {a b : CQ} (ha : cqLe (.fin 0) a = true) (hb : cqLe (.fin 0) b = true) :
    cqLe (.fin 0) (cqAdd a b) = true := by
  cases a <;> cases b <;> simp_all [cqLe, cqAdd, ratAdd_eq]
  linarith

theorem cqMin_le_left (a b : CQ) : cqLe (cqMin a b) a = true := by
  unfold cqMin
  by_cases h : cqLe a b = true
  · simp [h, cqLe_refl]
  · simp [h]
    exact cqLe_of_cqLt (cqLt_of_not_le (by simp_all))

theorem cqLe_max_left (a b : CQ) : cqLe a (cqMax a b) = true := by
  unfold cqMax
  by_cases h : cqLe a b = true
  · simp [h]
  · simp [h, cqLe_refl]

theorem cqLe_max_right (a b : CQ) : cqLe b (cqMax a b) = true := by
  unfold cqMax
  by_cases h : cqLe a b = true
  · simp [h, cqLe_refl]
  · simp [h]
    exact cqLe_of_cqLt (cqLt_of_not_le (by simp_all))

theorem cqMax_lt {a b c : CQ} (ha : cqLt a c = true) (hb : cqLt b c = true) :
    cqLt (cqMax a b) c = true := by
  unfold cqMax
  by_cases h : cqLe a b = true <;> simp [h, ha, hb]

/-! ## RunOut lemmas -/

theorem RunOut.bind_eq_ok {α β : Type} {x : RunOut α} {f : α → RunOut β} {b : β}
    (h : RunOut.bind x f = .ok b) : ∃ a, x = .ok a ∧ f a = .ok b := by
  cases x with
  | ok a => exact ⟨a, rfl, h⟩
  | panicked k => simp [RunOut.bind] at h
  | fuelOut => simp [RunOut.bind] at h

theorem RunOut.bind_eq_panicked {α β : Type} {x : RunOut α} {f : α → RunOut β} {k : PanicKind}
    (h : RunOut.bind x f = .panicked k) :
    x = .panicked k ∨ ∃ a, x = .ok a ∧ f a = .panicked k := by
  cases x with
  | ok a => exact .inr ⟨a, rfl, h⟩
  | panicked k' =>
    simp [RunOut.bind] at h
    simp [h]
  | fuelOut => simp [RunOut.bind] at h

theorem RunOut.bind_ok {α β : Type} {a : α} {f : α → RunOut β} :
    RunOut.bind (.ok a) f = f a := rfl

/-! ## Sorting lemmas -/

theorem insertAsc_perm (p : PairC) (l : List PairC) :
    (insertAsc p l).Perm (p :: l) := by
  induction l with
  | nil => simp [insertAsc]
  | cons q t ih =>
    unfold insertAsc
    by_cases h : cqLt q.2 p.2 = true
    · simp only [h, if_true]
      exact (ih.cons q).trans (List.Perm.swap p q t)
    · simp only [Bool.not_eq_true] at h
      simp [h]

theorem sortAsc_perm (l : List PairC) : (sortAsc l).Perm l := by
  induction l with
  | nil => simp [sortAsc]
  | cons p t ih =>
    exact (insertAsc_perm p (sortAsc t)).trans (ih.cons p)

theorem insertAsc_pairwise (p : PairC) (l : List PairC)
    (h : l.Pairwise (fun a b => cqLe a.2 b.2 = true)) :
    (insertAsc p l).Pairwise (fun a b => cqLe a.2 b.2 = true) := by
  induction l with
  | nil => simp [insertAsc]
  | cons q t ih =>
    unfold insertAsc
    by_cases hq : cqLt q.2 p.2 = true
    · simp only [hq, if_true]
      refine List.Pairwise.cons ?_ (ih h.tail)
      intro b hb
      rcases List.mem_cons.mp ((insertAsc_perm p t).mem_iff.mp hb) with hbp | hbt
      · subst hbp
        exact cqLe_of_cqLt hq
      · exact List.rel_of_pairwise_cons h hbt
    · simp only [Bool.not_eq_true] at hq
      simp only [hq, if_false]
      refine List.Pairwise.cons ?_ h
      intro b hb
      rcases List.mem_cons.mp hb with hbq | hbt
      · subst hbq
        exact cqLe_of_not_lt hq
      · exact cqLe_trans (cqLe_of_not_lt hq) (List.rel_of_pairwise_cons h hbt)

theorem sortAsc_pairwise (l : List PairC) :
    (sortAsc l).Pairwise (fun a b => cqLe a.2 b.2 = true) := by
  induction l with
  | nil => simp [sortAsc]
  | cons p t ih => exact insertAsc_pairwise p (sortAsc t) ih

theorem sortAsc_length (l : List PairC) : (sortAsc l).length = l.length :=
  (sortAsc_perm l).length_eq

theorem sortAsc_take_drop_le (l : List PairC) (n : ℕ) :
    ∀ p ∈ (sortAsc l).take n, ∀ q ∈ (sortAsc l).drop n, cqLe p.2 q.2 = true := by
  have h := sortAsc_pairwise l
  rw [← List.take_append_drop n (sortAsc l)] at h
  exact fun p hp q hq => (List.pairwise_append.mp h).2.2 p hp q hq

/-! ## Claim theorems -/

/-- C1.  The claim states that bmssp_all agrees with the reference
dijkstra_all on every non-negative finite-weight graph.  On the concrete
4-vertex graph adjC1 with source 2 the engine terminates normally but
returns distance 6 for vertex 1, while Dijkstra returns the true distance
4: the two distance vectors differ.  (The parameters 2, 1, 2 passed by
bmsspAllAuto are exactly the k, t and starting level the Rust entry point
computes for n equal to 4.) -/
theorem C1_bmssp_differs_from_dijkstra :
    bmsspAllAuto adjC1 2 50 = .ok [cqI 4, cqI 6, cqI 0, cqI 0] ∧
    dijkstraAll adjC1 2 50 = .ok [cqI 4, cqI 4, cqI 0, cqI 0] ∧
    ([cqI 4, cqI 6, cqI 0, cqI 0] : List CQ) ≠ [cqI 4, cqI 4, cqI 0, cqI 0] := by
  refine ⟨by decide, by decide, by decide⟩

/-- C2.  After an insert and three batch-prepends, each respecting the
documented preconditions (every batched cost strictly below every recorded
cost), the stored pairs are vertices 1, 2, 3 at costs 10, 0, 1 — each vertex
stored once — yet pull returns vertex 2 twice ([2, 3, 2]) instead of the
cost-sorted prefix [2, 3, 1], so its result is not a prefix of the
cost-sorted stored multiset. -/
theorem C2_pull_returns_duplicate_vertex :
    RunOut.bind c2State (fun s => .ok s.cost_map) =
      .ok [(1, .ins (cqI 10)), (2, .prep (cqI 0)), (3, .prep (cqI 1))] ∧
    RunOut.bind c2State (fun s => RunOut.bind s.pull (fun r => .ok r.1)) =
      .ok ([2, 3, 2], cqI 10) ∧
    List.count 2 [2, 3, 2] = 2 ∧
    RunOut.bind c2State (fun s => .ok (List.count 2 (s.cost_map.map Prod.fst))) = .ok 1 := by
  refine ⟨by decide, by decide, by decide, by decide⟩

/-- C3.  On the state reached by the four precondition-respecting inserts of
c3State, vertex 2 occupies two block entries at once — the fresh entry at
cost 1 and a stale entry at cost 4 left behind by the removal miss — while
the position index records it once at cost 1, so the index does not exactly
describe the block contents. -/
theorem C3_index_disagrees_with_blocks :
    RunOut.bind c3State (fun s => .ok (s.insert_blocks.map Block.nodes)) =
      .ok [[(2, cqI 1), (1, cqI 2)], [(3, cqI 3)], [(2, cqI 4)]] ∧
    RunOut.bind c3State (fun s =>
      .ok ((s.insert_blocks.map Block.nodes).flatten.filter (fun p => p.1 == 2)).length) =
      .ok 2 ∧
    RunOut.bind c3State (fun s => .ok (alGet s.cost_map 2)) = .ok (some (.ins (cqI 1))) ∧
    RunOut.bind c3State (fun s => .ok (s.cost_map.filter (fun p => p.1 == 2)).length) =
      .ok 1 := by
  refine ⟨by decide, by decide, by decide, by decide⟩

/-- C9.  A batch_prepend of cost 10 equal to B into a fresh empty list (the
documented preconditions hold vacuously: M is 2 and there are no current
costs) succeeds, but the following pull panics: the merge step sees the
prepended cost 10 not strictly below the insert-side sentinel B = 10, takes
the insert branch, and unwraps the empty insert-candidate queue. -/
theorem C9_pull_panics_after_boundary_batch_prepend :
    RunOut.bind c9State (fun s => .ok s.len) = .ok 1 ∧
    RunOut.bind c9State (fun s => s.pull) = .panicked .other := by
  refine ⟨by decide, by decide⟩

/-- C4 counterexample.  The state of c4State is reachable by three inserts
respecting the cost-at-most-B precondition, and its insert sequence has two
consecutive blocks with equal upper bounds 10 and 10, so the bounds are not
strictly increasing (the last bound does equal B). -/
theorem C4_equal_upper_bounds_reachable :
    RunOut.bind c4State (fun s => .ok (ubsOf s.insert_blocks)) = .ok [cqI 10, cqI 10] ∧
    RunOut.bind c4State (fun s => .ok (strictChainB (ubsOf s.insert_blocks))) = .ok false := by
  refine ⟨by decide, by decide⟩

/-- C8 counterexample.  The solve entry point performs no weight or
adjacency validation: with the parameters it computes for two vertices it
terminates normally on a negative weight (returning the negative distance),
on an infinite weight, and on an adjacency entry naming vertex 5 of a
2-vertex graph when that entry is never traversed; the claim says each of
these inputs panics. -/
theorem C8_no_panic_on_invalid_inputs :
    bmsspAllAuto adjNeg 0 50 = .ok [cqI 0, cqI (-1)] ∧
    bmsspAllAuto adjInf 0 50 = .ok [cqI 0, CQ.inf] ∧
    bmsspAllAuto adjOor 0 50 = .ok [cqI 0, CQ.inf] := by
  refine ⟨by decide, by decide, by decide⟩

/-- C5.  Adding to a full block of capacity M splits it into exactly two
blocks: the ceil((M + 1) / 2) cheapest of the M + 1 entries (the stably
sorted prefix) form the left block, whose upper bound is the minimum cost of
the right half; the right block keeps the remaining entries and the original
upper bound, and both keep the capacity. -/
theorem C5_full_block_split (b : Block) (v : NodeId) (c : CQ)
    (hfull : b.nodes.length = b.capacity) (hcap : 1 ≤ b.capacity) :
    ∃ lb rb, b.add v c = .ok (.splitBlocks lb rb) ∧
      lb.nodes = (sortAsc (b.nodes ++ [(v, c)])).take ((b.capacity + 2) / 2) ∧
      rb.nodes = (sortAsc (b.nodes ++ [(v, c)])).drop ((b.capacity + 2) / 2) ∧
      lb.nodes.length = (b.capacity + 2) / 2 ∧
      (lb.nodes ++ rb.nodes).Perm (b.nodes ++ [(v, c)]) ∧
      (∀ p ∈ lb.nodes, ∀ q ∈ rb.nodes, cqLe p.2 q.2 = true) ∧
      (∃ q0, rb.nodes.head? = some q0 ∧ lb.upper_bound = q0.2 ∧
        (∀ q ∈ rb.nodes, cqLe q0.2 q.2 = true)) ∧
      rb.upper_bound = b.upper_bound ∧
      lb.capacity = b.capacity ∧ rb.capacity = b.capacity := by
  have hlen : (sortAsc (b.nodes ++ [(v, c)])).length = b.capacity + 1 := by
    rw [sortAsc_length, List.length_append, hfull]
    simp
  have hcut : b.capacity / 2 + 1 = (b.capacity + 2) / 2 := by omega
  have hdroplen : ((sortAsc (b.nodes ++ [(v, c)])).drop (b.capacity / 2 + 1)).length =
      b.capacity + 1 - (b.capacity / 2 + 1) := by
    rw [List.length_drop, hlen]
  have hpos : 0 < b.capacity + 1 - (b.capacity / 2 + 1) := by omega
  obtain ⟨q0, rest, hq⟩ :
      ∃ q0 rest, (sortAsc (b.nodes ++ [(v, c)])).drop (b.capacity / 2 + 1) = q0 :: rest := by
    cases hd : (sortAsc (b.nodes ++ [(v, c)])).drop (b.capacity / 2 + 1) with
    | nil => rw [hd] at hdroplen; simp at hdroplen; omega
    | cons q0 rest => exact ⟨q0, rest, rfl⟩
  have hnotlt : ¬ b.nodes.length < b.capacity := by omega
  refine ⟨⟨(sortAsc (b.nodes ++ [(v, c)])).take (b.capacity / 2 + 1), q0.2, b.capacity⟩,
    ⟨q0 :: rest, b.upper_bound, b.capacity⟩, ?_, ?_, ?_, ?_, ?_, ?_, ?_, rfl, rfl, rfl⟩
  · unfold Block.add
    rw [if_neg hnotlt]
    simp only [hq]
  · show (sortAsc (b.nodes ++ [(v, c)])).take (b.capacity / 2 + 1) = _
    rw [hcut]
  · show (q0 :: rest : List PairC) = _
    rw [← hq, hcut]
  · rw [List.length_take, hlen]
    omega
  · rw [hq.symm, List.take_append_drop]
    exact sortAsc_perm _
  · intro p hp q hq'
    rw [← hq] at hq'
    exact sortAsc_take_drop_le _ _ p hp q hq'
  · refine ⟨q0, rfl, rfl, ?_⟩
    have hpw := sortAsc_pairwise (b.nodes ++ [(v, c)])
    have hpwd : (q0 :: rest).Pairwise (fun a b => cqLe a.2 b.2 = true) := by
      rw [← hq]
      exact hpw.drop
    intro q hq'
    rcases List.mem_cons.mp hq' with h0 | hr
    · subst h0
      exact cqLe_refl _
    · exact List.rel_of_pairwise_cons hpwd hr

/-- C5 witness: on the capacity-3 block of the specification holding
(0, 1), (5, 5), (3, 3) with upper bound 10, adding (4, 4) splits into the
left block [(0, 1), (3, 3)] with upper bound 4 and the right block
[(4, 4), (5, 5)] with upper bound 10, instantiating the split theorem. -/
theorem C5_full_block_split_witness :
    c5Block.add 4 (cqI 4) =
      .ok (.splitBlocks ⟨[(0, cqI 1), (3, cqI 3)], cqI 4, 3⟩
        ⟨[(4, cqI 4), (5, cqI 5)], cqI 10, 3⟩) ∧
    (∃ lb rb, c5Block.add 4 (cqI 4) = .ok (.splitBlocks lb rb) ∧
      lb.nodes = (sortAsc (c5Block.nodes ++ [(4, cqI 4)])).take ((c5Block.capacity + 2) / 2) ∧
      rb.nodes = (sortAsc (c5Block.nodes ++ [(4, cqI 4)])).drop ((c5Block.capacity + 2) / 2) ∧
      lb.nodes.length = (c5Block.capacity + 2) / 2 ∧
      (lb.nodes ++ rb.nodes).Perm (c5Block.nodes ++ [(4, cqI 4)]) ∧
      (∀ p ∈ lb.nodes, ∀ q ∈ rb.nodes, cqLe p.2 q.2 = true) ∧
      (∃ q0, rb.nodes.head? = some q0 ∧ lb.upper_bound = q0.2 ∧
        (∀ q ∈ rb.nodes, cqLe q0.2 q.2 = true)) ∧
      rb.upper_bound = c5Block.upper_bound ∧
      lb.capacity = c5Block.capacity ∧ rb.capacity = c5Block.capacity) :=
  ⟨by decide, C5_full_block_split c5Block 4 (cqI 4) (by decide) (by decide)⟩

/-- C8 amended.  For every adjacency, every source vertex at least the
vertex count, every k at least 2 (the Rust parameter computation always
yields k at least 2) and at least one unit of fuel, the solve entry point
panics: at starting level zero the base solver's first heap pop indexes the
out-of-range neighbour list, and at higher levels the first pivot-finding
layer does. -/
theorem C8_amended_out_of_range_source_panics (adj : Graph) (start k t l fuel : ℕ)
    (hs : adj.length ≤ start) (hk : 2 ≤ k) (hf : 1 ≤ fuel) :
    bmsspAll adj start k t l fuel = .panicked .other := by
  have hget : adj[start]? = none := List.getElem?_eq_none hs
  obtain ⟨f, rfl⟩ : ∃ f, fuel = f + 1 := ⟨fuel - 1, by omega⟩
  have hd0get : ∀ g : ℕ → CQ, (DState.mk adj.length start g).get start = .ok (g start) := by
    intro g
    simp [DState.get]
  cases l with
  | zero =>
    simp only [bmsspAll, bmsspBounded, baseBmssp]
    rw [hd0get]
    simp only [RunOut.bind_ok, baseLoop, heapPop]
    have hcond : ¬ (k < ([start] : List ℕ).length ∨ start ∈ ([] : List ℕ)) := by
      simp
      omega
    simp only [if_neg hcond]
    rw [hd0get]
    simp [getNeighbors, hget, RunOut.bind, Bind.bind]
  | succ l' =>
    simp only [bmsspAll, bmsspBounded, findPivots, dedupList, List.foldl, pushNew]
    obtain ⟨k', rfl⟩ : ∃ k', k = k' + 1 := ⟨k - 1, by omega⟩
    simp only [layersGo, fpRelaxLayer]
    rw [hd0get]
    simp [getNeighbors, hget, RunOut.bind, Bind.bind]

/-- C8 amended witness: the one-vertex graph with source 1 panics, by the
amended theorem at a concrete input. -/
theorem C8_amended_out_of_range_source_panics_witness :
    bmsspAll [[]] 1 2 0 0 1 = .panicked .other :=
  C8_amended_out_of_range_source_panics [[]] 1 2 0 0 1 (by decide) (le_refl 2) (le_refl 1)


/-- A successful distance-map lookup returns the stored value. -/
theorem DState.get_ok {d : DState} {v : ℕ} {c : CQ} (h : d.get v = .ok c) : c = d.f v := by
  unfold DState.get at h
  split at h
  · cases h
    rfl
  · cases h

/-- The popped heap entry and every remaining entry come from the heap. -/
theorem heapPop_mem {h : List (ℕ × CQ)} {p : ℕ × CQ} {rest : List (ℕ × CQ)}
    (he : heapPop h = some (p, rest)) : p ∈ h ∧ ∀ q ∈ rest, q ∈ h := by
  induction h generalizing p rest with
  | nil => simp [heapPop] at he
  | cons x xs ih =>
    unfold heapPop at he
    cases hx : heapPop xs with
    | none =>
      rw [hx] at he
      simp only [] at he
      cases he
      exact ⟨List.mem_cons_self x xs, by simp⟩
    | some mr =>
      obtain ⟨m, mrest⟩ := mr
      rw [hx] at he
      simp only [] at he
      by_cases hle : cqLe x.2 m.2 = true
      · simp only [hle, if_true, Option.some.injEq, Prod.mk.injEq] at he
        obtain ⟨hpx, hrx⟩ := he
        refine ⟨?_, ?_⟩
        · rw [← hpx]
          exact List.mem_cons_self x xs
        · intro q hq
          rw [← hrx] at hq
          exact List.mem_cons_of_mem x hq
      · simp only [Bool.not_eq_true] at hle
        simp only [hle, Bool.false_eq_true, if_false, Option.some.injEq, Prod.mk.injEq] at he
        obtain ⟨hpm, hrx⟩ := he
        obtain ⟨hm, hrest⟩ := ih hx
        refine ⟨?_, ?_⟩
        · rw [← hpm]
          exact List.mem_cons_of_mem x hm
        · intro q hq
          rw [← hrx] at hq
          rcases List.mem_cons.mp hq with h1 | h2
          · rw [h1]
            exact List.mem_cons_self x xs
          · exact List.mem_cons_of_mem x (hrest q h2)

/-- The edge relaxation of the base solver only lowers stored distances and
only pushes heap entries strictly below the upper bound whose stored
distance is at most the pushed cost. -/
theorem baseRelax_props {ub cost : CQ} {nbrs : List (ℕ × CQ)} {heap heap' : List (ℕ × CQ)}
    {d d' : DState} (h : baseRelax ub cost nbrs heap d = .ok (heap', d')) :
    (∀ v, cqLe (d'.f v) (d.f v) = true) ∧ d'.n = d.n ∧ d'.start = d.start ∧
    (∀ p ∈ heap', p ∈ heap ∨ (cqLt p.2 ub = true ∧ cqLe (d'.f p.1) p.2 = true)) := by
  induction nbrs generalizing heap d with
  | nil =>
    unfold baseRelax at h
    cases h
    exact ⟨fun v => cqLe_refl _, rfl, rfl, fun p hp => .inl hp⟩
  | cons e rest ih =>
    obtain ⟨nb, w⟩ := e
    unfold baseRelax at h
    obtain ⟨cur, hcur, h2⟩ := RunOut.bind_eq_ok h
    have hcurf := DState.get_ok hcur
    subst hcurf
    by_cases hguard : (cqLe (cqAdd cost w) (d.f nb) && cqLt (cqAdd cost w) ub) = true
    · simp only [hguard, if_true] at h2
      have hguard' : cqLe (cqAdd cost w) (d.f nb) = true ∧ cqLt (cqAdd cost w) ub = true := by
        simpa using hguard
      obtain ⟨hle, hlt⟩ := hguard'
      obtain ⟨hmono, hn, hs, hmem⟩ := ih h2
      refine ⟨?_, hn, hs, ?_⟩
      · intro v
        refine cqLe_trans (hmono v) ?_
        by_cases hv : v = nb
        · subst hv
          simp only [DState.set, Function.update, eq_rec_constant, dif_pos]
          exact hle
        · simp only [DState.set, Function.update, eq_rec_constant, dif_neg hv]
          exact cqLe_refl _
      · intro p hp
        rcases hmem p hp with hold | hnew
        · rcases List.mem_append.mp hold with h1 | h1
          · exact .inl h1
          · rcases List.mem_singleton.mp h1 with rfl
            refine .inr ⟨hlt, ?_⟩
            refine cqLe_trans (hmono nb) ?_
            simp only [DState.set, Function.update, eq_rec_constant, dif_pos]
            exact cqLe_refl _
        · exact .inr hnew
    · simp only [Bool.not_eq_true] at hguard
      simp only [hguard, Bool.false_eq_true, if_false] at h2
      obtain ⟨hmono, hn, hs, hmem⟩ := ih h2
      exact ⟨hmono, hn, hs, fun p hp => (hmem p hp).imp id id⟩

/-- Along the base solver's loop, the running maximum of distances seen at
entry into U stays strictly below the upper bound, provided every heap
entry is strictly below it and dominates the stored distance. -/
theorem baseLoop_bound {ub : CQ} {k : ℕ} {adj : Graph} :
    ∀ {fuel : ℕ} {heap : List (ℕ × CQ)} {uInit visited : List ℕ} {mcs : CQ} {d : DState}
    {res : (List ℕ × CQ) × DState},
    baseLoop ub k adj fuel heap uInit visited mcs d = .ok res →
    (∀ p ∈ heap, cqLt p.2 ub = true ∧ cqLe (d.f p.1) p.2 = true) →
    cqLt mcs ub = true →
    cqLt res.1.2 ub = true := by
  intro fuel
  induction fuel with
  | zero => intro heap uInit visited mcs d res h; cases h
  | succ f ih =>
    intro heap uInit visited mcs d res h hheap hmcs
    unfold baseLoop at h
    cases hp : heapPop heap with
    | none =>
      rw [hp] at h
      simp only [] at h
      cases h
      exact hmcs
    | some pr =>
      obtain ⟨⟨nid, cost⟩, heap1⟩ := pr
      rw [hp] at h
      simp only [] at h
      by_cases hbr : k < uInit.length ∨ nid ∈ visited
      · rw [if_pos hbr] at h
        cases h
        exact hmcs
      · rw [if_neg hbr] at h
        obtain ⟨dn, hdn, h2⟩ := RunOut.bind_eq_ok h
        have hdnf := DState.get_ok hdn
        subst hdnf
        obtain ⟨nbrs, hnbrs, h3⟩ := RunOut.bind_eq_ok h2
        obtain ⟨⟨heap2, d1⟩, hrel, h4⟩ := RunOut.bind_eq_ok h3
        obtain ⟨hpop, hsub⟩ := heapPop_mem hp
        obtain ⟨hcost, hdle⟩ := hheap _ hpop
        obtain ⟨hmono, _, _, hmem⟩ := baseRelax_props hrel
        refine ih h4 ?_ ?_
        · intro p hp'
          rcases hmem p hp' with hold | hnew
          · obtain ⟨hc, hd⟩ := hheap p (hsub p hold)
            exact ⟨hc, cqLe_trans (hmono p.1) hd⟩
          · exact ⟨hnew.1, hnew.2⟩
        · exact cqMax_lt hmcs (cqLt_of_cqLe_of_cqLt hdle hcost)

/-- The monadic cost filter computes an ordinary list filter on success. -/
theorem filterLtCost_ok : ∀ {l : List ℕ} {b : CQ} {d : DState} {r : List ℕ},
    filterLtCost l b d = .ok r → r = l.filter (fun u => cqLt (d.f u) b) := by
  intro l
  induction l with
  | nil => intro b d r h; cases h; rfl
  | cons v rest ih =>
    intro b d r h
    unfold filterLtCost at h
    obtain ⟨c, hc, h2⟩ := RunOut.bind_eq_ok h
    have := DState.get_ok hc
    subst this
    obtain ⟨r', hr', h3⟩ := RunOut.bind_eq_ok h2
    cases h3
    rw [ih hr']
    by_cases hlt : cqLt (d.f v) b = true
    · simp [hlt]
    · simp only [Bool.not_eq_true] at hlt
      simp [hlt]

/-- C6.  A successful base-solver run started with the source strictly
below the upper bound runs its heap loop to a definite pair (uInit, mcs) —
uInit the list of vertices entered into U in entry order, mcs the running
maximum of the distances seen at those entries, both pinned to the run by
the exposed baseLoop equation — and either finishes untrimmed (at most k
vertices entered U, the upper bound returned unchanged and U returned as
entered) or trimmed: more than k vertices entered U, the returned bound is
exactly that maximum mcs, it is strictly below the upper bound, and the
returned set is exactly the entered list filtered strictly below it. -/
theorem C6_base_trimmed_case {ub : CQ} {x k : ℕ} {adj : Graph} {d : DState} {fuel : ℕ}
    {B' : CQ} {U : List ℕ} {d' : DState}
    (hx : cqLt (d.f x) ub = true)
    (hrun : baseBmssp ub x k adj d fuel = .ok ((B', U), d')) :
    ∃ uInit mcs,
      baseLoop ub k adj fuel [(x, d.f x)] [x] [] (d.f x) d = .ok ((uInit, mcs), d') ∧
      ((uInit.length ≤ k ∧ B' = ub ∧ U = uInit) ∨
       (k < uInit.length ∧ B' = mcs ∧ cqLt B' ub = true ∧
        U = uInit.filter (fun u => cqLt (d'.f u) B'))) := by
  unfold baseBmssp at hrun
  obtain ⟨d0, hd0, h2⟩ := RunOut.bind_eq_ok hrun
  have hd0f := DState.get_ok hd0
  subst hd0f
  obtain ⟨⟨⟨uInit, mcs⟩, d1⟩, hloop, h3⟩ := RunOut.bind_eq_ok h2
  simp only [] at h3
  have hmcs : cqLt mcs ub = true := by
    refine baseLoop_bound hloop ?_ hx
    intro p hp
    rcases List.mem_singleton.mp hp with rfl
    exact ⟨hx, cqLe_refl _⟩
  by_cases hsize : uInit.length ≤ k
  · rw [if_pos hsize] at h3
    cases h3
    exact ⟨_, _, hloop, .inl ⟨hsize, rfl, rfl⟩⟩
  · rw [if_neg hsize] at h3
    obtain ⟨filtered, hfil, h4⟩ := RunOut.bind_eq_ok h3
    cases h4
    exact ⟨_, _, hloop, .inr ⟨by omega, rfl, hmcs, filterLtCost_ok hfil⟩⟩

/-- C6 witness: on the path graph adjC6 with k = 2 and upper bound 100 the
base solver returns the trimmed pair (2, [0, 1]), instantiating the
trimmed-case theorem at a concrete input: the loop equation determines the
entered list and entry maximum of this very run. -/
theorem C6_base_trimmed_case_witness :
    ∃ B' U d', baseBmssp (cqI 100) 0 2 adjC6 dC6 50 = .ok ((B', U), d') ∧
      B' = cqI 2 ∧ U = [0, 1] ∧
      ∃ uInit mcs,
        baseLoop (cqI 100) 2 adjC6 50 [(0, dC6.f 0)] [0] [] (dC6.f 0) dC6 =
          .ok ((uInit, mcs), d') ∧
        ((uInit.length ≤ 2 ∧ B' = cqI 100 ∧ U = uInit) ∨
         (2 < uInit.length ∧ B' = mcs ∧ cqLt B' (cqI 100) = true ∧
          U = uInit.filter (fun u => cqLt (d'.f u) B'))) := by
  have hproj : RunOut.bind (baseBmssp (cqI 100) 0 2 adjC6 dC6 50) (fun r => .ok r.1) =
      .ok (cqI 2, [0, 1]) := by decide
  cases hrun : baseBmssp (cqI 100) 0 2 adjC6 dC6 50 with
  | ok r =>
    obtain ⟨⟨B', U⟩, d'⟩ := r
    rw [hrun] at hproj
    simp only [RunOut.bind, RunOut.ok.injEq, Prod.mk.injEq] at hproj
    obtain ⟨hB, hU⟩ := hproj
    exact ⟨B', U, d', rfl, hB, hU, C6_base_trimmed_case (by decide) hrun⟩
  | panicked k =>
    rw [hrun] at hproj
    simp [RunOut.bind] at hproj
  | fuelOut =>
    rw [hrun] at hproj
    simp [RunOut.bind] at hproj


/-- A successful neighbour-list lookup returns a member of the adjacency. -/
theorem getNeighbors_ok {adj : Graph} {v : ℕ} {l : List (ℕ × CQ)}
    (h : getNeighbors adj v = .ok l) : l ∈ adj := by
  unfold getNeighbors at h
  cases hg : adj.get? v with
  | none => rw [hg] at h; cases h
  | some l' =>
    rw [hg] at h
    cases h
    exact List.get?_mem hg

/-- On a non-negative-weight graph, looked-up edge weights are non-negative. -/
theorem nbrs_nonneg {adj : Graph} {v : ℕ} {nbrs : List (ℕ × CQ)}
    (hW : WNonneg adj) (h : getNeighbors adj v = .ok nbrs) :
    ∀ p ∈ nbrs, cqLe (.fin 0) p.2 = true :=
  fun p hp => hW nbrs (getNeighbors_ok h) p hp

/-- A write below the stored value lowers the map pointwise. -/
theorem DState.set_mono {d : DState} {v : ℕ} {c : CQ} (h : cqLe c (d.f v) = true) :
    DLe (d.set v c) d := by
  intro u
  by_cases hu : u = v
  · subst hu
    simp only [DState.set, Function.update, eq_rec_constant, dif_pos]
    exact h
  · simp only [DState.set, Function.update, eq_rec_constant, dif_neg hu]
    exact cqLe_refl _

/-- A non-negative write keeps the map non-negative. -/
theorem DState.set_nonneg {d : DState} {v : ℕ} {c : CQ}
    (hd : DNonneg d) (hc : cqLe (.fin 0) c = true) : DNonneg (d.set v c) := by
  intro u
  by_cases hu : u = v
  · subst hu
    simp only [DState.set, Function.update, eq_rec_constant, dif_pos]
    exact hc
  · simp only [DState.set, Function.update, eq_rec_constant, dif_neg hu]
    exact hd u

/-- Pointwise comparison of maps is reflexive. -/
theorem DLe.refl (d : DState) : DLe d d := fun v => cqLe_refl _

/-- Pointwise comparison of maps is transitive. -/
theorem DLe.trans {a b c : DState} (h1 : DLe a b) (h2 : DLe b c) : DLe a c :=
  fun v => cqLe_trans (h1 v) (h2 v)

/-- Edge relaxation in a pivot-finding layer only lowers the map and keeps
it non-negative. -/
theorem fpRelaxEdges_mono {bound cost : CQ} {nid : ℕ} :
    ∀ {nbrs : List (ℕ × CQ)} {d : DState} {layer : List ℕ} {bp : List (ℕ × ℕ)}
    {d' : DState} {layer' : List ℕ} {bp' : List (ℕ × ℕ)},
    fpRelaxEdges bound cost nid nbrs (d, layer, bp) = .ok (d', layer', bp') →
    (∀ p ∈ nbrs, cqLe (.fin 0) p.2 = true) →
    cqLe (.fin 0) cost = true →
    DLe d' d ∧ (DNonneg d → DNonneg d') := by
  intro nbrs
  induction nbrs with
  | nil =>
    intro d layer bp d' layer' bp' h _ _
    cases h
    exact ⟨DLe.refl d, fun hd => hd⟩
  | cons e rest ih =>
    intro d layer bp d' layer' bp' h hnb hcost
    obtain ⟨nb, w⟩ := e
    unfold fpRelaxEdges at h
    obtain ⟨cur, hcur, h2⟩ := RunOut.bind_eq_ok h
    have := DState.get_ok hcur
    subst this
    have hw : cqLe (.fin 0) w = true := hnb (nb, w) (List.mem_cons_self _ _)
    have hc0 : cqLe (.fin 0) (cqAdd cost w) = true := cqAdd_nonneg hcost hw
    have hrest : ∀ p ∈ rest, cqLe (.fin 0) p.2 = true :=
      fun p hp => hnb p (List.mem_cons_of_mem _ hp)
    by_cases hle : cqLe (cqAdd cost w) (d.f nb) = true
    · simp only [hle, if_true] at h2
      have hsm : DLe (d.set nb (cqAdd cost w)) d := DState.set_mono hle
      by_cases hlt : cqLt (cqAdd cost w) bound = true
      · simp only [hlt, if_true] at h2
        obtain ⟨hm, hn⟩ := ih h2 hrest hcost
        exact ⟨hm.trans hsm, fun hd => hn (DState.set_nonneg hd hc0)⟩
      · simp only [Bool.not_eq_true] at hlt
        simp only [hlt, Bool.false_eq_true, if_false] at h2
        obtain ⟨hm, hn⟩ := ih h2 hrest hcost
        exact ⟨hm.trans hsm, fun hd => hn (DState.set_nonneg hd hc0)⟩
    · simp only [Bool.not_eq_true] at hle
      simp only [hle, Bool.false_eq_true, if_false] at h2
      exact ih h2 hrest hcost

/-- A whole pivot-finding layer only lowers the map and keeps it
non-negative. -/
theorem fpRelaxLayer_mono {bound : CQ} {adj : Graph} (hW : WNonneg adj) :
    ∀ {nodes : List ℕ} {d : DState} {layer : List ℕ} {bp : List (ℕ × ℕ)}
    {d' : DState} {layer' : List ℕ} {bp' : List (ℕ × ℕ)},
    fpRelaxLayer bound adj nodes (d, layer, bp) = .ok (d', layer', bp') →
    DNonneg d →
    DLe d' d ∧ DNonneg d' := by
  intro nodes
  induction nodes with
  | nil =>
    intro d layer bp d' layer' bp' h hd
    cases h
    exact ⟨DLe.refl d, hd⟩
  | cons nid rest ih =>
    intro d layer bp d' layer' bp' h hd
    unfold fpRelaxLayer at h
    obtain ⟨cost, hcost, h2⟩ := RunOut.bind_eq_ok h
    have := DState.get_ok hcost
    subst this
    obtain ⟨nbrs, hnbrs, h3⟩ := RunOut.bind_eq_ok h2
    obtain ⟨⟨d1, layer1, bp1⟩, hst, h4⟩ := RunOut.bind_eq_ok h3
    obtain ⟨hm1, hn1⟩ := fpRelaxEdges_mono hst (nbrs_nonneg hW hnbrs) (hd nid)
    obtain ⟨hm2, hn2⟩ := ih h4 (hn1 hd)
    exact ⟨hm2.trans hm1, hn2⟩

/-- The pivot-finding layer loop only lowers the map and keeps it
non-negative. -/
theorem layersGo_mono {bound : CQ} {adj : Graph} {k flen : ℕ} (hW : WNonneg adj) :
    ∀ {r : ℕ} {layers : List (List ℕ)} {allL : List ℕ} {bp : List (ℕ × ℕ)} {d : DState}
    {res : (List ℕ ⊕ (List (List ℕ) × List (ℕ × ℕ)))} {d' : DState},
    layersGo bound adj k flen r layers allL bp d = .ok (res, d') →
    DNonneg d →
    DLe d' d ∧ DNonneg d' := by
  intro r
  induction r with
  | zero =>
    intro layers allL bp d res d' h hd
    cases h
    exact ⟨DLe.refl d, hd⟩
  | succ r ih =>
    intro layers allL bp d res d' h hd
    unfold layersGo at h
    obtain ⟨⟨d1, newLayer, bp1⟩, hlay, h2⟩ := RunOut.bind_eq_ok h
    simp only [] at h2
    obtain ⟨hm1, hn1⟩ := fpRelaxLayer_mono hW hlay hd
    by_cases hc : k * flen < (newLayer.foldl pushNew allL).length
    · rw [if_pos hc] at h2
      cases h2
      exact ⟨hm1, hn1⟩
    · rw [if_neg hc] at h2
      obtain ⟨hm2, hn2⟩ := ih h2 hn1
      exact ⟨hm2.trans hm1, hn2⟩

/-- find_pivots only lowers the distance map and keeps it non-negative. -/
theorem findPivots_mono {bound : CQ} {frontier : List ℕ} {k : ℕ} {adj : Graph}
    {d : DState} {fuel : ℕ} {r : List ℕ × List ℕ} {d' : DState} (hW : WNonneg adj)
    (h : findPivots bound frontier k adj d fuel = .ok (r, d')) (hd : DNonneg d) :
    DLe d' d ∧ DNonneg d' := by
  unfold findPivots at h
  obtain ⟨⟨res, d1⟩, hgo, h2⟩ := RunOut.bind_eq_ok h
  obtain ⟨hm, hn⟩ := layersGo_mono hW hgo hd
  cases res with
  | inl w =>
    simp only [] at h2
    cases h2
    exact ⟨hm, hn⟩
  | inr lb =>
    obtain ⟨layers, bp⟩ := lb
    simp only [] at h2
    obtain ⟨counts, hcounts, h3⟩ := RunOut.bind_eq_ok h2
    cases h3
    exact ⟨hm, hn⟩

/-- The base solver's relaxation keeps the map and heap non-negative. -/
theorem baseRelax_nonneg {ub cost : CQ} :
    ∀ {nbrs : List (ℕ × CQ)} {heap heap' : List (ℕ × CQ)} {d d' : DState},
    baseRelax ub cost nbrs heap d = .ok (heap', d') →
    (∀ p ∈ nbrs, cqLe (.fin 0) p.2 = true) →
    cqLe (.fin 0) cost = true →
    DNonneg d →
    (∀ p ∈ heap, cqLe (.fin 0) p.2 = true) →
    DNonneg d' ∧ (∀ p ∈ heap', cqLe (.fin 0) p.2 = true) := by
  intro nbrs
  induction nbrs with
  | nil =>
    intro heap heap' d d' h _ _ hd hh
    cases h
    exact ⟨hd, hh⟩
  | cons e rest ih =>
    intro heap heap' d d' h hnb hcost hd hh
    obtain ⟨nb, w⟩ := e
    unfold baseRelax at h
    obtain ⟨cur, hcur, h2⟩ := RunOut.bind_eq_ok h
    have := DState.get_ok hcur
    subst this
    have hw : cqLe (.fin 0) w = true := hnb (nb, w) (List.mem_cons_self _ _)
    have hc0 : cqLe (.fin 0) (cqAdd cost w) = true := cqAdd_nonneg hcost hw
    have hrest : ∀ p ∈ rest, cqLe (.fin 0) p.2 = true :=
      fun p hp => hnb p (List.mem_cons_of_mem _ hp)
    by_cases hguard : (cqLe (cqAdd cost w) (d.f nb) && cqLt (cqAdd cost w) ub) = true
    · simp only [hguard, if_true] at h2
      refine ih h2 hrest hcost (DState.set_nonneg hd hc0) ?_
      intro p hp
      rcases List.mem_append.mp hp with h1 | h1
      · exact hh p h1
      · rcases List.mem_singleton.mp h1 with rfl
        exact hc0
    · simp only [Bool.not_eq_true] at hguard
      simp only [hguard, Bool.false_eq_true, if_false] at h2
      exact ih h2 hrest hcost hd hh

/-- The base solver's loop only lowers the map and keeps it non-negative. -/
theorem baseLoop_mono {ub : CQ} {k : ℕ} {adj : Graph} (hW : WNonneg adj) :
    ∀ {fuel : ℕ} {heap : List (ℕ × CQ)} {uInit visited : List ℕ} {mcs : CQ} {d : DState}
    {res : (List ℕ × CQ) × DState},
    baseLoop ub k adj fuel heap uInit visited mcs d = .ok res →
    DNonneg d →
    (∀ p ∈ heap, cqLe (.fin 0) p.2 = true) →
    DLe res.2 d ∧ DNonneg res.2 := by
  intro fuel
  induction fuel with
  | zero => intro heap uInit visited mcs d res h; intro _ _; cases h
  | succ f ih =>
    intro heap uInit visited mcs d res h hd hh
    unfold baseLoop at h
    cases hp : heapPop heap with
    | none =>
      rw [hp] at h
      simp only [] at h
      cases h
      exact ⟨DLe.refl d, hd⟩
    | some pr =>
      obtain ⟨⟨nid, cost⟩, heap1⟩ := pr
      rw [hp] at h
      simp only [] at h
      by_cases hbr : k < uInit.length ∨ nid ∈ visited
      · rw [if_pos hbr] at h
        cases h
        exact ⟨DLe.refl d, hd⟩
      · rw [if_neg hbr] at h
        obtain ⟨dn, hdn, h2⟩ := RunOut.bind_eq_ok h
        have := DState.get_ok hdn
        subst this
        obtain ⟨nbrs, hnbrs, h3⟩ := RunOut.bind_eq_ok h2
        obtain ⟨⟨heap2, d1⟩, hrel, h4⟩ := RunOut.bind_eq_ok h3
        obtain ⟨hpop, hsub⟩ := heapPop_mem hp
        have hcost0 : cqLe (.fin 0) cost = true := hh _ hpop
        obtain ⟨hmono, _, _, _⟩ := baseRelax_props hrel
        obtain ⟨hn1, hh1⟩ := baseRelax_nonneg hrel (nbrs_nonneg hW hnbrs) hcost0 hd
          (fun p hp' => hh p (hsub p hp'))
        obtain ⟨hm2, hn2⟩ := ih h4 hn1 hh1
        exact ⟨hm2.trans hmono, hn2⟩

/-- base_bmssp only lowers the distance map and keeps it non-negative. -/
theorem baseBmssp_mono {ub : CQ} {x k : ℕ} {adj : Graph} {d : DState} {fuel : ℕ}
    {r : CQ × List ℕ} {d' : DState} (hW : WNonneg adj)
    (h : baseBmssp ub x k adj d fuel = .ok (r, d')) (hd : DNonneg d) :
    DLe d' d ∧ DNonneg d' := by
  unfold baseBmssp at h
  obtain ⟨d0, hd0, h2⟩ := RunOut.bind_eq_ok h
  have := DState.get_ok hd0
  subst this
  obtain ⟨⟨⟨uInit, mcs⟩, d1⟩, hloop, h3⟩ := RunOut.bind_eq_ok h2
  simp only [] at h3
  have hbase := baseLoop_mono hW hloop hd (by
    intro p hp
    rcases List.mem_singleton.mp hp with rfl
    exact hd x)
  by_cases hsize : uInit.length ≤ k
  · rw [if_pos hsize] at h3
    cases h3
    exact hbase
  · rw [if_neg hsize] at h3
    obtain ⟨filtered, hfil, h4⟩ := RunOut.bind_eq_ok h3
    cases h4
    exact hbase

/-- The recursive solver's edge relaxation only lowers the map and keeps it
non-negative. -/
theorem boundedRelaxEdges_mono {ub curUb newUb : CQ} {nid : ℕ} :
    ∀ {nbrs : List (ℕ × CQ)} {bl : BlockList} {batch : List (ℕ × CQ)} {d : DState}
    {bl' : BlockList} {batch' : List (ℕ × CQ)} {d' : DState},
    boundedRelaxEdges ub curUb newUb nid nbrs (bl, batch, d) = .ok (bl', batch', d') →
    (∀ p ∈ nbrs, cqLe (.fin 0) p.2 = true) →
    DNonneg d →
    DLe d' d ∧ DNonneg d' := by
  intro nbrs
  induction nbrs with
  | nil =>
    intro bl batch d bl' batch' d' h _ hd
    cases h
    exact ⟨DLe.refl d, hd⟩
  | cons e rest ih =>
    intro bl batch d bl' batch' d' h hnb hd
    obtain ⟨nb, w⟩ := e
    unfold boundedRelaxEdges at h
    obtain ⟨dn, hdn, h2⟩ := RunOut.bind_eq_ok h
    have := DState.get_ok hdn
    subst this
    obtain ⟨cur, hcur, h3⟩ := RunOut.bind_eq_ok h2
    have := DState.get_ok hcur
    subst this
    have hw : cqLe (.fin 0) w = true := hnb (nb, w) (List.mem_cons_self _ _)
    have hpw0 : cqLe (.fin 0) (cqAdd (d.f nid) w) = true := cqAdd_nonneg (hd nid) hw
    have hrest : ∀ p ∈ rest, cqLe (.fin 0) p.2 = true :=
      fun p hp => hnb p (List.mem_cons_of_mem _ hp)
    by_cases hle : cqLe (cqAdd (d.f nid) w) (d.f nb) = true
    · simp only [hle, if_true] at h3
      have hsm : DLe (d.set nb (cqAdd (d.f nid) w)) d := DState.set_mono hle
      have hsn : DNonneg (d.set nb (cqAdd (d.f nid) w)) := DState.set_nonneg hd hpw0
      by_cases hwin : (cqLe curUb (cqAdd (d.f nid) w) && cqLt (cqAdd (d.f nid) w) ub) = true
      · simp only [hwin, if_true] at h3
        obtain ⟨bl1, hbl1, h4⟩ := RunOut.bind_eq_ok h3
        obtain ⟨hm, hn⟩ := ih h4 hrest hsn
        exact ⟨hm.trans hsm, hn⟩
      · simp only [Bool.not_eq_true] at hwin
        simp only [hwin, Bool.false_eq_true, if_false] at h3
        by_cases hwin2 : (cqLe newUb (cqAdd (d.f nid) w) && cqLt (cqAdd (d.f nid) w) curUb) = true
        · simp only [hwin2, if_true] at h3
          obtain ⟨hm, hn⟩ := ih h3 hrest hsn
          exact ⟨hm.trans hsm, hn⟩
        · simp only [Bool.not_eq_true] at hwin2
          simp only [hwin2, Bool.false_eq_true, if_false] at h3
          obtain ⟨hm, hn⟩ := ih h3 hrest hsn
          exact ⟨hm.trans hsm, hn⟩
    · simp only [Bool.not_eq_true] at hle
      simp only [hle, Bool.false_eq_true, if_false] at h3
      exact ih h3 hrest hd

/-- The settled-set walk of the recursive solver only lowers the map. -/
theorem boundedUsetLoop_mono {ub curUb newUb : CQ} {adj : Graph} (hW : WNonneg adj) :
    ∀ {nodes uSet : List ℕ} {bl : BlockList} {batch : List (ℕ × CQ)} {d : DState}
    {uSet' : List ℕ} {bl' : BlockList} {batch' : List (ℕ × CQ)} {d' : DState},
    boundedUsetLoop ub curUb newUb adj nodes uSet bl batch d = .ok (uSet', bl', batch', d') →
    DNonneg d →
    DLe d' d ∧ DNonneg d' := by
  intro nodes
  induction nodes with
  | nil =>
    intro uSet bl batch d uSet' bl' batch' d' h hd
    cases h
    exact ⟨DLe.refl d, hd⟩
  | cons nid rest ih =>
    intro uSet bl batch d uSet' bl' batch' d' h hd
    unfold boundedUsetLoop at h
    obtain ⟨nbrs, hnbrs, h2⟩ := RunOut.bind_eq_ok h
    obtain ⟨⟨bl1, batch1, d1⟩, hrel, h3⟩ := RunOut.bind_eq_ok h2
    obtain ⟨hm1, hn1⟩ := boundedRelaxEdges_mono hrel (nbrs_nonneg hW hnbrs) hd
    obtain ⟨hm2, hn2⟩ := ih h3 hn1
    exact ⟨hm2.trans hm1, hn2⟩

/-- The recursive solver's while loop only lowers the map, given that the
lower-level solver does. -/
theorem boundedWhile_mono {rec : CQ → List ℕ → DState → RunOut ((CQ × List ℕ) × DState)}
    {ub : CQ} {adj : Graph} {maxU : ℕ} (hW : WNonneg adj)
    (hrec : ∀ {curUb : CQ} {frontier : List ℕ} {d : DState} {r : CQ × List ℕ} {d' : DState},
      rec curUb frontier d = .ok (r, d') → DNonneg d → DLe d' d ∧ DNonneg d') :
    ∀ {fuel : ℕ} {uSet : List ℕ} {bl : BlockList} {minUb : CQ} {d : DState}
    {r : CQ × List ℕ} {d' : DState},
    boundedWhile rec ub adj maxU fuel uSet bl minUb d = .ok (r, d') →
    DNonneg d →
    DLe d' d ∧ DNonneg d' := by
  intro fuel
  induction fuel with
  | zero => intro uSet bl minUb d r d' h _; cases h
  | succ f ih =>
    intro uSet bl minUb d r d' h hd
    unfold boundedWhile at h
    by_cases hc : uSet.length < maxU ∧ bl.isEmpty = false
    · rw [if_pos hc] at h
      obtain ⟨⟨⟨newFrontier, curUb⟩, bl1⟩, hpull, h2⟩ := RunOut.bind_eq_ok h
      obtain ⟨⟨⟨newUb, newUset⟩, d1⟩, hr, h3⟩ := RunOut.bind_eq_ok h2
      obtain ⟨⟨uSet1, bl2, batch, d2⟩, hloop, h4⟩ := RunOut.bind_eq_ok h3
      obtain ⟨batch1, hbatch, h5⟩ := RunOut.bind_eq_ok h4
      obtain ⟨bl3, hbp, h6⟩ := RunOut.bind_eq_ok h5
      obtain ⟨hm1, hn1⟩ := hrec hr hd
      obtain ⟨hm2, hn2⟩ := boundedUsetLoop_mono hW hloop hn1
      obtain ⟨hm3, hn3⟩ := ih h6 hn2
      exact ⟨(hm3.trans hm2).trans hm1, hn3⟩
    · rw [if_neg hc] at h
      cases h
      exact ⟨DLe.refl d, hd⟩

/-- bmssp_bounded only lowers the distance map and keeps it non-negative. -/
theorem bmsspBounded_mono {k t : ℕ} {adj : Graph} {fuel : ℕ} (hW : WNonneg adj) :
    ∀ {l : ℕ} {ub : CQ} {frontier : List ℕ} {d : DState} {r : CQ × List ℕ} {d' : DState},
    bmsspBounded k t adj fuel l ub frontier d = .ok (r, d') →
    DNonneg d →
    DLe d' d ∧ DNonneg d' := by
  intro l
  induction l with
  | zero =>
    intro ub frontier d r d' h hd
    unfold bmsspBounded at h
    cases frontier with
    | nil => cases h
    | cons x rest =>
      cases rest with
      | nil => exact baseBmssp_mono hW h hd
      | cons y ys => cases h
  | succ l ih =>
    intro ub frontier d r d' h hd
    unfold bmsspBounded at h
    obtain ⟨⟨⟨pivots, layerSet⟩, d1⟩, hfp, h2⟩ := RunOut.bind_eq_ok h
    obtain ⟨⟨bl1, minUb0⟩, hpiv, h3⟩ := RunOut.bind_eq_ok h2
    obtain ⟨⟨⟨minUb, uSet⟩, d2⟩, hwhile, h4⟩ := RunOut.bind_eq_ok h3
    obtain ⟨uSet1, haug, h5⟩ := RunOut.bind_eq_ok h4
    cases h5
    obtain ⟨hm1, hn1⟩ := findPivots_mono hW hfp hd
    obtain ⟨hm2, hn2⟩ := boundedWhile_mono hW (fun hr hd' => ih hr hd') hwhile hn1
    exact ⟨hm2.trans hm1, hn2⟩

/-- A pointwise-lowered non-negative map preserves zero entries. -/
theorem zero_preserved {d d' : DState} (hm : DLe d' d) (hn : DNonneg d') :
    ∀ v, d.f v = .fin 0 → d'.f v = .fin 0 := by
  intro v hv
  have h1 : cqLe (d'.f v) (.fin 0) = true := by
    have := hm v
    rwa [hv] at this
  exact cqLe_antisymm h1 (hn v)

/-- C7.  At each of the three relaxation sites (find_pivots, base_bmssp,
bmssp_bounded), a successful run on a non-negative-weight graph with a
non-negative distance map produces a map that is pointwise at most the
initial one (every write is non-increasing), stays non-negative, and keeps
every zero entry at zero; in particular the source entry stays zero from
initialization until return. -/
theorem C7_distance_map_monotone :
    (∀ (bound : CQ) (frontier : List ℕ) (k : ℕ) (adj : Graph) (d : DState) (fuel : ℕ)
      (r : List ℕ × List ℕ) (d' : DState), WNonneg adj → DNonneg d →
      findPivots bound frontier k adj d fuel = .ok (r, d') →
      DLe d' d ∧ DNonneg d' ∧ ∀ v, d.f v = .fin 0 → d'.f v = .fin 0) ∧
    (∀ (ub : CQ) (x k : ℕ) (adj : Graph) (d : DState) (fuel : ℕ) (r : CQ × List ℕ)
      (d' : DState), WNonneg adj → DNonneg d →
      baseBmssp ub x k adj d fuel = .ok (r, d') →
      DLe d' d ∧ DNonneg d' ∧ ∀ v, d.f v = .fin 0 → d'.f v = .fin 0) ∧
    (∀ (k t : ℕ) (adj : Graph) (fuel l : ℕ) (ub : CQ) (frontier : List ℕ) (d : DState)
      (r : CQ × List ℕ) (d' : DState), WNonneg adj → DNonneg d →
      bmsspBounded k t adj fuel l ub frontier d = .ok (r, d') →
      DLe d' d ∧ DNonneg d' ∧ ∀ v, d.f v = .fin 0 → d'.f v = .fin 0) := by
  refine ⟨?_, ?_, ?_⟩
  · intro bound frontier k adj d fuel r d' hW hd h
    obtain ⟨hm, hn⟩ := findPivots_mono hW h hd
    exact ⟨hm, hn, zero_preserved hm hn⟩
  · intro ub x k adj d fuel r d' hW hd h
    obtain ⟨hm, hn⟩ := baseBmssp_mono hW h hd
    exact ⟨hm, hn, zero_preserved hm hn⟩
  · intro k t adj fuel l ub frontier d r d' hW hd h
    obtain ⟨hm, hn⟩ := bmsspBounded_mono hW h hd
    exact ⟨hm, hn, zero_preserved hm hn⟩

/-- C7 witness: a concrete level-zero bmssp_bounded run on the path graph,
instantiating the third conjunct of the monotonicity theorem. -/
theorem C7_distance_map_monotone_witness :
    ∃ r d', bmsspBounded 2 1 adjC6 50 0 (cqI 100) [0] dC6 = .ok (r, d') ∧
      (DLe d' dC6 ∧ DNonneg d' ∧ ∀ v, dC6.f v = .fin 0 → d'.f v = .fin 0) := by
  have hW : WNonneg adjC6 := by
    unfold WNonneg
    decide
  have hd : DNonneg dC6 := by
    intro v
    by_cases hv : v = 0
    · simp [dC6, hv, cqLe, cqI]
    · simp [dC6, hv, cqLe, cqI]
  have hproj : RunOut.bind (bmsspBounded 2 1 adjC6 50 0 (cqI 100) [0] dC6)
      (fun r => .ok r.1) = .ok (cqI 2, [0, 1]) := by decide
  cases hrun : bmsspBounded 2 1 adjC6 50 0 (cqI 100) [0] dC6 with
  | ok r =>
    obtain ⟨r1, d'⟩ := r
    exact ⟨r1, d', rfl,
      C7_distance_map_monotone.2.2 2 1 adjC6 50 0 (cqI 100) [0] dC6 r1 d' hW hd hrun⟩
  | panicked pk =>
    rw [hrun] at hproj
    simp [RunOut.bind] at hproj
  | fuelOut =>
    rw [hrun] at hproj
    simp [RunOut.bind] at hproj

/-! ## List surgery around the partition point (for the C4 invariant) -/

theorem get?_append_len {α : Type} (A R : List α) : (A ++ R).get? A.length = R.get? 0 := by
  induction A with
  | nil => rfl
  | cons a t ih => exact ih

theorem set_append_len {α : Type} (A R : List α) (x : α) :
    (A ++ R).set A.length x = A ++ R.set 0 x := by
  induction A with
  | nil => rfl
  | cons a t ih => exact congrArg (List.cons a) ih

theorem eraseIdx_cons_after {α : Type} (A : List α) (y x : α) (R : List α) :
    (A ++ y :: x :: R).eraseIdx (A.length + 1) = A ++ y :: R := by
  induction A with
  | nil => rfl
  | cons a t ih => exact congrArg (List.cons a) ih

theorem insertIdx_cons_after {α : Type} (A : List α) (y : α) (R : List α) (x : α) :
    (A ++ y :: R).insertIdx (A.length + 1) x = A ++ y :: x :: R := by
  induction A with
  | nil => rfl
  | cons a t ih => exact congrArg (List.cons a) ih

theorem get?_takeWhile_length {α : Type} (p : α → Bool) (bs : List α) :
    bs.get? (bs.takeWhile p).length = (bs.dropWhile p).head? := by
  induction bs with
  | nil => rfl
  | cons b t ih =>
    rw [List.takeWhile_cons, List.dropWhile_cons]
    cases hp : p b
    · simp
    · simpa using ih

theorem takeWhile_dropWhile_decomp {α : Type} {p : α → Bool} {bs : List α} {b : α}
    {R : List α} (h : bs.dropWhile p = b :: R) : bs.takeWhile p ++ b :: R = bs := by
  rw [← h, List.takeWhile_append_dropWhile]

theorem set_takeWhile_length {α : Type} {p : α → Bool} {bs : List α} {b : α} {R : List α}
    (h : bs.dropWhile p = b :: R) (x : α) :
    bs.set (bs.takeWhile p).length x = bs.takeWhile p ++ x :: R := by
  have hb := takeWhile_dropWhile_decomp h
  calc bs.set (bs.takeWhile p).length x
      = (bs.takeWhile p ++ b :: R).set (bs.takeWhile p).length x := by rw [hb]
    _ = bs.takeWhile p ++ x :: R := by
        rw [set_append_len]
        rfl

theorem dropWhile_head_false {α : Type} {p : α → Bool} : ∀ {bs : List α} {b : α} {R : List α},
    bs.dropWhile p = b :: R → p b = false := by
  intro bs
  induction bs with
  | nil => intro b R h; exact absurd h (by simp)
  | cons a t ih =>
    intro b R h
    rw [List.dropWhile_cons] at h
    cases hp : p a
    · simp only [hp, Bool.false_eq_true, if_false, List.cons.injEq] at h
      rw [← h.1]
      exact hp
    · simp only [hp, if_true] at h
      exact ih h

theorem setUB_concat (A0 : List Block) (aL : Block) (X : List Block) (u : CQ) :
    setUB ((A0 ++ [aL]) ++ X) A0.length u = A0 ++ { aL with upper_bound := u } :: X := by
  have he : (A0 ++ [aL]) ++ X = A0 ++ aL :: X := by simp
  rw [he]
  unfold setUB
  rw [get?_append_len A0 (aL :: X)]
  simp only [List.get?_cons_zero]
  rw [set_append_len A0 (aL :: X)]
  rfl

/-! ## Segment lemmas for the insert-sequence invariant -/

theorem loB_mono {lo : Option CQ} {u c : CQ} (h : loB lo u) (hc : cqLe u c = true) :
    loB lo c := by
  cases lo with
  | none => trivial
  | some w => exact cqLe_trans h hc

theorem InsSeg_append {A R : List Block} : ∀ {lo out : Option CQ},
    InsSeg lo out (A ++ R) ↔ ∃ mid, InsSeg lo mid A ∧ InsSeg mid out R := by
  induction A with
  | nil =>
    intro lo out
    constructor
    · intro h
      exact ⟨lo, rfl, h⟩
    · rintro ⟨mid, h1, h2⟩
      have hm : mid = lo := h1
      rw [hm] at h2
      exact h2
  | cons b t ih =>
    intro lo out
    constructor
    · rintro ⟨h1, h2, h3⟩
      obtain ⟨mid, m1, m2⟩ := ih.mp h3
      exact ⟨mid, ⟨h1, h2, m1⟩, m2⟩
    · rintro ⟨mid, ⟨h1, h2, m1⟩, m2⟩
      exact ⟨h1, h2, ih.mpr ⟨mid, m1, m2⟩⟩

theorem InsSeg_cons_none {lo out : Option CQ} {b : Block} {l : List Block}
    (h : InsSeg lo out (b :: l)) : InsSeg none out (b :: l) := by
  obtain ⟨h1, h2, h3⟩ := h
  exact ⟨trivial, fun q hq => ⟨trivial, (h2 q hq).2⟩, h3⟩

theorem InsSeg_out_loB {c : CQ} : ∀ {A : List Block} {lo out : Option CQ},
    InsSeg lo out A → (∀ b ∈ A, cqLt b.upper_bound c = true) → loB lo c → loB out c := by
  intro A
  induction A with
  | nil =>
    intro lo out h _ hlo
    have hm : out = lo := h
    rw [hm]
    exact hlo
  | cons b t ih =>
    intro lo out h hA hlo
    obtain ⟨h1, h2, h3⟩ := h
    exact ih h3 (fun x hx => hA x (List.mem_cons_of_mem _ hx))
      (cqLe_of_cqLt (hA b (List.mem_cons_self b t)))

theorem InsSeg_chain : ∀ {bs : List Block} {lo out : Option CQ}, InsSeg lo out bs →
    List.Chain' (fun a b => cqLe a.upper_bound b.upper_bound = true) bs := by
  intro bs
  induction bs with
  | nil =>
    intro lo out _
    exact List.chain'_nil
  | cons b t ih =>
    intro lo out h
    obtain ⟨h1, h2, h3⟩ := h
    cases t with
    | nil => exact List.chain'_singleton b
    | cons b2 t2 =>
      obtain ⟨g1, g2, g3⟩ := h3
      exact List.Chain'.cons g1 (ih ⟨g1, g2, g3⟩)

theorem InsSeg_last {B0 : CQ} : ∀ {bs : List Block} {b : Block} {lo : Option CQ},
    InsSeg lo (some B0) (b :: bs) →
    ((b :: bs).map Block.upper_bound).getLast? = some B0 := by
  intro bs
  induction bs with
  | nil =>
    intro b lo h
    obtain ⟨h1, h2, h3⟩ := h
    have hB : some B0 = some b.upper_bound := h3
    simp only [List.map_cons, List.map_nil]
    exact (show [b.upper_bound].getLast? = some b.upper_bound from rfl).trans hB.symm
  | cons b2 t2 ih =>
    intro b lo h
    obtain ⟨h1, h2, h3⟩ := h
    have hrec := ih h3
    simp only [List.map_cons] at hrec ⊢
    rw [List.getLast?_cons_cons]
    exact hrec

/-! ## Removal helpers preserve block structure -/

theorem removeNode_ub (b : Block) (v : NodeId) :
    (removeNodeFromBlock b v).upper_bound = b.upper_bound := by
  unfold removeNodeFromBlock
  cases b.nodes.findIdx? (fun p => p.1 == v) <;> rfl

theorem swapRemove_subset {l : List PairC} {i : ℕ} {q : PairC}
    (h : q ∈ swapRemove l i) : q ∈ l := by
  unfold swapRemove at h
  cases hg : l.getLast? with
  | none =>
    rw [hg] at h
    exact h
  | some a =>
    rw [hg] at h
    rcases List.mem_or_eq_of_mem_set (List.dropLast_subset _ h) with h2 | h2
    · exact h2
    · rw [h2]
      obtain ⟨hne, heq⟩ := List.mem_getLast?_eq_getLast (Option.mem_def.mpr hg)
      rw [heq]
      exact List.getLast_mem hne

theorem removeNode_subset {b : Block} {v : NodeId} {q : PairC}
    (h : q ∈ (removeNodeFromBlock b v).nodes) : q ∈ b.nodes := by
  unfold removeNodeFromBlock at h
  cases hf : b.nodes.findIdx? (fun p => p.1 == v) with
  | none =>
    rw [hf] at h
    exact h
  | some i =>
    rw [hf] at h
    exact swapRemove_subset h

/-! ## The Block List operations preserve the insert-sequence invariant -/

theorem removeFromPrependList_fields {s : BlockList} {v : NodeId} {c : CQ} {s' : BlockList}
    (h : s.removeFromPrependList v c = .ok s') :
    s'.B = s.B ∧ s'.insert_blocks = s.insert_blocks := by
  unfold BlockList.removeFromPrependList at h
  simp only [] at h
  cases hg : s.prepend_blocks.get?
      (partitionPoint (fun b => cqLt b.upper_bound c) s.prepend_blocks) with
  | none =>
    rw [hg] at h
    exact RunOut.noConfusion h
  | some blk =>
    rw [hg] at h
    simp only [] at h
    by_cases hemp : (removeNodeFromBlock blk v).nodes.isEmpty = true
    · rw [if_pos hemp] at h
      injection h with h2
      subst h2
      exact ⟨rfl, rfl⟩
    · rw [if_neg hemp] at h
      injection h with h2
      subst h2
      exact ⟨rfl, rfl⟩

theorem removeFromInsertList_seg {B0 : CQ} {s : BlockList} {v : NodeId} {c : CQ}
    {s' : BlockList} (h : s.removeFromInsertList v c = .ok s')
    (hseg : InsSeg none (some B0) s.insert_blocks) :
    s'.B = s.B ∧ InsSeg none (some B0) s'.insert_blocks := by
  unfold BlockList.removeFromInsertList at h
  unfold partitionPoint at h
  simp only [] at h
  rw [get?_takeWhile_length] at h
  cases hR : s.insert_blocks.dropWhile (fun b => cqLt b.upper_bound c) with
  | nil =>
    rw [hR] at h
    simp only [List.head?_nil] at h
    exact RunOut.noConfusion h
  | cons blk Rt =>
    rw [hR] at h
    simp only [List.head?_cons] at h
    have hbs := takeWhile_dropWhile_decomp hR
    obtain ⟨mid, segA, segR⟩ := InsSeg_append.mp (show InsSeg none (some B0)
        (s.insert_blocks.takeWhile (fun b => cqLt b.upper_bound c) ++ blk :: Rt) from by
      rw [hbs]; exact hseg)
    obtain ⟨l1, l2, segRt⟩ := segR
    rw [set_takeWhile_length hR] at h
    by_cases hemp : (removeNodeFromBlock blk v).nodes.isEmpty = true
    · rw [if_pos hemp] at h
      have hnodes : (removeNodeFromBlock blk v).nodes = [] := by simpa using hemp
      have hlen := congrArg List.length hbs
      simp only [List.length_append, List.length_cons] at hlen
      cases Rt with
      | nil =>
        have hc2 : ¬((s.insert_blocks.takeWhile (fun b => cqLt b.upper_bound c)).length
            ≠ s.insert_blocks.length - 1 ∧ s.insert_blocks.length ≠ 1) := by
          simp only [List.length_nil] at hlen
          omega
        rw [if_neg hc2] at h
        have hB : some B0 = some blk.upper_bound := segRt
        rcases List.eq_nil_or_concat
            (s.insert_blocks.takeWhile (fun b => cqLt b.upper_bound c)) with
          hA0 | ⟨A0, aL, hA⟩
        · rw [hA0] at h
          simp only [List.length_nil, List.nil_append] at h
          rw [if_neg (lt_irrefl 0)] at h
          injection h with h2
          subst h2
          refine ⟨rfl, trivial, ?_, ?_⟩
          · intro q hq
            rw [hnodes] at hq
            exact absurd hq (List.not_mem_nil q)
          · show some B0 = some (removeNodeFromBlock blk v).upper_bound
            rw [removeNode_ub]
            exact hB
        · rw [List.concat_eq_append] at hA
          rw [hA] at h segA
          simp only [List.length_append, List.length_cons, List.length_nil,
            Nat.zero_add] at h
          rw [if_pos (by omega : 0 < A0.length + 1)] at h
          simp only [Nat.add_sub_cancel] at h
          rw [setUB_concat] at h
          injection h with h2
          subst h2
          obtain ⟨m0, segA0, segaL⟩ := InsSeg_append.mp segA
          obtain ⟨p1, p2, p3⟩ := segaL
          have hmid : mid = some aL.upper_bound := p3
          rw [hmid] at l1
          refine ⟨rfl, ?_⟩
          refine InsSeg_append.mpr ⟨m0, segA0, ?_, ?_, ?_, ?_, ?_⟩
          · exact loB_mono p1 l1
          · intro q hq
            exact ⟨(p2 q hq).1, cqLe_trans (p2 q hq).2 l1⟩
          · rw [removeNode_ub]
            exact cqLe_refl blk.upper_bound
          · intro q hq
            rw [hnodes] at hq
            exact absurd hq (List.not_mem_nil q)
          · show some B0 = some (removeNodeFromBlock blk v).upper_bound
            rw [removeNode_ub]
            exact hB
      | cons rt0 Rtt =>
        have hc2 : ((s.insert_blocks.takeWhile (fun b => cqLt b.upper_bound c)).length
            ≠ s.insert_blocks.length - 1 ∧ s.insert_blocks.length ≠ 1) := by
          simp only [List.length_cons] at hlen
          omega
        rw [if_pos hc2] at h
        rcases List.eq_nil_or_concat
            (s.insert_blocks.takeWhile (fun b => cqLt b.upper_bound c)) with
          hA0 | ⟨A0, aL, hA⟩
        · rw [hA0] at h
          simp only [List.length_nil, List.nil_append] at h
          rw [if_neg (lt_irrefl 0)] at h
          injection h with h2
          subst h2
          refine ⟨rfl, ?_⟩
          show InsSeg none (some B0) (rt0 :: Rtt)
          exact InsSeg_cons_none segRt
        · rw [List.concat_eq_append] at hA
          rw [hA] at h segA
          simp only [List.length_append, List.length_cons, List.length_nil,
            Nat.zero_add] at h
          rw [if_pos (by omega : 0 < A0.length + 1)] at h
          simp only [Nat.add_sub_cancel] at h
          rw [setUB_concat, eraseIdx_cons_after] at h
          injection h with h2
          subst h2
          obtain ⟨m0, segA0, segaL⟩ := InsSeg_append.mp segA
          obtain ⟨p1, p2, p3⟩ := segaL
          have hmid : mid = some aL.upper_bound := p3
          rw [hmid] at l1
          refine ⟨rfl, ?_⟩
          refine InsSeg_append.mpr ⟨m0, segA0, ?_, ?_, ?_⟩
          · exact loB_mono p1 l1
          · intro q hq
            exact ⟨(p2 q hq).1, cqLe_trans (p2 q hq).2 l1⟩
          · exact segRt
    · rw [if_neg hemp] at h
      injection h with h2
      subst h2
      refine ⟨rfl, ?_⟩
      refine InsSeg_append.mpr ⟨mid, segA, ?_, ?_, ?_⟩
      · rw [removeNode_ub]
        exact l1
      · intro q hq
        rw [removeNode_ub]
        exact l2 q (removeNode_subset hq)
      · rw [removeNode_ub]
        exact segRt

theorem update_seg {B0 : CQ} {s : BlockList} {v : NodeId} {nc : CQ} {go : Bool}
    {s' : BlockList} (h : s.update v nc = .ok (go, s'))
    (hseg : InsSeg none (some B0) s.insert_blocks) :
    s'.B = s.B ∧ InsSeg none (some B0) s'.insert_blocks := by
  unfold BlockList.update at h
  cases hg : alGet s.cost_map v with
  | none =>
    rw [hg] at h
    simp only [RunOut.ok.injEq, Prod.mk.injEq] at h
    rw [← h.2]
    exact ⟨rfl, hseg⟩
  | some loc =>
    rw [hg] at h
    cases loc with
    | prep c0 =>
      simp only [] at h
      by_cases hlt : cqLt nc c0 = true
      · rw [if_pos hlt] at h
        obtain ⟨s1, g1, g2⟩ := RunOut.bind_eq_ok h
        simp only [RunOut.ok.injEq, Prod.mk.injEq] at g2
        rw [← g2.2]
        obtain ⟨f1, f2⟩ := removeFromPrependList_fields g1
        exact ⟨f1, by rw [f2]; exact hseg⟩
      · rw [if_neg hlt] at h
        simp only [RunOut.ok.injEq, Prod.mk.injEq] at h
        rw [← h.2]
        exact ⟨rfl, hseg⟩
    | ins c0 =>
      simp only [] at h
      by_cases hlt : cqLt nc c0 = true
      · rw [if_pos hlt] at h
        obtain ⟨s1, g1, g2⟩ := RunOut.bind_eq_ok h
        simp only [RunOut.ok.injEq, Prod.mk.injEq] at g2
        rw [← g2.2]
        exact removeFromInsertList_seg g1 hseg
      · rw [if_neg hlt] at h
        simp only [RunOut.ok.injEq, Prod.mk.injEq] at h
        rw [← h.2]
        exact ⟨rfl, hseg⟩

theorem insert_seg {B0 : CQ} {s : BlockList} {v : NodeId} {c : CQ} {s' : BlockList}
    (h : s.insert v c = .ok s')
    (hseg : InsSeg none (some B0) s.insert_blocks) :
    s'.B = s.B ∧ InsSeg none (some B0) s'.insert_blocks := by
  unfold BlockList.insert at h
  by_cases hB : cqLe c s.B = true
  swap
  · rw [if_neg hB] at h
    exact RunOut.noConfusion h
  rw [if_pos hB] at h
  by_cases hne : s.insert_blocks.length ≠ 0
  swap
  · rw [if_neg hne] at h
    exact RunOut.noConfusion h
  rw [if_pos hne] at h
  obtain ⟨⟨go, s1⟩, g1, g2⟩ := RunOut.bind_eq_ok h
  simp only [] at g2
  obtain ⟨e1, hseg1⟩ := update_seg g1 hseg
  by_cases hgo : go = true
  swap
  · rw [if_neg hgo] at g2
    injection g2 with g3
    subst g3
    exact ⟨e1, hseg1⟩
  rw [if_pos hgo] at g2
  unfold partitionPoint at g2
  rw [get?_takeWhile_length] at g2
  cases hRd : s1.insert_blocks.dropWhile (fun b => cqLt b.upper_bound c) with
  | nil =>
    rw [hRd] at g2
    simp only [List.head?_nil] at g2
    exact RunOut.noConfusion g2
  | cons tgt Rt =>
    rw [hRd] at g2
    simp only [List.head?_cons] at g2
    obtain ⟨res, a1, a2⟩ := RunOut.bind_eq_ok g2
    unfold Block.add at a1
    have hbs := takeWhile_dropWhile_decomp hRd
    obtain ⟨mid, segA, segR⟩ := InsSeg_append.mp (show InsSeg none (some B0)
        (s1.insert_blocks.takeWhile (fun b => cqLt b.upper_bound c) ++ tgt :: Rt) from by
      rw [hbs]; exact hseg1)
    obtain ⟨l1, l2, segRt⟩ := segR
    have hmidc : loB mid c := by
      refine InsSeg_out_loB segA ?_ trivial
      intro b hb
      have hpb := List.mem_takeWhile_imp hb
      exact hpb
    have hlt0 : cqLt tgt.upper_bound c = false := by
      have hpb := dropWhile_head_false (p := fun (b : Block) => cqLt b.upper_bound c) hRd
      exact hpb
    have hcub : cqLe c tgt.upper_bound = true := cqLe_of_not_lt hlt0
    by_cases hfull : tgt.nodes.length < tgt.capacity
    · rw [if_pos hfull] at a1
      injection a1 with a3
      rw [← a3] at a2
      simp only [] at a2
      rw [set_takeWhile_length hRd] at a2
      injection a2 with a4
      subst a4
      refine ⟨e1, ?_⟩
      refine InsSeg_append.mpr ⟨mid, segA, ?_, ?_, ?_⟩
      · exact l1
      · intro q hq
        rcases List.mem_append.mp hq with hq1 | hq2
        · exact l2 q hq1
        · rw [List.mem_singleton] at hq2
          subst hq2
          exact ⟨hmidc, hcub⟩
      · exact segRt
    · rw [if_neg hfull] at a1
      simp only [] at a1
      cases hdrop : (sortAsc (tgt.nodes ++ [(v, c)])).drop (tgt.capacity / 2 + 1) with
      | nil =>
        rw [hdrop] at a1
        exact RunOut.noConfusion a1
      | cons r0 rest =>
        rw [hdrop] at a1
        simp only [] at a1
        injection a1 with a3
        rw [← a3] at a2
        simp only [] at a2
        rw [set_takeWhile_length hRd, insertIdx_cons_after] at a2
        injection a2 with a4
        subst a4
        have hsmem : ∀ q ∈ sortAsc (tgt.nodes ++ [(v, c)]),
            loB mid q.2 ∧ cqLe q.2 tgt.upper_bound = true := by
          intro q hq
          rcases List.mem_append.mp ((sortAsc_perm _).mem_iff.mp hq) with hq1 | hq2
          · exact l2 q hq1
          · rw [List.mem_singleton] at hq2
            subst hq2
            exact ⟨hmidc, hcub⟩
        have hr0 : r0 ∈ sortAsc (tgt.nodes ++ [(v, c)]) := by
          refine List.drop_subset (tgt.capacity / 2 + 1) _ ?_
          rw [hdrop]
          exact List.mem_cons_self r0 rest
        have hpw := List.Pairwise.sublist
          (List.drop_sublist (tgt.capacity / 2 + 1) (sortAsc (tgt.nodes ++ [(v, c)])))
          (sortAsc_pairwise (tgt.nodes ++ [(v, c)]))
        rw [hdrop] at hpw
        have hr0rest := (List.pairwise_cons.mp hpw).1
        refine ⟨e1, ?_⟩
        refine InsSeg_append.mpr ⟨mid, segA, ?_, ?_, ?_, ?_, ?_⟩
        · exact (hsmem r0 hr0).1
        · intro q hq
          refine ⟨(hsmem q (List.take_subset _ _ hq)).1, ?_⟩
          exact sortAsc_take_drop_le (tgt.nodes ++ [(v, c)]) (tgt.capacity / 2 + 1) q hq r0
            (by rw [hdrop]; exact List.mem_cons_self r0 rest)
        · exact (hsmem r0 hr0).2
        · intro q hq
          rcases List.mem_cons.mp hq with hq1 | hq2
          · rw [hq1]
            exact ⟨cqLe_refl _, (hsmem r0 hr0).2⟩
          · refine ⟨hr0rest q hq2, ?_⟩
            refine (hsmem q ?_).2
            refine List.drop_subset (tgt.capacity / 2 + 1) _ ?_
            rw [hdrop]
            exact List.mem_cons_of_mem r0 hq2
        · exact segRt

theorem bpFilter_seg {B0 : CQ} : ∀ {input : List PairC} {s : BlockList} {acc : List PairC}
    {s' : BlockList}, bpFilter s input = .ok (acc, s') →
    InsSeg none (some B0) s.insert_blocks →
    s'.B = s.B ∧ InsSeg none (some B0) s'.insert_blocks := by
  intro input
  induction input with
  | nil =>
    intro s acc s' h hseg
    unfold bpFilter at h
    simp only [RunOut.ok.injEq, Prod.mk.injEq] at h
    rw [← h.2]
    exact ⟨rfl, hseg⟩
  | cons pc rest ih =>
    intro s acc s' h hseg
    obtain ⟨v, c⟩ := pc
    unfold bpFilter at h
    obtain ⟨⟨go, s1⟩, g1, g2⟩ := RunOut.bind_eq_ok h
    simp only [] at g2
    obtain ⟨e1, hseg1⟩ := update_seg g1 hseg
    by_cases hgo : go = true
    · rw [if_pos hgo] at g2
      obtain ⟨⟨acc2, s3⟩, f1, f2⟩ := RunOut.bind_eq_ok g2
      simp only [RunOut.ok.injEq, Prod.mk.injEq] at f2
      rw [← f2.2]
      obtain ⟨r1, r2⟩ := ih f1 hseg1
      exact ⟨r1.trans e1, r2⟩
    · rw [if_neg hgo] at g2
      obtain ⟨r1, r2⟩ := ih g2 hseg1
      exact ⟨r1.trans e1, r2⟩

theorem bpChunkLoop_fields : ∀ {fuel : ℕ} {s : BlockList} {nodes : List PairC}
    {s' : BlockList}, bpChunkLoop fuel s nodes = .ok s' →
    s'.B = s.B ∧ s'.insert_blocks = s.insert_blocks := by
  intro fuel
  induction fuel with
  | zero =>
    intro s nodes s' h
    exact RunOut.noConfusion h
  | succ fuel ih =>
    intro s nodes s' h
    unfold bpChunkLoop at h
    by_cases hn : nodes.isEmpty = true
    · rw [if_pos hn] at h
      injection h with h2
      subst h2
      exact ⟨rfl, rfl⟩
    · rw [if_neg hn] at h
      simp only [] at h
      obtain ⟨u, g1, g2⟩ := RunOut.bind_eq_ok h
      obtain ⟨r1, r2⟩ := ih g2
      exact ⟨r1, r2⟩

theorem batchPrepend_seg {B0 : CQ} {s : BlockList} {input : List PairC} {s' : BlockList}
    (h : s.batchPrepend input = .ok s')
    (hseg : InsSeg none (some B0) s.insert_blocks) :
    s'.B = s.B ∧ InsSeg none (some B0) s'.insert_blocks := by
  unfold BlockList.batchPrepend at h
  obtain ⟨⟨actual, s1⟩, g1, g2⟩ := RunOut.bind_eq_ok h
  simp only [] at g2
  obtain ⟨e1, hseg1⟩ := bpFilter_seg g1 hseg
  by_cases ha : actual.isEmpty = true
  · rw [if_pos ha] at g2
    injection g2 with g3
    subst g3
    exact ⟨e1, hseg1⟩
  · rw [if_neg ha] at g2
    by_cases hm : actual.length ≤ s1.M
    · rw [if_pos hm] at g2
      obtain ⟨u, f1, f2⟩ := RunOut.bind_eq_ok g2
      injection f2 with f3
      subst f3
      exact ⟨e1, hseg1⟩
    · rw [if_neg hm] at g2
      obtain ⟨r1, r2⟩ := bpChunkLoop_fields g2
      refine ⟨r1.trans e1, ?_⟩
      rw [r2]
      exact hseg1

theorem collectCands_seg : ∀ {bs : List Block} {num : ℕ} {acc cands : List PairC}
    {bs' : List Block} {lo out : Option CQ},
    collectCands num acc bs = (cands, bs') →
    InsSeg lo out bs → InsSeg lo out bs' := by
  intro bs
  induction bs with
  | nil =>
    intro num acc cands bs' lo out h hseg
    unfold collectCands at h
    injection h with h1 h2
    rw [← h2]
    exact hseg
  | cons b rest ih =>
    intro num acc cands bs' lo out h hseg
    unfold collectCands at h
    simp only [] at h
    obtain ⟨l1, l2, l3⟩ := hseg
    by_cases hl : (acc ++ (sortAsc b.nodes).take num).length = num
    · rw [if_pos hl] at h
      injection h with h1 h2
      rw [← h2]
      exact ⟨l1, fun q hq => l2 q ((sortAsc_perm b.nodes).mem_iff.mp hq), l3⟩
    · rw [if_neg hl] at h
      cases hcc : collectCands num (acc ++ (sortAsc b.nodes).take num) rest with
      | mk accF restF =>
        rw [hcc] at h
        simp only [] at h
        injection h with h1 h2
        rw [← h2]
        exact ⟨l1, fun q hq => l2 q ((sortAsc_perm b.nodes).mem_iff.mp hq), ih hcc l3⟩

theorem mergeLoop_seg {B0 : CQ} : ∀ {fuel : ℕ} {s : BlockList} {num : ℕ} {pc ic : List PairC}
    {pulled out : List NodeId} {s' : BlockList},
    mergeLoop fuel s num pc ic pulled = .ok (out, s') →
    InsSeg none (some B0) s.insert_blocks →
    s'.B = s.B ∧ InsSeg none (some B0) s'.insert_blocks := by
  intro fuel
  induction fuel with
  | zero =>
    intro s num pc ic pulled out s' h hseg
    exact RunOut.noConfusion h
  | succ fuel ih =>
    intro s num pc ic pulled out s' h hseg
    unfold mergeLoop at h
    by_cases hstop : (pc.isEmpty = true ∧ ic.isEmpty = true) ∨ num ≤ pulled.length
    · rw [if_pos hstop] at h
      simp only [RunOut.ok.injEq, Prod.mk.injEq] at h
      rw [← h.2]
      exact ⟨rfl, hseg⟩
    · rw [if_neg hstop] at h
      simp only [] at h
      by_cases hlt : cqLt ((pc.head?.map Prod.snd).getD s.B)
          ((ic.head?.map Prod.snd).getD s.B) = true
      · rw [if_pos hlt] at h
        cases pc with
        | nil => exact RunOut.noConfusion h
        | cons p pcRest =>
          obtain ⟨v, c⟩ := p
          simp only [] at h
          obtain ⟨s1, g1, g2⟩ := RunOut.bind_eq_ok h
          obtain ⟨f1, f2⟩ := removeFromPrependList_fields g1
          have hseg1 : InsSeg none (some B0) s1.insert_blocks := by
            rw [f2]
            exact hseg
          obtain ⟨r1, r2⟩ := ih g2 hseg1
          exact ⟨r1.trans f1, r2⟩
      · rw [if_neg hlt] at h
        cases ic with
        | nil => exact RunOut.noConfusion h
        | cons p icRest =>
          obtain ⟨v, c⟩ := p
          simp only [] at h
          obtain ⟨s1, g1, g2⟩ := RunOut.bind_eq_ok h
          obtain ⟨f1, f2⟩ := removeFromInsertList_seg g1 hseg
          obtain ⟨r1, r2⟩ := ih g2 f2
          exact ⟨r1.trans f1, r2⟩

theorem pullElements_seg {B0 : CQ} {s : BlockList} {num : ℕ} {out : List NodeId}
    {s' : BlockList} (h : s.pullElements num = .ok (out, s'))
    (hseg : InsSeg none (some B0) s.insert_blocks) :
    s'.B = s.B ∧ InsSeg none (some B0) s'.insert_blocks := by
  unfold BlockList.pullElements at h
  cases hcp : collectCands num [] s.prepend_blocks with
  | mk pc pbs =>
    cases hci : collectCands num [] s.insert_blocks with
    | mk ic ibs =>
      rw [hcp, hci] at h
      simp only [] at h
      have hsegI : InsSeg none (some B0) ibs := collectCands_seg hci hseg
      obtain ⟨r1, r2⟩ := mergeLoop_seg h hsegI
      exact ⟨r1, r2⟩

theorem pullLoop_seg {B0 : CQ} : ∀ {fuel : ℕ} {s : BlockList} {numPulled : ℕ}
    {acc out : List NodeId} {s' : BlockList},
    pullLoop fuel s numPulled acc = .ok (out, s') →
    InsSeg none (some B0) s.insert_blocks →
    s'.B = s.B ∧ InsSeg none (some B0) s'.insert_blocks := by
  intro fuel
  induction fuel with
  | zero =>
    intro s numPulled acc out s' h hseg
    exact RunOut.noConfusion h
  | succ fuel ih =>
    intro s numPulled acc out s' h hseg
    unfold pullLoop at h
    by_cases hc : numPulled < s.M
    · rw [if_pos hc] at h
      obtain ⟨⟨nodes, s1⟩, g1, g2⟩ := RunOut.bind_eq_ok h
      simp only [] at g2
      obtain ⟨e1, hseg1⟩ := pullElements_seg g1 hseg
      by_cases hz : nodes.length = 0
      · rw [if_pos hz] at g2
        simp only [RunOut.ok.injEq, Prod.mk.injEq] at g2
        rw [← g2.2]
        exact ⟨e1, hseg1⟩
      · rw [if_neg hz] at g2
        obtain ⟨r1, r2⟩ := ih g2 hseg1
        exact ⟨r1.trans e1, r2⟩
    · rw [if_neg hc] at h
      simp only [RunOut.ok.injEq, Prod.mk.injEq] at h
      rw [← h.2]
      exact ⟨rfl, hseg⟩

theorem pull_seg {B0 : CQ} {s : BlockList} {r : List NodeId × CQ} {s' : BlockList}
    (h : s.pull = .ok (r, s'))
    (hseg : InsSeg none (some B0) s.insert_blocks) :
    s'.B = s.B ∧ InsSeg none (some B0) s'.insert_blocks := by
  unfold BlockList.pull at h
  obtain ⟨⟨pulled, s1⟩, g1, g2⟩ := RunOut.bind_eq_ok h
  simp only [RunOut.ok.injEq, Prod.mk.injEq] at g2
  rw [← g2.2]
  exact pullLoop_seg g1 hseg

/-! ## The invariant holds in every reachable state -/

theorem Reach_inv {s : BlockList} (h : Reach s) :
    InsSeg none (some s.B) s.insert_blocks := by
  induction h with
  | new M B =>
    exact ⟨trivial, fun p hp => absurd hp (List.not_mem_nil p), rfl⟩
  | insert s v c s' hr he ih =>
    obtain ⟨e1, hseg⟩ := insert_seg he ih
    rw [e1]
    exact hseg
  | batchPrepend s l s' hr he ih =>
    obtain ⟨e1, hseg⟩ := batchPrepend_seg he ih
    rw [e1]
    exact hseg
  | pull s r s' hr he ih =>
    obtain ⟨e1, hseg⟩ := pull_seg he ih
    rw [e1]
    exact hseg

/-- C4 (amended).  In every Block List state reachable from a fresh list by
successful insert, batch_prepend and pull operations, consecutive blocks of
the insert sequence have non-decreasing (not necessarily strictly
increasing) upper bounds, and the last insert block's upper bound equals
the list-global bound B. -/
theorem C4_amended_nondecreasing_last_B {s : BlockList} (h : Reach s) :
    List.Chain' (fun a b => cqLe a.upper_bound b.upper_bound = true) s.insert_blocks ∧
    (s.insert_blocks.map Block.upper_bound).getLast? = some s.B := by
  have hseg := Reach_inv h
  refine ⟨InsSeg_chain hseg, ?_⟩
  cases hbs : s.insert_blocks with
  | nil =>
    rw [hbs] at hseg
    exact Option.noConfusion hseg
  | cons b t =>
    rw [hbs] at hseg
    exact InsSeg_last hseg

/-- Witness for C4: the amended theorem applied at the concrete reachable
state c4Final, reached by three tied inserts and containing two consecutive
insert blocks with equal upper bounds 10. -/
theorem C4_amended_nondecreasing_last_B_witness :
    List.Chain' (fun a b => cqLe a.upper_bound b.upper_bound = true)
      c4Final.insert_blocks ∧
    (c4Final.insert_blocks.map Block.upper_bound).getLast? = some c4Final.B :=
  C4_amended_nondecreasing_last_B
    (Reach.insert c4Mid2 2 (cqI 10) c4Final
      (Reach.insert c4Mid1 1 (cqI 10) c4Mid2
        (Reach.insert (BlockList.new 2 (cqI 10)) 0 (cqI 10) c4Mid1
          (Reach.new 2 (cqI 10)) (by decide))
        (by decide))
      (by decide))

/-! ## Association list and swap-remove membership lemmas (for C10) -/

theorem get?_decomp {β : Type} : ∀ {l : List β} {i : ℕ} {e : β}, l.get? i = some e →
    ∃ l1 l2, l = l1 ++ e :: l2 ∧ l1.length = i := by
  intro l
  induction l with
  | nil => intro i e h; exact absurd h (by simp)
  | cons x xs ih =>
    intro i e h
    cases i with
    | zero =>
      injection h with h2
      exact ⟨[], xs, by rw [h2]; rfl, rfl⟩
    | succ j =>
      obtain ⟨l1, l2, he, hl⟩ := ih h
      exact ⟨x :: l1, l2, by rw [he]; rfl, by simp [hl]⟩

theorem findIdx?_spec {β : Type} {p : β → Bool} : ∀ {l : List β} {i : ℕ},
    l.findIdx? p = some i → ∃ a, l.get? i = some a ∧ p a = true := by
  intro l
  induction l with
  | nil => intro i h; exact absurd h (by simp)
  | cons x xs ih =>
    intro i h
    rw [List.findIdx?_cons] at h
    by_cases hp : p x = true
    · rw [if_pos hp] at h
      injection h with h2
      rw [← h2]
      exact ⟨x, rfl, hp⟩
    · rw [if_neg hp] at h
      rw [List.findIdx?_succ] at h
      cases hfx : xs.findIdx? p with
      | none =>
        rw [hfx] at h
        exact absurd h (by simp)
      | some j =>
        rw [hfx] at h
        have h2 : j + 1 = i := by simpa using h
        rw [← h2]
        obtain ⟨a, ha, hpa⟩ := ih hfx
        exact ⟨a, ha, hpa⟩

theorem alGet_mem {β : Type} {m : List (ℕ × β)} {v : ℕ} {loc : β}
    (h : alGet m v = some loc) : (v, loc) ∈ m := by
  unfold alGet at h
  cases hf : m.find? (fun p => p.1 == v) with
  | none =>
    rw [hf] at h
    exact absurd h (by simp)
  | some q =>
    rw [hf] at h
    have hq := List.mem_of_find?_eq_some hf
    have hpq := List.find?_some hf
    have h1 : q.1 = v := by simpa using hpq
    have h2 : q.2 = loc := by simpa using h
    have h3 : q = (v, loc) := by
      obtain ⟨a, b⟩ := q
      simp_all
    rw [← h3]
    exact hq

theorem mem_alGet {β : Type} {m : List (ℕ × β)} {v : ℕ} {loc : β}
    (h : (v, loc) ∈ m) : ∃ loc2, alGet m v = some loc2 := by
  unfold alGet
  have hs : (m.find? (fun p => p.1 == v)).isSome :=
    List.find?_isSome.mpr ⟨(v, loc), h, by simp⟩
  cases hf : m.find? (fun p => p.1 == v) with
  | none =>
    rw [hf] at hs
    exact absurd hs (by simp)
  | some q =>
    exact ⟨q.2, rfl⟩

theorem alRemove_mem {β : Type} {m : List (ℕ × β)} {v : ℕ} {q : ℕ × β}
    (h : q ∈ alRemove m v) : q ∈ m ∧ q.1 ≠ v := by
  unfold alRemove at h
  have h2 := List.mem_filter.mp h
  exact ⟨h2.1, by simpa using h2.2⟩

theorem alSet_mem {β : Type} {m : List (ℕ × β)} {v : ℕ} {x : β} {q : ℕ × β}
    (h : q ∈ alSet m v x) : q = (v, x) ∨ (q ∈ m ∧ q.1 ≠ v) := by
  unfold alSet at h
  by_cases hf : (m.find? (fun p => p.1 == v)).isSome = true
  · rw [if_pos hf] at h
    obtain ⟨a, ha, hfa⟩ := List.mem_map.mp h
    by_cases hav : a.1 = v
    · rw [if_pos hav] at hfa
      exact .inl hfa.symm
    · rw [if_neg hav] at hfa
      rw [← hfa]
      exact .inr ⟨ha, hav⟩
  · rw [if_neg hf] at h
    rcases List.mem_append.mp h with h1 | h1
    · refine .inr ⟨h1, ?_⟩
      have hn : m.find? (fun p => p.1 == v) = none := by
        cases hfn : m.find? (fun p => p.1 == v) with
        | none => rfl
        | some q2 =>
          rw [hfn] at hf
          exact absurd rfl hf
      have h3 := List.find?_eq_none.mp hn q h1
      simpa using h3
    · rw [List.mem_singleton] at h1
      exact .inl h1

theorem swapRemove_mem {l : List PairC} {i : ℕ} {e q : PairC}
    (hg : l.get? i = some e) (hq : q ∈ l) (hne : q ≠ e) : q ∈ swapRemove l i := by
  obtain ⟨l1, l2, hl, hlen⟩ := get?_decomp hg
  subst hl
  rw [← hlen]
  unfold swapRemove
  cases hgl : (l1 ++ e :: l2).getLast? with
  | none =>
    rw [List.getLast?_eq_none_iff] at hgl
    exact absurd hgl (by simp)
  | some a =>
    simp only []
    rw [set_append_len]
    show q ∈ (l1 ++ a :: l2).dropLast
    cases hl2 : l2 with
    | nil =>
      subst hl2
      rw [List.dropLast_concat]
      rcases List.mem_append.mp hq with h1 | h1
      · exact h1
      · rw [List.mem_singleton] at h1
        exact absurd h1 hne
    | cons y l2t =>
      subst hl2
      rw [List.dropLast_append_of_ne_nil l1 (by simp)]
      have hd : (a :: y :: l2t).dropLast = a :: (y :: l2t).dropLast := by
        have h4 := List.dropLast_append_of_ne_nil [a] (show y :: l2t ≠ [] by simp)
        simp only [List.singleton_append] at h4
        rw [h4]
      rw [hd]
      have hgl2 : (y :: l2t).getLast? = some a := by
        rw [List.getLast?_append_of_ne_nil l1 (by simp)] at hgl
        rw [List.getLast?_cons_cons] at hgl
        exact hgl
      rcases List.mem_append.mp hq with h1 | h1
      · exact List.mem_append.mpr (.inl h1)
      · rcases List.mem_cons.mp h1 with h2 | h2
        · exact absurd h2 hne
        · obtain ⟨hne2, hgeq⟩ := List.mem_getLast?_eq_getLast (Option.mem_def.mpr hgl2)
          have hd2 := List.dropLast_append_getLast hne2
          rw [← hd2] at h2
          rcases List.mem_append.mp h2 with h3 | h3
          · exact List.mem_append.mpr (.inr (List.mem_cons_of_mem a h3))
          · rw [List.mem_singleton] at h3
            rw [← hgeq] at h3
            rw [h3]
            exact List.mem_append.mpr (.inr (List.mem_cons_self a _))

theorem removeNode_mem {b : Block} {v : NodeId} {q : PairC}
    (hq : q ∈ b.nodes) (hne : q.1 ≠ v) : q ∈ (removeNodeFromBlock b v).nodes := by
  unfold removeNodeFromBlock
  cases hf : b.nodes.findIdx? (fun p => p.1 == v) with
  | none => exact hq
  | some i =>
    obtain ⟨e, hge, hpe⟩ := findIdx?_spec hf
    have hev : e.1 = v := by simpa using hpe
    refine swapRemove_mem hge hq ?_
    intro hqe
    rw [hqe] at hne
    exact hne hev

/-! ## Removal routines: field preservation and entry preservation -/

theorem removeFromPrependList_shape {s : BlockList} {v : NodeId} {c : CQ} {s' : BlockList}
    (h : s.removeFromPrependList v c = .ok s') :
    s'.M = s.M ∧ s'.B = s.B ∧ s'.insert_blocks = s.insert_blocks ∧
    s'.cost_map = s.cost_map ∧
    ∀ b ∈ s.prepend_blocks, ∀ q ∈ b.nodes, q.1 ≠ v →
      ∃ b2 ∈ s'.prepend_blocks, q ∈ b2.nodes := by
  unfold BlockList.removeFromPrependList at h
  unfold partitionPoint at h
  simp only [] at h
  rw [get?_takeWhile_length] at h
  cases hR : s.prepend_blocks.dropWhile (fun b => cqLt b.upper_bound c) with
  | nil =>
    rw [hR] at h
    simp only [List.head?_nil] at h
    exact RunOut.noConfusion h
  | cons blk Rt =>
    rw [hR] at h
    simp only [List.head?_cons] at h
    have hbs := takeWhile_dropWhile_decomp hR
    rw [set_takeWhile_length hR] at h
    by_cases hemp : (removeNodeFromBlock blk v).nodes.isEmpty = true
    · rw [if_pos hemp] at h
      have hnodes : (removeNodeFromBlock blk v).nodes = [] := by simpa using hemp
      rcases List.eq_nil_or_concat
          (s.prepend_blocks.takeWhile (fun b => cqLt b.upper_bound c)) with
        hA0 | ⟨A0, aL, hA⟩
      · rw [hA0] at h hbs
        simp only [List.length_nil, List.nil_append] at h hbs
        rw [if_neg (lt_irrefl 0)] at h
        injection h with h2
        subst h2
        refine ⟨rfl, rfl, rfl, rfl, ?_⟩
        intro b hb q hq hne
        rw [← hbs] at hb
        rcases List.mem_cons.mp hb with h3 | h3
        · rw [h3] at hq
          have h4 := removeNode_mem hq hne
          rw [hnodes] at h4
          exact absurd h4 (List.not_mem_nil q)
        · exact ⟨b, h3, hq⟩
      · rw [List.concat_eq_append] at hA
        rw [hA] at h hbs
        simp only [List.length_append, List.length_cons, List.length_nil,
          Nat.zero_add] at h
        rw [if_pos (by omega : 0 < A0.length + 1)] at h
        simp only [Nat.add_sub_cancel] at h
        rw [setUB_concat, eraseIdx_cons_after] at h
        injection h with h2
        subst h2
        refine ⟨rfl, rfl, rfl, rfl, ?_⟩
        intro b hb q hq hne
        rw [← hbs] at hb
        show ∃ b2 ∈ A0 ++ { aL with upper_bound := blk.upper_bound } :: Rt, q ∈ b2.nodes
        rcases List.mem_append.mp hb with h3 | h3
        · rcases List.mem_append.mp h3 with h4 | h4
          · exact ⟨b, List.mem_append.mpr (.inl h4), hq⟩
          · rw [List.mem_singleton] at h4
            refine ⟨{ aL with upper_bound := blk.upper_bound },
              List.mem_append.mpr (.inr (List.mem_cons_self _ _)), ?_⟩
            rw [← h4]
            exact hq
        · rcases List.mem_cons.mp h3 with h4 | h4
          · rw [h4] at hq
            have h5 := removeNode_mem hq hne
            rw [hnodes] at h5
            exact absurd h5 (List.not_mem_nil q)
          · exact ⟨b, List.mem_append.mpr (.inr (List.mem_cons_of_mem _ h4)), hq⟩
    · rw [if_neg hemp] at h
      injection h with h2
      subst h2
      refine ⟨rfl, rfl, rfl, rfl, ?_⟩
      intro b hb q hq hne
      rw [← hbs] at hb
      rcases List.mem_append.mp hb with h3 | h3
      · exact ⟨b, List.mem_append.mpr (.inl h3), hq⟩
      · rcases List.mem_cons.mp h3 with h4 | h4
        · refine ⟨removeNodeFromBlock blk v,
            List.mem_append.mpr (.inr (List.mem_cons_self _ _)), ?_⟩
          rw [h4] at hq
          exact removeNode_mem hq hne
        · exact ⟨b, List.mem_append.mpr (.inr (List.mem_cons_of_mem _ h4)), hq⟩

theorem removeFromInsertList_shape {s : BlockList} {v : NodeId} {c : CQ} {s' : BlockList}
    (h : s.removeFromInsertList v c = .ok s') :
    s'.M = s.M ∧ s'.B = s.B ∧ s'.prepend_blocks = s.prepend_blocks ∧
    s'.cost_map = s.cost_map ∧
    ∀ b ∈ s.insert_blocks, ∀ q ∈ b.nodes, q.1 ≠ v →
      ∃ b2 ∈ s'.insert_blocks, q ∈ b2.nodes := by
  unfold BlockList.removeFromInsertList at h
  unfold partitionPoint at h
  simp only [] at h
  rw [get?_takeWhile_length] at h
  cases hR : s.insert_blocks.dropWhile (fun b => cqLt b.upper_bound c) with
  | nil =>
    rw [hR] at h
    simp only [List.head?_nil] at h
    exact RunOut.noConfusion h
  | cons blk Rt =>
    rw [hR] at h
    simp only [List.head?_cons] at h
    have hbs := takeWhile_dropWhile_decomp hR
    rw [set_takeWhile_length hR] at h
    by_cases hemp : (removeNodeFromBlock blk v).nodes.isEmpty = true
    · rw [if_pos hemp] at h
      have hnodes : (removeNodeFromBlock blk v).nodes = [] := by simpa using hemp
      by_cases hc2 : ((s.insert_blocks.takeWhile (fun b => cqLt b.upper_bound c)).length
          ≠ s.insert_blocks.length - 1 ∧ s.insert_blocks.length ≠ 1)
      · rw [if_pos hc2] at h
        rcases List.eq_nil_or_concat
            (s.insert_blocks.takeWhile (fun b => cqLt b.upper_bound c)) with
          hA0 | ⟨A0, aL, hA⟩
        · rw [hA0] at h hbs
          simp only [List.length_nil, List.nil_append] at h hbs
          rw [if_neg (lt_irrefl 0)] at h
          injection h with h2
          subst h2
          refine ⟨rfl, rfl, rfl, rfl, ?_⟩
          intro b hb q hq hne
          rw [← hbs] at hb
          show ∃ b2 ∈ Rt, q ∈ b2.nodes
          rcases List.mem_cons.mp hb with h3 | h3
          · rw [h3] at hq
            have h4 := removeNode_mem hq hne
            rw [hnodes] at h4
            exact absurd h4 (List.not_mem_nil q)
          · exact ⟨b, h3, hq⟩
        · rw [List.concat_eq_append] at hA
          rw [hA] at h hbs
          simp only [List.length_append, List.length_cons, List.length_nil,
            Nat.zero_add] at h
          rw [if_pos (by omega : 0 < A0.length + 1)] at h
          simp only [Nat.add_sub_cancel] at h
          rw [setUB_concat, eraseIdx_cons_after] at h
          injection h with h2
          subst h2
          refine ⟨rfl, rfl, rfl, rfl, ?_⟩
          intro b hb q hq hne
          rw [← hbs] at hb
          show ∃ b2 ∈ A0 ++ { aL with upper_bound := blk.upper_bound } :: Rt, q ∈ b2.nodes
          rcases List.mem_append.mp hb with h3 | h3
          · rcases List.mem_append.mp h3 with h4 | h4
            · exact ⟨b, List.mem_append.mpr (.inl h4), hq⟩
            · rw [List.mem_singleton] at h4
              refine ⟨{ aL with upper_bound := blk.upper_bound },
                List.mem_append.mpr (.inr (List.mem_cons_self _ _)), ?_⟩
              rw [← h4]
              exact hq
          · rcases List.mem_cons.mp h3 with h4 | h4
            · rw [h4] at hq
              have h5 := removeNode_mem hq hne
              rw [hnodes] at h5
              exact absurd h5 (List.not_mem_nil q)
            · exact ⟨b, List.mem_append.mpr (.inr (List.mem_cons_of_mem _ h4)), hq⟩
      · rw [if_neg hc2] at h
        rcases List.eq_nil_or_concat
            (s.insert_blocks.takeWhile (fun b => cqLt b.upper_bound c)) with
          hA0 | ⟨A0, aL, hA⟩
        · rw [hA0] at h hbs
          simp only [List.length_nil, List.nil_append] at h hbs
          rw [if_neg (lt_irrefl 0)] at h
          injection h with h2
          subst h2
          refine ⟨rfl, rfl, rfl, rfl, ?_⟩
          intro b hb q hq hne
          rw [← hbs] at hb
          rcases List.mem_cons.mp hb with h3 | h3
          · rw [h3] at hq
            have h4 := removeNode_mem hq hne
            rw [hnodes] at h4
            exact absurd h4 (List.not_mem_nil q)
          · exact ⟨b, List.mem_cons_of_mem _ h3, hq⟩
        · rw [List.concat_eq_append] at hA
          rw [hA] at h hbs
          simp only [List.length_append, List.length_cons, List.length_nil,
            Nat.zero_add] at h
          rw [if_pos (by omega : 0 < A0.length + 1)] at h
          simp only [Nat.add_sub_cancel] at h
          rw [setUB_concat] at h
          injection h with h2
          subst h2
          refine ⟨rfl, rfl, rfl, rfl, ?_⟩
          intro b hb q hq hne
          rw [← hbs] at hb
          show ∃ b2 ∈ A0 ++ { aL with upper_bound := blk.upper_bound } ::
            removeNodeFromBlock blk v :: Rt, q ∈ b2.nodes
          rcases List.mem_append.mp hb with h3 | h3
          · rcases List.mem_append.mp h3 with h4 | h4
            · exact ⟨b, List.mem_append.mpr (.inl h4), hq⟩
            · rw [List.mem_singleton] at h4
              refine ⟨{ aL with upper_bound := blk.upper_bound },
                List.mem_append.mpr (.inr (List.mem_cons_self _ _)), ?_⟩
              rw [← h4]
              exact hq
          · rcases List.mem_cons.mp h3 with h4 | h4
            · rw [h4] at hq
              have h5 := removeNode_mem hq hne
              rw [hnodes] at h5
              exact absurd h5 (List.not_mem_nil q)
            · exact ⟨b, List.mem_append.mpr
                (.inr (List.mem_cons_of_mem _ (List.mem_cons_of_mem _ h4))), hq⟩
    · rw [if_neg hemp] at h
      injection h with h2
      subst h2
      refine ⟨rfl, rfl, rfl, rfl, ?_⟩
      intro b hb q hq hne
      rw [← hbs] at hb
      rcases List.mem_append.mp hb with h3 | h3
      · exact ⟨b, List.mem_append.mpr (.inl h3), hq⟩
      · rcases List.mem_cons.mp h3 with h4 | h4
        · refine ⟨removeNodeFromBlock blk v,
            List.mem_append.mpr (.inr (List.mem_cons_self _ _)), ?_⟩
          rw [h4] at hq
          exact removeNode_mem hq hne
        · exact ⟨b, List.mem_append.mpr (.inr (List.mem_cons_of_mem _ h4)), hq⟩

theorem update_shape {s : BlockList} {v : NodeId} {nc : CQ} {go : Bool} {s' : BlockList}
    (h : s.update v nc = .ok (go, s')) :
    s'.M = s.M ∧ s'.cost_map = s.cost_map ∧
    (∀ w, w ≠ v → HasEntry s w → HasEntry s' w) ∧
    (go = false → s' = s) := by
  unfold BlockList.update at h
  cases hg : alGet s.cost_map v with
  | none =>
    rw [hg] at h
    simp only [RunOut.ok.injEq, Prod.mk.injEq] at h
    rw [← h.2]
    exact ⟨rfl, rfl, fun w _ hw => hw, fun _ => rfl⟩
  | some loc =>
    rw [hg] at h
    cases loc with
    | prep c0 =>
      simp only [] at h
      by_cases hlt : cqLt nc c0 = true
      · rw [if_pos hlt] at h
        obtain ⟨s1, g1, g2⟩ := RunOut.bind_eq_ok h
        simp only [RunOut.ok.injEq, Prod.mk.injEq] at g2
        obtain ⟨hgo, hs⟩ := g2
        subst hs
        obtain ⟨m1, b1, i1, c1, pres⟩ := removeFromPrependList_shape g1
        refine ⟨m1, c1, ?_, ?_⟩
        · intro w hw hentry
          rcases hentry with ⟨b, hb, q, hq, hqw⟩ | ⟨b, hb, q, hq, hqw⟩
          · obtain ⟨b2, hb2, hq2⟩ := pres b hb q hq (by rw [hqw]; exact hw)
            exact .inl ⟨b2, hb2, q, hq2, hqw⟩
          · rw [← i1] at hb
            exact .inr ⟨b, hb, q, hq, hqw⟩
        · intro hgo2
          rw [← hgo] at hgo2
          exact absurd hgo2 (by simp)
      · rw [if_neg hlt] at h
        simp only [RunOut.ok.injEq, Prod.mk.injEq] at h
        rw [← h.2]
        exact ⟨rfl, rfl, fun w _ hw => hw, fun _ => rfl⟩
    | ins c0 =>
      simp only [] at h
      by_cases hlt : cqLt nc c0 = true
      · rw [if_pos hlt] at h
        obtain ⟨s1, g1, g2⟩ := RunOut.bind_eq_ok h
        simp only [RunOut.ok.injEq, Prod.mk.injEq] at g2
        obtain ⟨hgo, hs⟩ := g2
        subst hs
        obtain ⟨m1, b1, p1, c1, pres⟩ := removeFromInsertList_shape g1
        refine ⟨m1, c1, ?_, ?_⟩
        · intro w hw hentry
          rcases hentry with ⟨b, hb, q, hq, hqw⟩ | ⟨b, hb, q, hq, hqw⟩
          · rw [← p1] at hb
            exact .inl ⟨b, hb, q, hq, hqw⟩
          · obtain ⟨b2, hb2, hq2⟩ := pres b hb q hq (by rw [hqw]; exact hw)
            exact .inr ⟨b2, hb2, q, hq2, hqw⟩
        · intro hgo2
          rw [← hgo] at hgo2
          exact absurd hgo2 (by simp)
      · rw [if_neg hlt] at h
        simp only [RunOut.ok.injEq, Prod.mk.injEq] at h
        rw [← h.2]
        exact ⟨rfl, rfl, fun w _ hw => hw, fun _ => rfl⟩

theorem insert_backing {s : BlockList} {v : NodeId} {c : CQ} {s' : BlockList}
    (h : s.insert v c = .ok s') (hback : Backing s) :
    s'.M = s.M ∧ Backing s' := by
  unfold BlockList.insert at h
  by_cases hB : cqLe c s.B = true
  swap
  · rw [if_neg hB] at h
    exact RunOut.noConfusion h
  rw [if_pos hB] at h
  by_cases hne : s.insert_blocks.length ≠ 0
  swap
  · rw [if_neg hne] at h
    exact RunOut.noConfusion h
  rw [if_pos hne] at h
  obtain ⟨⟨go, s1⟩, g1, g2⟩ := RunOut.bind_eq_ok h
  simp only [] at g2
  obtain ⟨m1, c1, pres1, gof⟩ := update_shape g1
  by_cases hgo : go = true
  swap
  · rw [if_neg hgo] at g2
    injection g2 with g3
    have hs1 : s1 = s := gof (by simpa using hgo)
    rw [← g3, hs1]
    exact ⟨rfl, hback⟩
  rw [if_pos hgo] at g2
  unfold partitionPoint at g2
  rw [get?_takeWhile_length] at g2
  cases hRd : s1.insert_blocks.dropWhile (fun b => cqLt b.upper_bound c) with
  | nil =>
    rw [hRd] at g2
    simp only [List.head?_nil] at g2
    exact RunOut.noConfusion g2
  | cons tgt Rt =>
    rw [hRd] at g2
    simp only [List.head?_cons] at g2
    obtain ⟨res, a1, a2⟩ := RunOut.bind_eq_ok g2
    unfold Block.add at a1
    have hbs := takeWhile_dropWhile_decomp hRd
    by_cases hfull : tgt.nodes.length < tgt.capacity
    · rw [if_pos hfull] at a1
      injection a1 with a3
      rw [← a3] at a2
      simp only [] at a2
      rw [set_takeWhile_length hRd] at a2
      injection a2 with a4
      subst a4
      refine ⟨m1, ?_⟩
      intro p hp
      rcases alSet_mem hp with hpv | ⟨hpm, hpne⟩
      · rw [hpv]
        refine .inr ⟨{ tgt with nodes := tgt.nodes ++ [(v, c)] },
          List.mem_append.mpr (.inr (List.mem_cons_self _ _)), (v, c),
          List.mem_append.mpr (.inr (List.mem_singleton.mpr rfl)), rfl⟩
      · rw [c1] at hpm
        have he1 := pres1 p.1 hpne (hback p hpm)
        rcases he1 with ⟨b, hb, q, hq, hqw⟩ | ⟨b, hb, q, hq, hqw⟩
        · exact .inl ⟨b, hb, q, hq, hqw⟩
        · rw [← hbs] at hb
          rcases List.mem_append.mp hb with h3 | h3
          · exact .inr ⟨b, List.mem_append.mpr (.inl h3), q, hq, hqw⟩
          · rcases List.mem_cons.mp h3 with h4 | h4
            · refine .inr ⟨{ tgt with nodes := tgt.nodes ++ [(v, c)] },
                List.mem_append.mpr (.inr (List.mem_cons_self _ _)), q, ?_, hqw⟩
              rw [h4] at hq
              exact List.mem_append.mpr (.inl hq)
            · exact .inr ⟨b,
                List.mem_append.mpr (.inr (List.mem_cons_of_mem _ h4)), q, hq, hqw⟩
    · rw [if_neg hfull] at a1
      simp only [] at a1
      cases hdrop : (sortAsc (tgt.nodes ++ [(v, c)])).drop (tgt.capacity / 2 + 1) with
      | nil =>
        rw [hdrop] at a1
        exact RunOut.noConfusion a1
      | cons r0 rest =>
        rw [hdrop] at a1
        simp only [] at a1
        injection a1 with a3
        rw [← a3] at a2
        simp only [] at a2
        rw [set_takeWhile_length hRd, insertIdx_cons_after] at a2
        injection a2 with a4
        subst a4
        have hsplit : ∀ q : PairC, q ∈ sortAsc (tgt.nodes ++ [(v, c)]) →
            q ∈ (sortAsc (tgt.nodes ++ [(v, c)])).take (tgt.capacity / 2 + 1) ∨
            q ∈ r0 :: rest := by
          intro q hq
          rw [← List.take_append_drop (tgt.capacity / 2 + 1)
            (sortAsc (tgt.nodes ++ [(v, c)]))] at hq
          rcases List.mem_append.mp hq with h5 | h5
          · exact .inl h5
          · rw [hdrop] at h5
            exact .inr h5
        refine ⟨m1, ?_⟩
        intro p hp
        rcases alSet_mem hp with hpv | ⟨hpm, hpne⟩
        · have hvmem : ((v, c) : PairC) ∈ sortAsc (tgt.nodes ++ [(v, c)]) :=
            (sortAsc_perm _).mem_iff.mpr
              (List.mem_append.mpr (.inr (List.mem_singleton.mpr rfl)))
          rw [hpv]
          rcases hsplit (v, c) hvmem with h5 | h5
          · exact .inr ⟨⟨(sortAsc (tgt.nodes ++ [(v, c)])).take (tgt.capacity / 2 + 1),
              r0.2, tgt.capacity⟩,
              List.mem_append.mpr (.inr (List.mem_cons_self _ _)), (v, c), h5, rfl⟩
          · exact .inr ⟨⟨r0 :: rest, tgt.upper_bound, tgt.capacity⟩,
              List.mem_append.mpr (.inr (List.mem_cons_of_mem _ (List.mem_cons_self _ _))),
              (v, c), h5, rfl⟩
        · rw [c1] at hpm
          have he1 := pres1 p.1 hpne (hback p hpm)
          rcases he1 with ⟨b, hb, q, hq, hqw⟩ | ⟨b, hb, q, hq, hqw⟩
          · exact .inl ⟨b, hb, q, hq, hqw⟩
          · rw [← hbs] at hb
            rcases List.mem_append.mp hb with h3 | h3
            · exact .inr ⟨b, List.mem_append.mpr (.inl h3), q, hq, hqw⟩
            · rcases List.mem_cons.mp h3 with h4 | h4
              · have hqs : q ∈ sortAsc (tgt.nodes ++ [(v, c)]) := by
                  refine (sortAsc_perm _).mem_iff.mpr (List.mem_append.mpr (.inl ?_))
                  rw [← h4]
                  exact hq
                rcases hsplit q hqs with h5 | h5
                · exact .inr ⟨⟨(sortAsc (tgt.nodes ++ [(v, c)])).take
                    (tgt.capacity / 2 + 1), r0.2, tgt.capacity⟩,
                    List.mem_append.mpr (.inr (List.mem_cons_self _ _)), q, h5, hqw⟩
                · exact .inr ⟨⟨r0 :: rest, tgt.upper_bound, tgt.capacity⟩,
                    List.mem_append.mpr
                      (.inr (List.mem_cons_of_mem _ (List.mem_cons_self _ _))),
                    q, h5, hqw⟩
              · exact .inr ⟨b, List.mem_append.mpr
                  (.inr (List.mem_cons_of_mem _ (List.mem_cons_of_mem _ h4))),
                  q, hq, hqw⟩

theorem insertDesc_perm (p : PairC) (l : List PairC) :
    (insertDesc p l).Perm (p :: l) := by
  induction l with
  | nil => simp [insertDesc]
  | cons q t ih =>
    unfold insertDesc
    by_cases h : cqLt p.2 q.2 = true
    · simp only [h, if_true]
      exact (ih.cons q).trans (List.Perm.swap p q t)
    · simp only [Bool.not_eq_true] at h
      simp [h]

theorem sortDesc_perm (l : List PairC) : (sortDesc l).Perm l := by
  induction l with
  | nil => simp [sortDesc]
  | cons p t ih =>
    exact (insertDesc_perm p (sortDesc t)).trans (ih.cons p)

theorem bpFilter_mix : ∀ {input : List PairC} {s : BlockList} {acc : List PairC}
    {s' : BlockList} {P : List PairC}, bpFilter s input = .ok (acc, s') →
    (∀ p ∈ s.cost_map, HasEntry s p.1 ∨ ∃ q ∈ P, q.1 = p.1) →
    s'.M = s.M ∧
    ∀ p ∈ s'.cost_map, HasEntry s' p.1 ∨ ∃ q ∈ P ++ acc, q.1 = p.1 := by
  intro input
  induction input with
  | nil =>
    intro s acc s' P h hmix
    unfold bpFilter at h
    simp only [RunOut.ok.injEq, Prod.mk.injEq] at h
    obtain ⟨ha, hs⟩ := h
    rw [← hs, ← ha]
    refine ⟨rfl, ?_⟩
    intro p hp
    rcases hmix p hp with h1 | ⟨q, hq, hq1⟩
    · exact .inl h1
    · exact .inr ⟨q, List.mem_append.mpr (.inl hq), hq1⟩
  | cons pc rest ih =>
    intro s acc s' P h hmix
    obtain ⟨v, c⟩ := pc
    unfold bpFilter at h
    obtain ⟨⟨go, s1⟩, g1, g2⟩ := RunOut.bind_eq_ok h
    simp only [] at g2
    obtain ⟨m1, c1, pres1, gof⟩ := update_shape g1
    by_cases hgo : go = true
    · rw [if_pos hgo] at g2
      obtain ⟨⟨acc2, s3⟩, f1, f2⟩ := RunOut.bind_eq_ok g2
      simp only [RunOut.ok.injEq, Prod.mk.injEq] at f2
      obtain ⟨ha, hs⟩ := f2
      have hmix2 : ∀ p ∈ ({ s1 with cost_map := alSet s1.cost_map v (.prep c) }
          : BlockList).cost_map,
          HasEntry { s1 with cost_map := alSet s1.cost_map v (.prep c) } p.1 ∨
          ∃ q ∈ P ++ [((v, c) : PairC)], q.1 = p.1 := by
        intro p hp
        rcases alSet_mem hp with hpv | ⟨hpm, hpne⟩
        · refine .inr ⟨(v, c), List.mem_append.mpr (.inr (List.mem_singleton.mpr rfl)), ?_⟩
          rw [hpv]
        · rw [c1] at hpm
          rcases hmix p hpm with h1 | ⟨q, hq, hq1⟩
          · exact .inl (pres1 p.1 hpne h1)
          · exact .inr ⟨q, List.mem_append.mpr (.inl hq), hq1⟩
      obtain ⟨rm, rmix⟩ := ih f1 hmix2
      rw [← hs, ← ha]
      refine ⟨by rw [rm]; exact m1, ?_⟩
      intro p hp
      rcases rmix p hp with h1 | ⟨q, hq, hq1⟩
      · exact .inl h1
      · rw [List.append_assoc] at hq
        exact .inr ⟨q, hq, hq1⟩
    · rw [if_neg hgo] at g2
      have hs1 : s1 = s := gof (by simpa using hgo)
      rw [hs1] at g2
      exact ih g2 hmix

theorem bpChunkLoop_backing : ∀ {fuel : ℕ} {s : BlockList} {nodes : List PairC}
    {s' : BlockList}, bpChunkLoop fuel s nodes = .ok s' →
    (∀ p ∈ s.cost_map, HasEntry s p.1 ∨ ∃ q ∈ nodes, q.1 = p.1) →
    s'.M = s.M ∧ Backing s' := by
  intro fuel
  induction fuel with
  | zero =>
    intro s nodes s' h hmix
    exact RunOut.noConfusion h
  | succ fuel ih =>
    intro s nodes s' h hmix
    unfold bpChunkLoop at h
    by_cases hn : nodes.isEmpty = true
    · rw [if_pos hn] at h
      injection h with h2
      have hnil : nodes = [] := by simpa using hn
      rw [← h2]
      refine ⟨rfl, ?_⟩
      intro p hp
      rcases hmix p hp with h1 | ⟨q, hq, hq1⟩
      · exact h1
      · rw [hnil] at hq
        exact absurd hq (List.not_mem_nil q)
    · rw [if_neg hn] at h
      simp only [] at h
      obtain ⟨u, g1, g2⟩ := RunOut.bind_eq_ok h
      have hmix2 : ∀ p ∈ ({ s with prepend_blocks :=
          ⟨nodes.take (min (ceilHalf s.M) nodes.length), u, s.M⟩ :: s.prepend_blocks }
          : BlockList).cost_map,
          HasEntry { s with prepend_blocks :=
            ⟨nodes.take (min (ceilHalf s.M) nodes.length), u, s.M⟩ :: s.prepend_blocks } p.1 ∨
          ∃ q ∈ nodes.drop (min (ceilHalf s.M) nodes.length), q.1 = p.1 := by
        intro p hp
        rcases hmix p hp with h1 | ⟨q, hq, hq1⟩
        · rcases h1 with ⟨b, hb, q, hq, hqw⟩ | ⟨b, hb, q, hq, hqw⟩
          · exact .inl (.inl ⟨b, List.mem_cons_of_mem _ hb, q, hq, hqw⟩)
          · exact .inl (.inr ⟨b, hb, q, hq, hqw⟩)
        · rw [← List.take_append_drop (min (ceilHalf s.M) nodes.length) nodes] at hq
          rcases List.mem_append.mp hq with h3 | h3
          · exact .inl (.inl ⟨⟨nodes.take (min (ceilHalf s.M) nodes.length), u, s.M⟩,
              List.mem_cons_self _ _, q, h3, hq1⟩)
          · exact .inr ⟨q, h3, hq1⟩
      obtain ⟨rm, rback⟩ := ih g2 hmix2
      exact ⟨rm, rback⟩

theorem batchPrepend_backing {s : BlockList} {input : List PairC} {s' : BlockList}
    (h : s.batchPrepend input = .ok s') (hback : Backing s) :
    s'.M = s.M ∧ Backing s' := by
  unfold BlockList.batchPrepend at h
  obtain ⟨⟨actual, s1⟩, g1, g2⟩ := RunOut.bind_eq_ok h
  simp only [] at g2
  obtain ⟨m1, mix1⟩ := bpFilter_mix (P := []) g1
    (fun p hp => .inl (hback p hp))
  simp only [List.nil_append] at mix1
  by_cases ha : actual.isEmpty = true
  · rw [if_pos ha] at g2
    injection g2 with g3
    have hnil : actual = [] := by simpa using ha
    rw [← g3]
    refine ⟨m1, ?_⟩
    intro p hp
    rcases mix1 p hp with h1 | ⟨q, hq, hq1⟩
    · exact h1
    · rw [hnil] at hq
      exact absurd hq (List.not_mem_nil q)
  · rw [if_neg ha] at g2
    by_cases hm : actual.length ≤ s1.M
    · rw [if_pos hm] at g2
      obtain ⟨u, f1, f2⟩ := RunOut.bind_eq_ok g2
      injection f2 with f3
      rw [← f3]
      refine ⟨m1, ?_⟩
      intro p hp
      rcases mix1 p hp with h1 | ⟨q, hq, hq1⟩
      · rcases h1 with ⟨b, hb, q, hq, hqw⟩ | ⟨b, hb, q, hq, hqw⟩
        · exact .inl ⟨b, List.mem_cons_of_mem _ hb, q, hq, hqw⟩
        · exact .inr ⟨b, hb, q, hq, hqw⟩
      · exact .inl ⟨⟨actual, u, s1.M⟩, List.mem_cons_self _ _, q, hq, hq1⟩
    · rw [if_neg hm] at g2
      have hmix2 : ∀ p ∈ s1.cost_map, HasEntry s1 p.1 ∨
          ∃ q ∈ sortDesc actual, q.1 = p.1 := by
        intro p hp
        rcases mix1 p hp with h1 | ⟨q, hq, hq1⟩
        · exact .inl h1
        · exact .inr ⟨q, (sortDesc_perm actual).mem_iff.mpr hq, hq1⟩
      obtain ⟨rm, rback⟩ := bpChunkLoop_backing g2 hmix2
      exact ⟨rm.trans m1, rback⟩

theorem collectCands_entry : ∀ {bs : List Block} {num : ℕ} {acc cands : List PairC}
    {bs2 : List Block}, collectCands num acc bs = (cands, bs2) →
    ∀ b ∈ bs, ∀ q ∈ b.nodes, ∃ b2 ∈ bs2, q ∈ b2.nodes := by
  intro bs
  induction bs with
  | nil =>
    intro num acc cands bs2 h b hb
    exact absurd hb (List.not_mem_nil b)
  | cons b0 rest ih =>
    intro num acc cands bs2 h b hb q hq
    unfold collectCands at h
    simp only [] at h
    by_cases hl : (acc ++ (sortAsc b0.nodes).take num).length = num
    · rw [if_pos hl] at h
      injection h with h1 h2
      rw [← h2]
      rcases List.mem_cons.mp hb with h3 | h3
      · refine ⟨{ b0 with nodes := sortAsc b0.nodes }, List.mem_cons_self _ _, ?_⟩
        refine (sortAsc_perm b0.nodes).mem_iff.mpr ?_
        rw [← h3]
        exact hq
      · exact ⟨b, List.mem_cons_of_mem _ h3, hq⟩
    · rw [if_neg hl] at h
      cases hcc : collectCands num (acc ++ (sortAsc b0.nodes).take num) rest with
      | mk accF restF =>
        rw [hcc] at h
        simp only [] at h
        injection h with h1 h2
        rw [← h2]
        rcases List.mem_cons.mp hb with h3 | h3
        · refine ⟨{ b0 with nodes := sortAsc b0.nodes }, List.mem_cons_self _ _, ?_⟩
          refine (sortAsc_perm b0.nodes).mem_iff.mpr ?_
          rw [← h3]
          exact hq
        · obtain ⟨b2, hb2, hq2⟩ := ih hcc b h3 q hq
          exact ⟨b2, List.mem_cons_of_mem _ hb2, hq2⟩

theorem mergeLoop_backing : ∀ {fuel : ℕ} {s : BlockList} {num : ℕ} {pc ic : List PairC}
    {pulled out : List NodeId} {s' : BlockList},
    mergeLoop fuel s num pc ic pulled = .ok (out, s') → Backing s →
    s'.M = s.M ∧ Backing s' := by
  intro fuel
  induction fuel with
  | zero =>
    intro s num pc ic pulled out s' h hback
    exact RunOut.noConfusion h
  | succ fuel ih =>
    intro s num pc ic pulled out s' h hback
    unfold mergeLoop at h
    by_cases hstop : (pc.isEmpty = true ∧ ic.isEmpty = true) ∨ num ≤ pulled.length
    · rw [if_pos hstop] at h
      simp only [RunOut.ok.injEq, Prod.mk.injEq] at h
      rw [← h.2]
      exact ⟨rfl, hback⟩
    · rw [if_neg hstop] at h
      simp only [] at h
      by_cases hlt : cqLt ((pc.head?.map Prod.snd).getD s.B)
          ((ic.head?.map Prod.snd).getD s.B) = true
      · rw [if_pos hlt] at h
        cases pc with
        | nil => exact RunOut.noConfusion h
        | cons p pcRest =>
          obtain ⟨v, c⟩ := p
          simp only [] at h
          obtain ⟨s1, g1, g2⟩ := RunOut.bind_eq_ok h
          obtain ⟨m1, b1, i1, c1, pres⟩ := removeFromPrependList_shape g1
          have hb2 : Backing { s1 with cost_map := alRemove s1.cost_map v } := by
            intro p hp
            obtain ⟨hp1, hpne⟩ := alRemove_mem hp
            rw [c1] at hp1
            rcases hback p hp1 with ⟨b, hb, q, hq, hqw⟩ | ⟨b, hb, q, hq, hqw⟩
            · obtain ⟨b2, hb2m, hq2⟩ := pres b hb q hq (by rw [hqw]; exact hpne)
              exact .inl ⟨b2, hb2m, q, hq2, hqw⟩
            · rw [← i1] at hb
              exact .inr ⟨b, hb, q, hq, hqw⟩
          obtain ⟨rm, rback⟩ := ih g2 hb2
          exact ⟨rm.trans m1, rback⟩
      · rw [if_neg hlt] at h
        cases ic with
        | nil => exact RunOut.noConfusion h
        | cons p icRest =>
          obtain ⟨v, c⟩ := p
          simp only [] at h
          obtain ⟨s1, g1, g2⟩ := RunOut.bind_eq_ok h
          obtain ⟨m1, b1, p1, c1, pres⟩ := removeFromInsertList_shape g1
          have hb2 : Backing { s1 with cost_map := alRemove s1.cost_map v } := by
            intro p hp
            obtain ⟨hp1, hpne⟩ := alRemove_mem hp
            rw [c1] at hp1
            rcases hback p hp1 with ⟨b, hb, q, hq, hqw⟩ | ⟨b, hb, q, hq, hqw⟩
            · rw [← p1] at hb
              exact .inl ⟨b, hb, q, hq, hqw⟩
            · obtain ⟨b2, hb2m, hq2⟩ := pres b hb q hq (by rw [hqw]; exact hpne)
              exact .inr ⟨b2, hb2m, q, hq2, hqw⟩
          obtain ⟨rm, rback⟩ := ih g2 hb2
          exact ⟨rm.trans m1, rback⟩

theorem pullElements_backing {s : BlockList} {num : ℕ} {out : List NodeId}
    {s' : BlockList} (h : s.pullElements num = .ok (out, s')) (hback : Backing s) :
    s'.M = s.M ∧ Backing s' := by
  unfold BlockList.pullElements at h
  cases hcp : collectCands num [] s.prepend_blocks with
  | mk pc pbs =>
    cases hci : collectCands num [] s.insert_blocks with
    | mk ic ibs =>
      rw [hcp, hci] at h
      simp only [] at h
      have hb1 : Backing { s with prepend_blocks := pbs, insert_blocks := ibs } := by
        intro p hp
        rcases hback p hp with ⟨b, hb, q, hq, hqw⟩ | ⟨b, hb, q, hq, hqw⟩
        · obtain ⟨b2, hb2, hq2⟩ := collectCands_entry hcp b hb q hq
          exact .inl ⟨b2, hb2, q, hq2, hqw⟩
        · obtain ⟨b2, hb2, hq2⟩ := collectCands_entry hci b hb q hq
          exact .inr ⟨b2, hb2, q, hq2, hqw⟩
      obtain ⟨rm, rback⟩ := mergeLoop_backing h hb1
      exact ⟨rm, rback⟩

theorem pullLoop_backing : ∀ {fuel : ℕ} {s : BlockList} {numPulled : ℕ}
    {acc out : List NodeId} {s' : BlockList},
    pullLoop fuel s numPulled acc = .ok (out, s') → Backing s →
    s'.M = s.M ∧ Backing s' := by
  intro fuel
  induction fuel with
  | zero =>
    intro s numPulled acc out s' h hback
    exact RunOut.noConfusion h
  | succ fuel ih =>
    intro s numPulled acc out s' h hback
    unfold pullLoop at h
    by_cases hc : numPulled < s.M
    · rw [if_pos hc] at h
      obtain ⟨⟨nodes, s1⟩, g1, g2⟩ := RunOut.bind_eq_ok h
      simp only [] at g2
      obtain ⟨m1, back1⟩ := pullElements_backing g1 hback
      by_cases hz : nodes.length = 0
      · rw [if_pos hz] at g2
        simp only [RunOut.ok.injEq, Prod.mk.injEq] at g2
        rw [← g2.2]
        exact ⟨m1, back1⟩
      · rw [if_neg hz] at g2
        obtain ⟨rm, rback⟩ := ih g2 back1
        exact ⟨rm.trans m1, rback⟩
    · rw [if_neg hc] at h
      simp only [RunOut.ok.injEq, Prod.mk.injEq] at h
      rw [← h.2]
      exact ⟨rfl, hback⟩

theorem pull_backing {s : BlockList} {r : List NodeId × CQ} {s' : BlockList}
    (h : s.pull = .ok (r, s')) (hback : Backing s) : s'.M = s.M ∧ Backing s' := by
  unfold BlockList.pull at h
  obtain ⟨⟨pulled, s1⟩, g1, g2⟩ := RunOut.bind_eq_ok h
  simp only [RunOut.ok.injEq, Prod.mk.injEq] at g2
  rw [← g2.2]
  exact pullLoop_backing g1 hback

/-! ## Pull returns at most M vertices, and at least one from a backed
non-empty list -/

theorem mergeLoop_M : ∀ {fuel : ℕ} {s : BlockList} {num : ℕ} {pc ic : List PairC}
    {pulled out : List NodeId} {s' : BlockList},
    mergeLoop fuel s num pc ic pulled = .ok (out, s') → s'.M = s.M := by
  intro fuel
  induction fuel with
  | zero =>
    intro s num pc ic pulled out s' h
    exact RunOut.noConfusion h
  | succ fuel ih =>
    intro s num pc ic pulled out s' h
    unfold mergeLoop at h
    by_cases hstop : (pc.isEmpty = true ∧ ic.isEmpty = true) ∨ num ≤ pulled.length
    · rw [if_pos hstop] at h
      simp only [RunOut.ok.injEq, Prod.mk.injEq] at h
      rw [← h.2]
    · rw [if_neg hstop] at h
      simp only [] at h
      by_cases hlt : cqLt ((pc.head?.map Prod.snd).getD s.B)
          ((ic.head?.map Prod.snd).getD s.B) = true
      · rw [if_pos hlt] at h
        cases pc with
        | nil => exact RunOut.noConfusion h
        | cons p pcRest =>
          obtain ⟨v, c⟩ := p
          simp only [] at h
          obtain ⟨s1, g1, g2⟩ := RunOut.bind_eq_ok h
          obtain ⟨m1, _, _, _, _⟩ := removeFromPrependList_shape g1
          exact (ih g2).trans m1
      · rw [if_neg hlt] at h
        cases ic with
        | nil => exact RunOut.noConfusion h
        | cons p icRest =>
          obtain ⟨v, c⟩ := p
          simp only [] at h
          obtain ⟨s1, g1, g2⟩ := RunOut.bind_eq_ok h
          obtain ⟨m1, _, _, _, _⟩ := removeFromInsertList_shape g1
          exact (ih g2).trans m1

theorem mergeLoop_ge : ∀ {fuel : ℕ} {s : BlockList} {num : ℕ} {pc ic : List PairC}
    {pulled out : List NodeId} {s' : BlockList},
    mergeLoop fuel s num pc ic pulled = .ok (out, s') → pulled.length ≤ out.length := by
  intro fuel
  induction fuel with
  | zero =>
    intro s num pc ic pulled out s' h
    exact RunOut.noConfusion h
  | succ fuel ih =>
    intro s num pc ic pulled out s' h
    unfold mergeLoop at h
    by_cases hstop : (pc.isEmpty = true ∧ ic.isEmpty = true) ∨ num ≤ pulled.length
    · rw [if_pos hstop] at h
      simp only [RunOut.ok.injEq, Prod.mk.injEq] at h
      rw [h.1]
    · rw [if_neg hstop] at h
      simp only [] at h
      by_cases hlt : cqLt ((pc.head?.map Prod.snd).getD s.B)
          ((ic.head?.map Prod.snd).getD s.B) = true
      · rw [if_pos hlt] at h
        cases pc with
        | nil => exact RunOut.noConfusion h
        | cons p pcRest =>
          obtain ⟨v, c⟩ := p
          simp only [] at h
          obtain ⟨s1, g1, g2⟩ := RunOut.bind_eq_ok h
          have h2 := ih g2
          simp only [List.length_append, List.length_cons, List.length_nil] at h2
          omega
      · rw [if_neg hlt] at h
        cases ic with
        | nil => exact RunOut.noConfusion h
        | cons p icRest =>
          obtain ⟨v, c⟩ := p
          simp only [] at h
          obtain ⟨s1, g1, g2⟩ := RunOut.bind_eq_ok h
          have h2 := ih g2
          simp only [List.length_append, List.length_cons, List.length_nil] at h2
          omega

theorem mergeLoop_le : ∀ {fuel : ℕ} {s : BlockList} {num : ℕ} {pc ic : List PairC}
    {pulled out : List NodeId} {s' : BlockList},
    mergeLoop fuel s num pc ic pulled = .ok (out, s') → pulled.length ≤ num →
    out.length ≤ num := by
  intro fuel
  induction fuel with
  | zero =>
    intro s num pc ic pulled out s' h hle
    exact RunOut.noConfusion h
  | succ fuel ih =>
    intro s num pc ic pulled out s' h hle
    unfold mergeLoop at h
    by_cases hstop : (pc.isEmpty = true ∧ ic.isEmpty = true) ∨ num ≤ pulled.length
    · rw [if_pos hstop] at h
      simp only [RunOut.ok.injEq, Prod.mk.injEq] at h
      rw [← h.1]
      exact hle
    · rw [if_neg hstop] at h
      simp only [] at h
      have hltn : pulled.length < num := by
        rcases Nat.lt_or_ge pulled.length num with h1 | h1
        · exact h1
        · exact absurd (Or.inr h1) hstop
      by_cases hlt : cqLt ((pc.head?.map Prod.snd).getD s.B)
          ((ic.head?.map Prod.snd).getD s.B) = true
      · rw [if_pos hlt] at h
        cases pc with
        | nil => exact RunOut.noConfusion h
        | cons p pcRest =>
          obtain ⟨v, c⟩ := p
          simp only [] at h
          obtain ⟨s1, g1, g2⟩ := RunOut.bind_eq_ok h
          refine ih g2 ?_
          simp only [List.length_append, List.length_cons, List.length_nil]
          omega
      · rw [if_neg hlt] at h
        cases ic with
        | nil => exact RunOut.noConfusion h
        | cons p icRest =>
          obtain ⟨v, c⟩ := p
          simp only [] at h
          obtain ⟨s1, g1, g2⟩ := RunOut.bind_eq_ok h
          refine ih g2 ?_
          simp only [List.length_append, List.length_cons, List.length_nil]
          omega

theorem pullElements_M {s : BlockList} {num : ℕ} {out : List NodeId} {s' : BlockList}
    (h : s.pullElements num = .ok (out, s')) : s'.M = s.M := by
  unfold BlockList.pullElements at h
  cases hcp : collectCands num [] s.prepend_blocks with
  | mk pc pbs =>
    cases hci : collectCands num [] s.insert_blocks with
    | mk ic ibs =>
      rw [hcp, hci] at h
      simp only [] at h
      have hm := mergeLoop_M h
      exact hm

theorem pullElements_le {s : BlockList} {num : ℕ} {out : List NodeId} {s' : BlockList}
    (h : s.pullElements num = .ok (out, s')) : out.length ≤ num := by
  unfold BlockList.pullElements at h
  cases hcp : collectCands num [] s.prepend_blocks with
  | mk pc pbs =>
    cases hci : collectCands num [] s.insert_blocks with
    | mk ic ibs =>
      rw [hcp, hci] at h
      simp only [] at h
      exact mergeLoop_le h (Nat.zero_le num)

theorem pullLoop_ge : ∀ {fuel : ℕ} {s : BlockList} {numPulled : ℕ}
    {acc out : List NodeId} {s' : BlockList},
    pullLoop fuel s numPulled acc = .ok (out, s') → acc.length ≤ out.length := by
  intro fuel
  induction fuel with
  | zero =>
    intro s numPulled acc out s' h
    exact RunOut.noConfusion h
  | succ fuel ih =>
    intro s numPulled acc out s' h
    unfold pullLoop at h
    by_cases hc : numPulled < s.M
    · rw [if_pos hc] at h
      obtain ⟨⟨nodes, s1⟩, g1, g2⟩ := RunOut.bind_eq_ok h
      simp only [] at g2
      by_cases hz : nodes.length = 0
      · rw [if_pos hz] at g2
        simp only [RunOut.ok.injEq, Prod.mk.injEq] at g2
        rw [g2.1]
      · rw [if_neg hz] at g2
        have h2 := ih g2
        simp only [List.length_append] at h2
        omega
    · rw [if_neg hc] at h
      simp only [RunOut.ok.injEq, Prod.mk.injEq] at h
      rw [h.1]

theorem pullLoop_le : ∀ {fuel : ℕ} {s : BlockList} {numPulled : ℕ}
    {acc out : List NodeId} {s' : BlockList},
    pullLoop fuel s numPulled acc = .ok (out, s') →
    out.length ≤ acc.length + (s.M - numPulled) := by
  intro fuel
  induction fuel with
  | zero =>
    intro s numPulled acc out s' h
    exact RunOut.noConfusion h
  | succ fuel ih =>
    intro s numPulled acc out s' h
    unfold pullLoop at h
    by_cases hc : numPulled < s.M
    · rw [if_pos hc] at h
      obtain ⟨⟨nodes, s1⟩, g1, g2⟩ := RunOut.bind_eq_ok h
      simp only [] at g2
      have hnle := pullElements_le g1
      have hm1 := pullElements_M g1
      by_cases hz : nodes.length = 0
      · rw [if_pos hz] at g2
        simp only [RunOut.ok.injEq, Prod.mk.injEq] at g2
        rw [← g2.1]
        omega
      · rw [if_neg hz] at g2
        have h2 := ih g2
        rw [hm1] at h2
        simp only [List.length_append] at h2
        omega
    · rw [if_neg hc] at h
      simp only [RunOut.ok.injEq, Prod.mk.injEq] at h
      rw [← h.1]
      omega

theorem collectCands_acc_le : ∀ {bs : List Block} {num : ℕ} {acc cands : List PairC}
    {bs2 : List Block}, collectCands num acc bs = (cands, bs2) →
    acc.length ≤ cands.length := by
  intro bs
  induction bs with
  | nil =>
    intro num acc cands bs2 h
    unfold collectCands at h
    injection h with h1 h2
    rw [h1]
  | cons b0 rest ih =>
    intro num acc cands bs2 h
    unfold collectCands at h
    simp only [] at h
    by_cases hl : (acc ++ (sortAsc b0.nodes).take num).length = num
    · rw [if_pos hl] at h
      injection h with h1 h2
      rw [← h1]
      simp only [List.length_append]
      omega
    · rw [if_neg hl] at h
      cases hcc : collectCands num (acc ++ (sortAsc b0.nodes).take num) rest with
      | mk accF restF =>
        rw [hcc] at h
        simp only [] at h
        injection h with h1 h2
        rw [← h1]
        have h3 := ih hcc
        simp only [List.length_append] at h3
        omega

theorem collectCands_pos : ∀ {bs : List Block} {num : ℕ} {cands : List PairC}
    {bs2 : List Block}, collectCands num [] bs = (cands, bs2) →
    (∃ b ∈ bs, b.nodes ≠ []) → 1 ≤ num → 1 ≤ cands.length := by
  intro bs
  induction bs with
  | nil =>
    intro num cands bs2 h hne hnum
    obtain ⟨b, hb, _⟩ := hne
    exact absurd hb (List.not_mem_nil b)
  | cons b0 rest ih =>
    intro num cands bs2 h hne hnum
    unfold collectCands at h
    simp only [] at h
    by_cases hb0 : b0.nodes = []
    · have htake : (sortAsc b0.nodes).take num = [] := by
        rw [hb0]
        simp [sortAsc]
      rw [htake] at h
      simp only [List.append_nil] at h
      by_cases hl : ([] : List PairC).length = num
      · simp only [List.length_nil] at hl
        omega
      · rw [if_neg (by simpa using hl)] at h
        cases hcc : collectCands num [] rest with
        | mk accF restF =>
          rw [hcc] at h
          simp only [] at h
          injection h with h1 h2
          rw [← h1]
          refine ih hcc ?_ hnum
          obtain ⟨b, hb, hbn⟩ := hne
          rcases List.mem_cons.mp hb with h3 | h3
          · rw [h3] at hbn
            exact absurd hb0 hbn
          · exact ⟨b, h3, hbn⟩
    · have hlen : 1 ≤ ((sortAsc b0.nodes).take num).length := by
        rw [List.length_take, sortAsc_length]
        have : 1 ≤ b0.nodes.length := by
          cases hn : b0.nodes with
          | nil => exact absurd hn hb0
          | cons x xs => simp
        omega
      by_cases hl : (([] : List PairC) ++ (sortAsc b0.nodes).take num).length = num
      · rw [if_pos hl] at h
        injection h with h1 h2
        rw [← h1]
        simp only [List.nil_append] at hl ⊢
        omega
      · rw [if_neg hl] at h
        cases hcc : collectCands num ([] ++ (sortAsc b0.nodes).take num) rest with
        | mk accF restF =>
          rw [hcc] at h
          simp only [] at h
          injection h with h1 h2
          rw [← h1]
          have h3 := collectCands_acc_le hcc
          simp only [List.nil_append] at h3
          omega

theorem pullElements_pos {s : BlockList} {num : ℕ} {out : List NodeId} {s' : BlockList}
    (h : s.pullElements num = .ok (out, s')) (hnum : 1 ≤ num)
    (hne : ∃ b, (b ∈ s.prepend_blocks ∨ b ∈ s.insert_blocks) ∧ b.nodes ≠ []) :
    1 ≤ out.length := by
  unfold BlockList.pullElements at h
  cases hcp : collectCands num [] s.prepend_blocks with
  | mk pc pbs =>
    cases hci : collectCands num [] s.insert_blocks with
    | mk ic ibs =>
      rw [hcp, hci] at h
      simp only [] at h
      have hcands : 1 ≤ pc.length ∨ 1 ≤ ic.length := by
        obtain ⟨b, hor, hbn⟩ := hne
        rcases hor with hb | hb
        · exact .inl (collectCands_pos hcp ⟨b, hb, hbn⟩ hnum)
        · exact .inr (collectCands_pos hci ⟨b, hb, hbn⟩ hnum)
      unfold mergeLoop at h
      have hcond : ¬((pc.isEmpty = true ∧ ic.isEmpty = true) ∨
          num ≤ List.length ([] : List NodeId)) := by
        simp only [List.length_nil]
        rintro (⟨h1, h2⟩ | h3)
        · rw [List.isEmpty_iff] at h1 h2
          rcases hcands with hc | hc
          · rw [h1] at hc
            simp at hc
          · rw [h2] at hc
            simp at hc
        · omega
      rw [if_neg hcond] at h
      simp only [] at h
      by_cases hlt : cqLt ((pc.head?.map Prod.snd).getD
          ({ s with prepend_blocks := pbs, insert_blocks := ibs } : BlockList).B)
          ((ic.head?.map Prod.snd).getD
          ({ s with prepend_blocks := pbs, insert_blocks := ibs } : BlockList).B) = true
      · rw [if_pos hlt] at h
        cases pc with
        | nil => exact RunOut.noConfusion h
        | cons p pcRest =>
          obtain ⟨v, c⟩ := p
          simp only [] at h
          obtain ⟨s1, g1, g2⟩ := RunOut.bind_eq_ok h
          have h2 := mergeLoop_ge g2
          simp only [List.length_append, List.length_cons, List.length_nil] at h2
          omega
      · rw [if_neg hlt] at h
        cases ic with
        | nil => exact RunOut.noConfusion h
        | cons p icRest =>
          obtain ⟨v, c⟩ := p
          simp only [] at h
          obtain ⟨s1, g1, g2⟩ := RunOut.bind_eq_ok h
          have h2 := mergeLoop_ge g2
          simp only [List.length_append, List.length_cons, List.length_nil] at h2
          omega

theorem pull_len1 {s : BlockList} {r : List NodeId × CQ} {s' : BlockList}
    (hM : s.M = 1) (hback : Backing s) (hne : s.isEmpty = false)
    (h : s.pull = .ok (r, s')) : r.1.length = 1 := by
  unfold BlockList.pull at h
  obtain ⟨⟨pulled, s1⟩, g1, g2⟩ := RunOut.bind_eq_ok h
  simp only [RunOut.ok.injEq, Prod.mk.injEq] at g2
  have hr1 : r.1 = pulled := by
    rw [← g2.1]
  have hle := pullLoop_le g1
  simp only [List.length_nil, Nat.zero_add, Nat.sub_zero] at hle
  have hent : ∃ b, (b ∈ s.prepend_blocks ∨ b ∈ s.insert_blocks) ∧ b.nodes ≠ [] := by
    cases hcm : s.cost_map with
    | nil =>
      unfold BlockList.isEmpty at hne
      rw [hcm] at hne
      simp at hne
    | cons p rest =>
      have hp : p ∈ s.cost_map := by
        rw [hcm]
        exact List.mem_cons_self _ _
      rcases hback p hp with ⟨b, hb, q, hq, _⟩ | ⟨b, hb, q, hq, _⟩
      · exact ⟨b, .inl hb, List.ne_nil_of_mem hq⟩
      · exact ⟨b, .inr hb, List.ne_nil_of_mem hq⟩
  unfold pullLoop at g1
  rw [if_pos (show 0 < s.M by omega)] at g1
  obtain ⟨⟨nodes, s2⟩, f1, f2⟩ := RunOut.bind_eq_ok g1
  simp only [] at f2
  have hpos := pullElements_pos f1 (by omega) hent
  by_cases hz : nodes.length = 0
  · omega
  · rw [if_neg hz] at f2
    have hge := pullLoop_ge f2
    simp only [List.nil_append] at hge
    rw [hr1]
    omega

/-! ## No function below the level-zero assertion can raise the
frontier-assert panic kind -/

theorem po_of_panicked_other {α : Type} {kk : PanicKind}
    (h : (RunOut.panicked PanicKind.other : RunOut α) = RunOut.panicked kk) :
    kk = PanicKind.other := by
  injection h with h2
  exact h2.symm

theorem DState.get_po (d : DState) (v : ℕ) : PanicOther (d.get v) := by
  intro kk hk
  unfold DState.get at hk
  split at hk
  · exact RunOut.noConfusion hk
  · exact po_of_panicked_other hk

theorem getNeighbors_po (adj : Graph) (v : ℕ) : PanicOther (getNeighbors adj v) := by
  intro kk hk
  unfold getNeighbors at hk
  split at hk
  · exact RunOut.noConfusion hk
  · exact po_of_panicked_other hk

theorem blockAdd_po (b : Block) (v : NodeId) (c : CQ) : PanicOther (b.add v c) := by
  intro kk hk
  unfold Block.add at hk
  split at hk
  · exact RunOut.noConfusion hk
  · simp only [] at hk
    split at hk
    · exact po_of_panicked_other hk
    · exact RunOut.noConfusion hk

theorem removeFromPrependList_po (s : BlockList) (v : NodeId) (c : CQ) :
    PanicOther (s.removeFromPrependList v c) := by
  intro kk hk
  unfold BlockList.removeFromPrependList at hk
  simp only [] at hk
  split at hk
  · exact po_of_panicked_other hk
  · split at hk
    · exact RunOut.noConfusion hk
    · exact RunOut.noConfusion hk

theorem removeFromInsertList_po (s : BlockList) (v : NodeId) (c : CQ) :
    PanicOther (s.removeFromInsertList v c) := by
  intro kk hk
  unfold BlockList.removeFromInsertList at hk
  simp only [] at hk
  split at hk
  · exact po_of_panicked_other hk
  · split at hk
    · split at hk
      · exact RunOut.noConfusion hk
      · exact RunOut.noConfusion hk
    · exact RunOut.noConfusion hk

theorem update_po (s : BlockList) (v : NodeId) (nc : CQ) : PanicOther (s.update v nc) := by
  intro kk hk
  unfold BlockList.update at hk
  split at hk
  · split at hk
    · rcases RunOut.bind_eq_panicked hk with h1 | ⟨a, h2, h3⟩
      · exact removeFromPrependList_po s v _ kk h1
      · exact RunOut.noConfusion h3
    · exact RunOut.noConfusion hk
  · split at hk
    · rcases RunOut.bind_eq_panicked hk with h1 | ⟨a, h2, h3⟩
      · exact removeFromInsertList_po s v _ kk h1
      · exact RunOut.noConfusion h3
    · exact RunOut.noConfusion hk
  · exact RunOut.noConfusion hk

theorem insert_po (s : BlockList) (v : NodeId) (c : CQ) : PanicOther (s.insert v c) := by
  intro kk hk
  unfold BlockList.insert at hk
  split at hk
  · split at hk
    · rcases RunOut.bind_eq_panicked hk with h1 | ⟨⟨go, s1⟩, h2, h3⟩
      · exact update_po s v c kk h1
      · simp only [] at h3
        split at h3
        · split at h3
          · exact po_of_panicked_other h3
          · rcases RunOut.bind_eq_panicked h3 with h4 | ⟨res, h5, h6⟩
            · exact blockAdd_po _ v c kk h4
            · split at h6
              · exact RunOut.noConfusion h6
              · exact RunOut.noConfusion h6
        · exact RunOut.noConfusion h3
    · exact po_of_panicked_other hk
  · exact po_of_panicked_other hk

theorem getMinimumBlock_po (s : BlockList) : PanicOther s.getMinimumBlock := by
  intro kk hk
  unfold BlockList.getMinimumBlock at hk
  split at hk
  · exact RunOut.noConfusion hk
  · split at hk
    · exact RunOut.noConfusion hk
    · exact po_of_panicked_other hk

theorem getMinimumUpperBound_po (s : BlockList) : PanicOther s.getMinimumUpperBound := by
  intro kk hk
  unfold BlockList.getMinimumUpperBound at hk
  rcases RunOut.bind_eq_panicked hk with h1 | ⟨b, h2, h3⟩
  · exact getMinimumBlock_po s kk h1
  · exact RunOut.noConfusion h3

theorem bpFilter_po : ∀ (input : List PairC) (s : BlockList),
    PanicOther (bpFilter s input) := by
  intro input
  induction input with
  | nil =>
    intro s kk hk
    exact RunOut.noConfusion hk
  | cons pc rest ih =>
    intro s kk hk
    obtain ⟨v, c⟩ := pc
    unfold bpFilter at hk
    rcases RunOut.bind_eq_panicked hk with h1 | ⟨⟨go, s1⟩, h2, h3⟩
    · exact update_po s v c kk h1
    · simp only [] at h3
      split at h3
      · rcases RunOut.bind_eq_panicked h3 with h4 | ⟨⟨acc2, s3⟩, h5, h6⟩
        · exact ih _ kk h4
        · exact RunOut.noConfusion h6
      · exact ih _ kk h3

theorem bpChunkLoop_po : ∀ (fuel : ℕ) (s : BlockList) (nodes : List PairC),
    PanicOther (bpChunkLoop fuel s nodes) := by
  intro fuel
  induction fuel with
  | zero =>
    intro s nodes kk hk
    exact RunOut.noConfusion hk
  | succ fuel ih =>
    intro s nodes kk hk
    unfold bpChunkLoop at hk
    split at hk
    · exact RunOut.noConfusion hk
    · simp only [] at hk
      rcases RunOut.bind_eq_panicked hk with h1 | ⟨u, h2, h3⟩
      · exact getMinimumUpperBound_po _ kk h1
      · exact ih _ _ kk h3

theorem batchPrepend_po (s : BlockList) (input : List PairC) :
    PanicOther (s.batchPrepend input) := by
  intro kk hk
  unfold BlockList.batchPrepend at hk
  rcases RunOut.bind_eq_panicked hk with h1 | ⟨⟨actual, s1⟩, h2, h3⟩
  · exact bpFilter_po input s kk h1
  · simp only [] at h3
    split at h3
    · exact RunOut.noConfusion h3
    · split at h3
      · rcases RunOut.bind_eq_panicked h3 with h4 | ⟨u, h5, h6⟩
        · exact getMinimumUpperBound_po _ kk h4
        · exact RunOut.noConfusion h6
      · exact bpChunkLoop_po _ _ _ kk h3

theorem mergeLoop_po : ∀ (fuel : ℕ) (s : BlockList) (num : ℕ) (pc ic : List PairC)
    (pulled : List NodeId), PanicOther (mergeLoop fuel s num pc ic pulled) := by
  intro fuel
  induction fuel with
  | zero =>
    intro s num pc ic pulled kk hk
    exact RunOut.noConfusion hk
  | succ fuel ih =>
    intro s num pc ic pulled kk hk
    unfold mergeLoop at hk
    split at hk
    · exact RunOut.noConfusion hk
    · simp only [] at hk
      split at hk
      · split at hk
        · exact po_of_panicked_other hk
        · rcases RunOut.bind_eq_panicked hk with h1 | ⟨s1, h2, h3⟩
          · exact removeFromPrependList_po _ _ _ kk h1
          · exact ih _ _ _ _ _ kk h3
      · split at hk
        · exact po_of_panicked_other hk
        · rcases RunOut.bind_eq_panicked hk with h1 | ⟨s1, h2, h3⟩
          · exact removeFromInsertList_po _ _ _ kk h1
          · exact ih _ _ _ _ _ kk h3

theorem pullElements_po (s : BlockList) (num : ℕ) : PanicOther (s.pullElements num) := by
  intro kk hk
  unfold BlockList.pullElements at hk
  exact mergeLoop_po _ _ _ _ _ _ kk hk

theorem pullLoop_po : ∀ (fuel : ℕ) (s : BlockList) (numPulled : ℕ) (acc : List NodeId),
    PanicOther (pullLoop fuel s numPulled acc) := by
  intro fuel
  induction fuel with
  | zero =>
    intro s numPulled acc kk hk
    exact RunOut.noConfusion hk
  | succ fuel ih =>
    intro s numPulled acc kk hk
    unfold pullLoop at hk
    split at hk
    · rcases RunOut.bind_eq_panicked hk with h1 | ⟨⟨nodes, s1⟩, h2, h3⟩
      · exact pullElements_po _ _ kk h1
      · simp only [] at h3
        split at h3
        · exact RunOut.noConfusion h3
        · exact ih _ _ _ kk h3
    · exact RunOut.noConfusion hk

theorem pull_po (s : BlockList) : PanicOther s.pull := by
  intro kk hk
  unfold BlockList.pull at hk
  rcases RunOut.bind_eq_panicked hk with h1 | ⟨⟨pulled, s1⟩, h2, h3⟩
  · exact pullLoop_po _ _ _ _ kk h1
  · exact RunOut.noConfusion h3

theorem baseRelax_po (ub cost : CQ) : ∀ (es heap : List (ℕ × CQ)) (d : DState),
    PanicOther (baseRelax ub cost es heap d) := by
  intro es
  induction es with
  | nil =>
    intro heap d kk hk
    exact RunOut.noConfusion hk
  | cons e rest ih =>
    intro heap d kk hk
    obtain ⟨nb, w⟩ := e
    unfold baseRelax at hk
    rcases RunOut.bind_eq_panicked hk with h1 | ⟨cur, h2, h3⟩
    · exact DState.get_po d nb kk h1
    · simp only [] at h3
      split at h3
      · exact ih _ _ kk h3
      · exact ih _ _ kk h3

theorem baseLoop_po (ub : CQ) (k : ℕ) (adj : Graph) : ∀ (fuel : ℕ)
    (heap : List (ℕ × CQ)) (uInit visited : List ℕ) (mcs : CQ) (d : DState),
    PanicOther (baseLoop ub k adj fuel heap uInit visited mcs d) := by
  intro fuel
  induction fuel with
  | zero =>
    intro heap uInit visited mcs d kk hk
    exact RunOut.noConfusion hk
  | succ fuel ih =>
    intro heap uInit visited mcs d kk hk
    unfold baseLoop at hk
    split at hk
    · exact RunOut.noConfusion hk
    · split at hk
      · exact RunOut.noConfusion hk
      · simp only [] at hk
        rcases RunOut.bind_eq_panicked hk with h1 | ⟨dn, h2, h3⟩
        · exact DState.get_po _ _ kk h1
        · rcases RunOut.bind_eq_panicked h3 with h4 | ⟨nbrs, h5, h6⟩
          · exact getNeighbors_po _ _ kk h4
          · rcases RunOut.bind_eq_panicked h6 with h7 | ⟨⟨heap2, d1⟩, h8, h9⟩
            · exact baseRelax_po _ _ _ _ _ kk h7
            · exact ih _ _ _ _ _ kk h9

theorem filterLtCost_po : ∀ (l : List ℕ) (b : CQ) (d : DState),
    PanicOther (filterLtCost l b d) := by
  intro l
  induction l with
  | nil =>
    intro b d kk hk
    exact RunOut.noConfusion hk
  | cons v rest ih =>
    intro b d kk hk
    unfold filterLtCost at hk
    rcases RunOut.bind_eq_panicked hk with h1 | ⟨c, h2, h3⟩
    · exact DState.get_po _ _ kk h1
    · rcases RunOut.bind_eq_panicked h3 with h4 | ⟨r, h5, h6⟩
      · exact ih _ _ kk h4
      · exact RunOut.noConfusion h6

theorem baseBmssp_po (ub : CQ) (x k : ℕ) (adj : Graph) (d : DState) (fuel : ℕ) :
    PanicOther (baseBmssp ub x k adj d fuel) := by
  intro kk hk
  unfold baseBmssp at hk
  rcases RunOut.bind_eq_panicked hk with h1 | ⟨d0, h2, h3⟩
  · exact DState.get_po _ _ kk h1
  · simp only [] at h3
    rcases RunOut.bind_eq_panicked h3 with h4 | ⟨⟨⟨uInit, mcs⟩, d1⟩, h5, h6⟩
    · exact baseLoop_po _ _ _ _ _ _ _ _ _ kk h4
    · simp only [] at h6
      split at h6
      · exact RunOut.noConfusion h6
      · rcases RunOut.bind_eq_panicked h6 with h7 | ⟨filtered, h8, h9⟩
        · exact filterLtCost_po _ _ _ kk h7
        · exact RunOut.noConfusion h9

theorem fpRelaxEdges_po (bound cost : CQ) (nid : ℕ) : ∀ (es : List (ℕ × CQ))
    (st : DState × List ℕ × List (ℕ × ℕ)), PanicOther (fpRelaxEdges bound cost nid es st) := by
  intro es
  induction es with
  | nil =>
    intro st kk hk
    exact RunOut.noConfusion hk
  | cons e rest ih =>
    intro st kk hk
    obtain ⟨nb, w⟩ := e
    obtain ⟨d, layer, bp⟩ := st
    unfold fpRelaxEdges at hk
    rcases RunOut.bind_eq_panicked hk with h1 | ⟨cur, h2, h3⟩
    · exact DState.get_po d nb kk h1
    · simp only [] at h3
      split at h3
      · split at h3
        · exact ih _ kk h3
        · exact ih _ kk h3
      · exact ih _ kk h3

theorem fpRelaxLayer_po (bound : CQ) (adj : Graph) : ∀ (l : List ℕ)
    (st : DState × List ℕ × List (ℕ × ℕ)), PanicOther (fpRelaxLayer bound adj l st) := by
  intro l
  induction l with
  | nil =>
    intro st kk hk
    exact RunOut.noConfusion hk
  | cons nid rest ih =>
    intro st kk hk
    obtain ⟨d, layer, bp⟩ := st
    unfold fpRelaxLayer at hk
    rcases RunOut.bind_eq_panicked hk with h1 | ⟨cost, h2, h3⟩
    · exact DState.get_po d nid kk h1
    · rcases RunOut.bind_eq_panicked h3 with h4 | ⟨nbrs, h5, h6⟩
      · exact getNeighbors_po adj nid kk h4
      · rcases RunOut.bind_eq_panicked h6 with h7 | ⟨st1, h8, h9⟩
        · exact fpRelaxEdges_po _ _ _ _ _ kk h7
        · exact ih _ kk h9

theorem layersGo_po (bound : CQ) (adj : Graph) (k flen : ℕ) : ∀ (r : ℕ)
    (layers : List (List ℕ)) (allL : List ℕ) (bp : List (ℕ × ℕ)) (d : DState),
    PanicOther (layersGo bound adj k flen r layers allL bp d) := by
  intro r
  induction r with
  | zero =>
    intro layers allL bp d kk hk
    exact RunOut.noConfusion hk
  | succ r ih =>
    intro layers allL bp d kk hk
    unfold layersGo at hk
    simp only [] at hk
    rcases RunOut.bind_eq_panicked hk with h1 | ⟨⟨d1, newLayer, bp1⟩, h2, h3⟩
    · exact fpRelaxLayer_po _ _ _ _ kk h1
    · simp only [] at h3
      split at h3
      · exact RunOut.noConfusion h3
      · exact ih _ _ _ _ kk h3

theorem chase_po (bp : List (ℕ × ℕ)) : ∀ (fuel : ℕ) (cur : ℕ) (branch : List ℕ)
    (ntr : List (ℕ × ℕ)), PanicOther (chase bp fuel cur branch ntr) := by
  intro fuel
  induction fuel with
  | zero =>
    intro cur branch ntr kk hk
    exact RunOut.noConfusion hk
  | succ fuel ih =>
    intro cur branch ntr kk hk
    unfold chase at hk
    split at hk
    · exact RunOut.noConfusion hk
    · split at hk
      · simp only [] at hk
        exact ih _ _ _ kk hk
      · exact ih _ _ _ kk hk

theorem walkLeaves_po (bp : List (ℕ × ℕ)) (fuel : ℕ) : ∀ (leaves : List ℕ)
    (counts ntr : List (ℕ × ℕ)), PanicOther (walkLeaves bp fuel leaves counts ntr) := by
  intro leaves
  induction leaves with
  | nil =>
    intro counts ntr kk hk
    exact RunOut.noConfusion hk
  | cons leaf rest ih =>
    intro counts ntr kk hk
    unfold walkLeaves at hk
    rcases RunOut.bind_eq_panicked hk with h1 | ⟨⟨root, branch, ntr1⟩, h2, h3⟩
    · exact chase_po _ _ _ _ _ kk h1
    · simp only [] at h3
      exact ih _ _ kk h3

theorem findPivots_po (bound : CQ) (frontier : List ℕ) (k : ℕ) (adj : Graph)
    (d : DState) (fuel : ℕ) : PanicOther (findPivots bound frontier k adj d fuel) := by
  intro kk hk
  unfold findPivots at hk
  simp only [] at hk
  rcases RunOut.bind_eq_panicked hk with h1 | ⟨res, h2, h3⟩
  · exact layersGo_po _ _ _ _ _ _ _ _ _ kk h1
  · split at h3
    · exact RunOut.noConfusion h3
    · rcases RunOut.bind_eq_panicked h3 with h4 | ⟨counts, h5, h6⟩
      · exact walkLeaves_po _ _ _ _ _ kk h4
      · exact RunOut.noConfusion h6

theorem pivotInsertLoop_po (ub : CQ) (d : DState) : ∀ (ps : List ℕ) (bl : BlockList)
    (minUb : CQ), PanicOther (pivotInsertLoop ub d ps bl minUb) := by
  intro ps
  induction ps with
  | nil =>
    intro bl minUb kk hk
    exact RunOut.noConfusion hk
  | cons p rest ih =>
    intro bl minUb kk hk
    unfold pivotInsertLoop at hk
    rcases RunOut.bind_eq_panicked hk with h1 | ⟨dist, h2, h3⟩
    · exact DState.get_po d p kk h1
    · split at h3
      · exact po_of_panicked_other h3
      · rcases RunOut.bind_eq_panicked h3 with h4 | ⟨bl1, h5, h6⟩
        · exact insert_po _ _ _ kk h4
        · exact ih _ _ kk h6

theorem boundedRelaxEdges_po (ub curUb newUb : CQ) (nid : ℕ) : ∀ (es : List (ℕ × CQ))
    (st : BlockList × List (ℕ × CQ) × DState),
    PanicOther (boundedRelaxEdges ub curUb newUb nid es st) := by
  intro es
  induction es with
  | nil =>
    intro st kk hk
    exact RunOut.noConfusion hk
  | cons e rest ih =>
    intro st kk hk
    obtain ⟨nb, w⟩ := e
    obtain ⟨bl, batch, d⟩ := st
    unfold boundedRelaxEdges at hk
    rcases RunOut.bind_eq_panicked hk with h1 | ⟨dn, h2, h3⟩
    · exact DState.get_po d nid kk h1
    · simp only [] at h3
      rcases RunOut.bind_eq_panicked h3 with h4 | ⟨cur, h5, h6⟩
      · exact DState.get_po d nb kk h4
      · split at h6
        · split at h6
          · rcases RunOut.bind_eq_panicked h6 with h7 | ⟨bl1, h8, h9⟩
            · exact insert_po _ _ _ kk h7
            · exact ih _ kk h9
          · split at h6
            · exact ih _ kk h6
            · exact ih _ kk h6
        · exact ih _ kk h6

theorem boundedUsetLoop_po (ub curUb newUb : CQ) (adj : Graph) : ∀ (ns uSet : List ℕ)
    (bl : BlockList) (batch : List (ℕ × CQ)) (d : DState),
    PanicOther (boundedUsetLoop ub curUb newUb adj ns uSet bl batch d) := by
  intro ns
  induction ns with
  | nil =>
    intro uSet bl batch d kk hk
    exact RunOut.noConfusion hk
  | cons nid rest ih =>
    intro uSet bl batch d kk hk
    unfold boundedUsetLoop at hk
    simp only [] at hk
    rcases RunOut.bind_eq_panicked hk with h1 | ⟨nbrs, h2, h3⟩
    · exact getNeighbors_po adj nid kk h1
    · rcases RunOut.bind_eq_panicked h3 with h4 | ⟨⟨bl1, batch1, d1⟩, h5, h6⟩
      · exact boundedRelaxEdges_po _ _ _ _ _ _ kk h4
      · simp only [] at h6
        exact ih _ _ _ _ kk h6

theorem frontierStage_po (newUb curUb : CQ) : ∀ (ns : List ℕ) (batch : List (ℕ × CQ))
    (d : DState), PanicOther (frontierStage newUb curUb ns batch d) := by
  intro ns
  induction ns with
  | nil =>
    intro batch d kk hk
    exact RunOut.noConfusion hk
  | cons nid rest ih =>
    intro batch d kk hk
    unfold frontierStage at hk
    rcases RunOut.bind_eq_panicked hk with h1 | ⟨c, h2, h3⟩
    · exact DState.get_po d nid kk h1
    · split at h3
      · exact ih _ _ kk h3
      · exact ih _ _ kk h3

theorem layerAugment_po (minUb : CQ) : ∀ (ns uSet : List ℕ) (d : DState),
    PanicOther (layerAugment minUb ns uSet d) := by
  intro ns
  induction ns with
  | nil =>
    intro uSet d kk hk
    exact RunOut.noConfusion hk
  | cons nid rest ih =>
    intro uSet d kk hk
    unfold layerAugment at hk
    rcases RunOut.bind_eq_panicked hk with h1 | ⟨c, h2, h3⟩
    · exact DState.get_po d nid kk h1
    · exact ih _ _ kk h3

theorem pivotInsertLoop_bl {ub : CQ} {d : DState} : ∀ {ps : List ℕ} {bl : BlockList}
    {minUb : CQ} {r : BlockList × CQ}, pivotInsertLoop ub d ps bl minUb = .ok r →
    Backing bl → r.1.M = bl.M ∧ Backing r.1 := by
  intro ps
  induction ps with
  | nil =>
    intro bl minUb r h hb
    injection h with h2
    rw [← h2]
    exact ⟨rfl, hb⟩
  | cons p rest ih =>
    intro bl minUb r h hb
    unfold pivotInsertLoop at h
    obtain ⟨dist, g1, g2⟩ := RunOut.bind_eq_ok h
    split at g2
    · exact RunOut.noConfusion g2
    · obtain ⟨bl1, f1, f2⟩ := RunOut.bind_eq_ok g2
      obtain ⟨m1, b1⟩ := insert_backing f1 hb
      obtain ⟨m2, b2⟩ := ih f2 b1
      exact ⟨m2.trans m1, b2⟩

theorem boundedRelaxEdges_bl {ub curUb newUb : CQ} {nid : ℕ} :
    ∀ {es : List (ℕ × CQ)} {st : BlockList × List (ℕ × CQ) × DState}
    {st2 : BlockList × List (ℕ × CQ) × DState},
    boundedRelaxEdges ub curUb newUb nid es st = .ok st2 →
    Backing st.1 → st2.1.M = st.1.M ∧ Backing st2.1 := by
  intro es
  induction es with
  | nil =>
    intro st st2 h hb
    injection h with h2
    rw [← h2]
    exact ⟨rfl, hb⟩
  | cons e rest ih =>
    intro st st2 h hb
    obtain ⟨nb, w⟩ := e
    obtain ⟨bl, batch, d⟩ := st
    unfold boundedRelaxEdges at h
    obtain ⟨dn, g1, g2⟩ := RunOut.bind_eq_ok h
    simp only [] at g2
    obtain ⟨cur, f1, f2⟩ := RunOut.bind_eq_ok g2
    split at f2
    · split at f2
      · obtain ⟨bl1, e1, e2⟩ := RunOut.bind_eq_ok f2
        obtain ⟨m1, b1⟩ := insert_backing e1 hb
        obtain ⟨m2, b2⟩ := ih e2 b1
        exact ⟨m2.trans m1, b2⟩
      · split at f2
        · obtain ⟨m2, b2⟩ := ih f2 hb
          exact ⟨m2, b2⟩
        · obtain ⟨m2, b2⟩ := ih f2 hb
          exact ⟨m2, b2⟩
    · obtain ⟨m2, b2⟩ := ih f2 hb
      exact ⟨m2, b2⟩

theorem boundedUsetLoop_bl {ub curUb newUb : CQ} {adj : Graph} :
    ∀ {ns uSet : List ℕ} {bl : BlockList} {batch : List (ℕ × CQ)} {d : DState}
    {r : List ℕ × BlockList × List (ℕ × CQ) × DState},
    boundedUsetLoop ub curUb newUb adj ns uSet bl batch d = .ok r →
    Backing bl → r.2.1.M = bl.M ∧ Backing r.2.1 := by
  intro ns
  induction ns with
  | nil =>
    intro uSet bl batch d r h hb
    injection h with h2
    rw [← h2]
    exact ⟨rfl, hb⟩
  | cons nid rest ih =>
    intro uSet bl batch d r h hb
    unfold boundedUsetLoop at h
    simp only [] at h
    obtain ⟨nbrs, g1, g2⟩ := RunOut.bind_eq_ok h
    obtain ⟨⟨bl1, batch1, d1⟩, f1, f2⟩ := RunOut.bind_eq_ok g2
    simp only [] at f2
    obtain ⟨m1, b1⟩ := boundedRelaxEdges_bl f1 hb
    obtain ⟨m2, b2⟩ := ih f2 b1
    exact ⟨m2.trans m1, b2⟩

theorem boundedWhile_po_any {rec : CQ → List ℕ → DState → RunOut ((CQ × List ℕ) × DState)}
    (hrec : ∀ cu f d, PanicOther (rec cu f d)) (ub : CQ) (adj : Graph) (maxU : ℕ) :
    ∀ (fuel : ℕ) (uSet : List ℕ) (bl : BlockList) (minUb : CQ) (d : DState),
    PanicOther (boundedWhile rec ub adj maxU fuel uSet bl minUb d) := by
  intro fuel
  induction fuel with
  | zero =>
    intro uSet bl minUb d kk hk
    exact RunOut.noConfusion hk
  | succ fuel ih =>
    intro uSet bl minUb d kk hk
    unfold boundedWhile at hk
    split at hk
    · rcases RunOut.bind_eq_panicked hk with h1 | ⟨⟨⟨newFrontier, curUb⟩, bl1⟩, h2, h3⟩
      · exact pull_po bl kk h1
      · simp only [] at h3
        rcases RunOut.bind_eq_panicked h3 with h4 | ⟨⟨⟨newUb, newUset⟩, d1⟩, h5, h6⟩
        · exact hrec _ _ _ kk h4
        · simp only [] at h6
          rcases RunOut.bind_eq_panicked h6 with h7 | ⟨⟨uSet1, bl2, batch, d2⟩, h8, h9⟩
          · exact boundedUsetLoop_po _ _ _ _ _ _ _ _ _ kk h7
          · simp only [] at h9
            rcases RunOut.bind_eq_panicked h9 with h10 | ⟨batch1, h11, h12⟩
            · exact frontierStage_po _ _ _ _ _ kk h10
            · rcases RunOut.bind_eq_panicked h12 with h13 | ⟨bl3, h14, h15⟩
              · exact batchPrepend_po _ _ kk h13
              · exact ih _ _ _ _ kk h15
    · exact RunOut.noConfusion hk

theorem boundedWhile_po_one {rec : CQ → List ℕ → DState → RunOut ((CQ × List ℕ) × DState)}
    (hrec : ∀ cu f d, f.length = 1 → PanicOther (rec cu f d)) (ub : CQ) (adj : Graph)
    (maxU : ℕ) : ∀ (fuel : ℕ) (uSet : List ℕ) (bl : BlockList) (minUb : CQ) (d : DState),
    bl.M = 1 → Backing bl →
    PanicOther (boundedWhile rec ub adj maxU fuel uSet bl minUb d) := by
  intro fuel
  induction fuel with
  | zero =>
    intro uSet bl minUb d hM hb kk hk
    exact RunOut.noConfusion hk
  | succ fuel ih =>
    intro uSet bl minUb d hM hb kk hk
    unfold boundedWhile at hk
    by_cases hcond : uSet.length < maxU ∧ bl.isEmpty = false
    · rw [if_pos hcond] at hk
      rcases RunOut.bind_eq_panicked hk with h1 | ⟨⟨⟨newFrontier, curUb⟩, bl1⟩, h2, h3⟩
      · exact pull_po bl kk h1
      · simp only [] at h3
        have hlen1 : newFrontier.length = 1 := pull_len1 hM hb hcond.2 h2
        obtain ⟨hm1, hb1⟩ := pull_backing h2 hb
        rcases RunOut.bind_eq_panicked h3 with h4 | ⟨⟨⟨newUb, newUset⟩, d1⟩, h5, h6⟩
        · exact hrec _ _ _ hlen1 kk h4
        · simp only [] at h6
          rcases RunOut.bind_eq_panicked h6 with h7 | ⟨⟨uSet1, bl2, batch, d2⟩, h8, h9⟩
          · exact boundedUsetLoop_po _ _ _ _ _ _ _ _ _ kk h7
          · simp only [] at h9
            obtain ⟨hm2, hb2⟩ := boundedUsetLoop_bl h8 hb1
            rcases RunOut.bind_eq_panicked h9 with h10 | ⟨batch1, h11, h12⟩
            · exact frontierStage_po _ _ _ _ _ kk h10
            · rcases RunOut.bind_eq_panicked h12 with h13 | ⟨bl3, h14, h15⟩
              · exact batchPrepend_po _ _ kk h13
              · obtain ⟨hm3, hb3⟩ := batchPrepend_backing h14 hb2
                refine ih _ _ _ _ ?_ hb3 kk h15
                rw [hm3, hm2, hm1]
                exact hM
    · rw [if_neg hcond] at hk
      exact RunOut.noConfusion hk

theorem bmsspBounded_po {k t : ℕ} {adj : Graph} {fuel : ℕ} : ∀ (l : ℕ) (ub : CQ)
    (frontier : List ℕ) (d : DState), (l = 0 → frontier.length = 1) →
    PanicOther (bmsspBounded k t adj fuel l ub frontier d) := by
  intro l
  induction l with
  | zero =>
    intro ub frontier d hf kk hk
    have hf1 := hf rfl
    unfold bmsspBounded at hk
    cases frontier with
    | nil => simp at hf1
    | cons x rest =>
      cases rest with
      | nil => exact baseBmssp_po ub x k adj d fuel kk hk
      | cons y rest2 =>
        simp only [List.length_cons] at hf1
        omega
  | succ l ih =>
    intro ub frontier d hf kk hk
    unfold bmsspBounded at hk
    rcases RunOut.bind_eq_panicked hk with h1 | ⟨⟨⟨pivots, layerSet⟩, d1⟩, h2, h3⟩
    · exact findPivots_po _ _ _ _ _ _ kk h1
    · simp only [] at h3
      rcases RunOut.bind_eq_panicked h3 with h4 | ⟨⟨bl1, minUb0⟩, h5, h6⟩
      · exact pivotInsertLoop_po _ _ _ _ _ kk h4
      · simp only [] at h6
        rcases RunOut.bind_eq_panicked h6 with h7 | ⟨⟨⟨minUb, uSet⟩, d2⟩, h8, h9⟩
        · cases l with
          | zero =>
            have hbNew : Backing (BlockList.new (blockCapacity t (0 + 1)) ub) :=
              fun p hp => absurd hp (List.not_mem_nil p)
            have hM1 : bl1.M = 1 := by
              have h0 := (pivotInsertLoop_bl h5 hbNew).1
              simpa [BlockList.new, blockCapacity] using h0
            have hb1 : Backing bl1 := by
              have h0 := (pivotInsertLoop_bl h5 hbNew).2
              exact h0
            have hrec0 : ∀ cu f dd, f.length = 1 →
                PanicOther (bmsspBounded k t adj fuel 0 cu f dd) := by
              intro cu f dd hlen
              exact ih cu f dd (fun _ => hlen)
            have hPO := boundedWhile_po_one hrec0 ub adj (uSetCap k t (0 + 1)) fuel []
              bl1 minUb0 d1 hM1 hb1
            exact hPO kk h7
          | succ l2 =>
            have hrec1 : ∀ cu f dd, PanicOther (bmsspBounded k t adj fuel (l2 + 1) cu f dd) := by
              intro cu f dd
              exact ih cu f dd (fun h0 => absurd h0 (Nat.succ_ne_zero l2))
            have hPO := boundedWhile_po_any hrec1 ub adj (uSetCap k t (l2 + 1 + 1)) fuel []
              bl1 minUb0 d1
            exact hPO kk h7
        · simp only [] at h9
          rcases RunOut.bind_eq_panicked h9 with h10 | ⟨uSet1, h11, h12⟩
          · exact layerAugment_po _ _ _ _ kk h10
          · exact RunOut.noConfusion h12

theorem bmsspAll_po (adj : Graph) (start k t l fuel : ℕ) :
    PanicOther (bmsspAll adj start k t l fuel) := by
  intro kk hk
  unfold bmsspAll at hk
  simp only [] at hk
  rcases RunOut.bind_eq_panicked hk with h1 | ⟨⟨r1, d1⟩, h2, h3⟩
  · exact bmsspBounded_po l CQ.inf [start] _ (fun _ => rfl) kk h1
  · exact RunOut.noConfusion h3

/-- C10.  The Block List built at recursion level 1 has capacity
2 ^ (t * 0) = 1 whatever t is; a pull from a non-empty list whose position
index is backed by physical entries returns exactly one vertex when M = 1;
and consequently bmssp_all can never fail the frontier-length assertion of
level 0: on every graph, source, parameter choice and fuel, its outcome is
not the frontier-assert panic. -/
theorem C10_frontier_assertion_never_fails :
    (∀ t : ℕ, blockCapacity t 1 = 1) ∧
    (∀ (s : BlockList) (r : List NodeId × CQ) (s2 : BlockList),
      s.M = 1 → Backing s → s.isEmpty = false → s.pull = .ok (r, s2) →
      r.1.length = 1) ∧
    (∀ (adj : Graph) (start k t l fuel : ℕ),
      bmsspAll adj start k t l fuel ≠ .panicked .frontierAssert) := by
  refine ⟨?_, ?_, ?_⟩
  · intro t
    simp [blockCapacity]
  · intro s r s2 hM hb hne h
    exact pull_len1 hM hb hne h
  · intro adj start k t l fuel hk
    have h2 := bmsspAll_po adj start k t l fuel .frontierAssert hk
    exact PanicKind.noConfusion h2

/-- Witness for C10: the capacity formula at t = 2, the exact-one-vertex
pull applied at the concrete one-entry list c10State with M = 1, and the
no-frontier-assert conclusion applied to the 4-vertex path graph with the
parameters the entry point computes for it. -/
theorem C10_frontier_assertion_never_fails_witness :
    blockCapacity 2 1 = 1 ∧
    (c10State.M = 1 ∧ c10State.isEmpty = false ∧
      c10State.pull = .ok ((([0] : List NodeId), cqI 10), c10Post) ∧
      (([0] : List NodeId), cqI 10).1.length = 1) ∧
    bmsspAll adjC6 0 2 1 2 50 ≠ .panicked .frontierAssert := by
  refine ⟨C10_frontier_assertion_never_fails.1 2,
    ⟨rfl, rfl, ?_, ?_⟩,
    C10_frontier_assertion_never_fails.2.2 adjC6 0 2 1 2 50⟩
  · decide
  · exact C10_frontier_assertion_never_fails.2.1 c10State (([0] : List NodeId), cqI 10)
      c10Post rfl (by unfold Backing HasEntry; decide) rfl (by decide)

end SSPS
